import Mathlib

/-!
# Verification of the streaming CSV ingestion front-end

A shallow embedding of `input_format_csv.rs` (the CSV aligner and row/field
decoder of the data-loading subsystem), together with theorems settling the
specification's claims about it.

Bytes are modelled as `Nat`, byte buffers as `List Nat`, fallible code as
`Except ErrorCode`.  The Rust code mutates an `AligningState` in place; the
embedding passes the state explicitly and returns the updated state.
-/

/-- Record terminator configuration: a fixed CRLF family or any single byte
(`RecordDelimiter::Crlf` / `RecordDelimiter::Any(v)` mapped onto
`csv_core::Terminator`). -/
inductive CsvTerm where
  | crlf : CsvTerm
  | anyB : Nat → CsvTerm
deriving DecidableEq, Repr

/-- Tokenizer configuration: field delimiter byte, quote byte, record
terminator (what `CsvReaderState::create` feeds into the tokenizer builder). -/
structure TokCfg where
  delim : Nat
  quote : Nat
  term : CsvTerm
deriving DecidableEq, Repr

/-- Phase of the byte-level tokenizer state machine. -/
inductive Phase where
  | startField : Phase
  | inField : Phase
  | inQuoted : Phase
  | quoteInQuoted : Phase
  | afterCR : Phase
deriving DecidableEq, Repr

/-- Modelled from the spec: the persistent state of the tokenizer core (the
external `csv_core::Reader`).  `outputPos` is the number of decoded bytes
written for the record currently in progress, accumulated across calls and
reset to zero when a record completes; field-end offsets are recorded
relative to the start of the current record's decoded output. -/
structure TokState where
  phase : Phase
  outputPos : Nat
deriving DecidableEq, Repr

def isTermByte : CsvTerm → Nat → Bool
  | .crlf, b => b == 13 || b == 10
  | .anyB t, b => b == t

/-- One intended action of the tokenizer on a single input byte:
either consume it and continue (writing `w`, recording field ends `e`),
or consume it and complete the record (`stop`). -/
inductive RawAct where
  | cont : List Nat → List Nat → TokState → RawAct
  | stop : List Nat → List Nat → TokState → RawAct
deriving DecidableEq, Repr

/-- Record-completion action: the final field ends at the current output
position; in CRLF mode a carriage return leaves the machine ready to swallow
a following line feed. -/
def stopAct (cfg : TokCfg) (st : TokState) (b : Nat) : RawAct :=
  .stop [] [st.outputPos]
    ⟨if cfg.term = .crlf ∧ b = 13 then .afterCR else .startField, 0⟩

/-- Behaviour at the start of a field (also the start of a record). -/
def startFieldStep (cfg : TokCfg) (st : TokState) (b : Nat) : RawAct :=
  if b = cfg.quote then .cont [] [] ⟨.inQuoted, st.outputPos⟩
  else if b = cfg.delim then .cont [] [st.outputPos] ⟨.startField, st.outputPos⟩
  else if isTermByte cfg.term b then stopAct cfg st b
  else .cont [b] [] ⟨.inField, st.outputPos + 1⟩

/-- Modelled from the spec: the byte-level transition of the tokenizer core
(the external `csv_core` crate): field/record boundary recognition and
unescaping of quoted content (doubled quotes collapse to one; delimiters and
terminator bytes inside quotes are data). -/
def tokStep (cfg : TokCfg) (st : TokState) (b : Nat) : RawAct :=
  match st.phase with
  | .afterCR =>
      if b = 10 then .cont [] [] ⟨.startField, st.outputPos⟩
      else startFieldStep cfg st b
  | .startField => startFieldStep cfg st b
  | .inField =>
      if b = cfg.delim then .cont [] [st.outputPos] ⟨.startField, st.outputPos⟩
      else if isTermByte cfg.term b then stopAct cfg st b
      else .cont [b] [] ⟨.inField, st.outputPos + 1⟩
  | .inQuoted =>
      if b = cfg.quote then .cont [] [] ⟨.quoteInQuoted, st.outputPos⟩
      else .cont [b] [] ⟨.inQuoted, st.outputPos + 1⟩
  | .quoteInQuoted =>
      if b = cfg.quote then .cont [cfg.quote] [] ⟨.inQuoted, st.outputPos + 1⟩
      else if b = cfg.delim then .cont [] [st.outputPos] ⟨.startField, st.outputPos⟩
      else if isTermByte cfg.term b then stopAct cfg st b
      else .cont [b] [] ⟨.inField, st.outputPos + 1⟩

/-- Result tag of one tokenizer invocation (`csv_core::ReadRecordResult`). -/
inductive RRes where
  | inputEmpty : RRes
  | outputFull : RRes
  | outputEndsFull : RRes
  | record : RRes
  | eos : RRes
deriving DecidableEq, Repr

/-- Outcome of one tokenizer invocation: result tag, bytes consumed, decoded
bytes written, field ends recorded, and the updated tokenizer state. -/
structure RR where
  result : RRes
  nIn : Nat
  out : List Nat
  ends : List Nat
  st : TokState
deriving DecidableEq, Repr

/-- Modelled from the spec: one invocation of the tokenizer core
(`csv_core::Reader::read_record`): given an input slice and capacities of the
output buffer and the field-end table, consume bytes until the record
completes, the input is exhausted, or a buffer is exhausted.  End-of-stream
signalling is handled outside `align` and is not modelled; an empty input
slice reports input exhaustion. -/
def readRecord (cfg : TokCfg) (st : TokState) (input : List Nat)
    (outCap endsCap : Nat) : RR :=
  match input with
  | [] => ⟨.inputEmpty, 0, [], [], st⟩
  | b :: rest =>
    match tokStep cfg st b with
    | .cont w e st' =>
        if w.length ≤ outCap then
          if e.length ≤ endsCap then
            let r := readRecord cfg st' rest (outCap - w.length) (endsCap - e.length)
            ⟨r.result, r.nIn + 1, w ++ r.out, e ++ r.ends, r.st⟩
          else ⟨.outputEndsFull, 0, [], [], st⟩
        else ⟨.outputFull, 0, [], [], st⟩
    | .stop w e st' =>
        if w.length ≤ outCap then
          if e.length ≤ endsCap then ⟨.record, 1, w, e, st'⟩
          else ⟨.outputEndsFull, 0, [], [], st⟩
        else ⟨.outputFull, 0, [], [], st⟩

/-- The error type as used by this file: `common_exception::ErrorCode`
restricted to the constructors the sources build (`BadBytes` from
`csv_error`, `InvalidArgument` from `get_format_settings`). -/
inductive ErrorCode where
  | badBytes : String → ErrorCode
  | invalidArgument : String → ErrorCode
deriving DecidableEq, Repr

/-- `csv_error`: wraps a message with path and 1-based row into a
`BadBytes` error. -/
def csvError (msg path : String) (row : Nat) : ErrorCode :=
  .badBytes ("fail to parse CSV " ++ path ++ ":" ++ toString (row + 1) ++ " " ++ msg ++ " ")

/-- Message for a record with fewer field ends than expected
(`"expect {} fields, only found {} "`, note `n_end` is the count found by the
final tokenizer invocation only). -/
def tooFewMsg (numFields nEnd : Nat) : String :=
  "expect " ++ toString numFields ++ " fields, only found " ++ toString nEnd ++ " "

/-- Message for a record with more than `num_fields + 1` field ends. -/
def tooManyMsg (numFields nEnd : Nat) : String :=
  "too many fields, expect " ++ toString numFields ++ ", got " ++ toString nEnd

/-- Message for exhaustion of the field-end scratch table. -/
def tooManyCapMsg (numFields cap : Nat) : String :=
  "too many fields, expect " ++ toString numFields ++ ", got more than " ++ toString cap

/-- Message for a tolerated-trailing-delimiter violation. -/
def trailingMsg : String :=
  "CSV allow ending with ',', but should not have data after it"

/-- The error built by `align` when the tokenizer reports output-buffer
exhaustion during normal alignment. -/
def outputFullErr (path : String) (row : Nat) : ErrorCode :=
  csvError "output more than input" path row

/-- The field-count policy applied to each completed record (the `Record` arm
of `align`): `ends` is the full field-end table accumulated for the record
(`field_ends[..endlen]`), `nEnd` the count recorded by the final tokenizer
invocation (used only in messages).  Returns `none` when the record is
accepted. -/
def recordCheck (numFields nEnd : Nat) (ends : List Nat) : Option String :=
  if ends.length < numFields then some (tooFewMsg numFields nEnd)
  else if ends.length > numFields + 1 then some (tooManyMsg numFields nEnd)
  else if ends.length = numFields + 1 ∧ ends.getD numFields 0 ≠ ends.getD (numFields - 1) 0 then
    some trailingMsg
  else none

/-- Loop state of the normal-alignment loop of `align`: decoded output so far
this call (`out_tmp[..out_pos]`), the in-progress record's field-end table
(`field_ends[..endlen]`), the row/field tables of the batch under
construction, the decoded offset of the last completed row
(`row_batch_end`), and the tokenizer state. -/
structure MainAcc where
  outTmp : List Nat
  ends : List Nat
  rowEnds : List Nat
  fEnds : List Nat
  rbEnd : Nat
  tok : TokState
deriving DecidableEq, Repr

/-- The normal-alignment loop of `align` (`while !buf.is_empty()`): one
tokenizer invocation per iteration; a completed record is validated by
`recordCheck` and appended to the batch under construction.  `startRow` is
the aligner's row counter at call entry (used in error messages), `lrl` the
carried tail's length, `outCapBase` the size of `out_tmp` (the raw input
length).  `fuel` bounds the recursion; `align` supplies `buf.length + 1`,
which is never exhausted since a completed record consumes at least one
byte. -/
def mainLoop (cfg : TokCfg) (numFields : Nat) (path : String)
    (startRow lrl outCapBase : Nat) :
    Nat → MainAcc → List Nat → Except ErrorCode MainAcc
  | _, acc, [] => .ok acc
  | 0, acc, _ :: _ => .ok acc
  | fuel + 1, acc, b :: rest =>
      match readRecord cfg acc.tok (b :: rest)
          (outCapBase - acc.outTmp.length) ((numFields + 6) - acc.ends.length) with
      | ⟨.inputEmpty, _, rout, rends, rst⟩ =>
          .ok ⟨acc.outTmp ++ rout, acc.ends ++ rends, acc.rowEnds, acc.fEnds, acc.rbEnd, rst⟩
      | ⟨.outputFull, _, _, _, _⟩ =>
          .error (outputFullErr path (startRow + acc.rowEnds.length))
      | ⟨.outputEndsFull, _, _, _, _⟩ =>
          .error (csvError (tooManyCapMsg numFields (numFields + 6)) path
            (startRow + acc.rowEnds.length))
      | ⟨.eos, _, _, _, _⟩ =>
          .error (csvError "unexpect eof" path (startRow + acc.rowEnds.length))
      | ⟨.record, nIn, rout, rends, rst⟩ =>
          match recordCheck numFields rends.length (acc.ends ++ rends) with
          | some m => .error (csvError m path (startRow + acc.rowEnds.length))
          | none =>
              mainLoop cfg numFields path startRow lrl outCapBase fuel
                ⟨acc.outTmp ++ rout, [],
                 acc.rowEnds ++ [lrl + (acc.outTmp ++ rout).length],
                 acc.fEnds ++ ((acc.ends ++ rends).take numFields),
                 (acc.outTmp ++ rout).length, rst⟩
                ((b :: rest).drop nIn)

/-- Outcome of the header-skipping loop: either the chunk was exhausted with
header rows still to skip (`stop`, `align` returns no batch), or all header
rows were skipped and alignment proceeds on the remaining bytes
(`through`). -/
inductive HeaderOut where
  | stop : Nat → Nat → TokState → List Nat → HeaderOut
  | through : Nat → TokState → List Nat → List Nat → HeaderOut
deriving DecidableEq, Repr

/-- The header-skipping loop of `align` (`while state.rows_to_skip > 0`):
each completed header record is validated by `recordCheck`, counted in the
row counter and discarded.  Arguments after `outCap`: rows still to skip,
rows so far, tokenizer state, in-progress field-end table, remaining bytes.
In `stop rows rts tok ends`, `rts` is the remaining skip count; in
`through rows tok ends buf`, all header rows are skipped. -/
def headerLoop (cfg : TokCfg) (numFields : Nat) (path : String) (outCap : Nat) :
    Nat → Nat → TokState → List Nat → List Nat → Except ErrorCode HeaderOut
  | 0, rows, tok, ends, buf => .ok (.through rows tok ends buf)
  | rts + 1, rows, tok, ends, buf =>
      match readRecord cfg tok buf outCap ((numFields + 6) - ends.length) with
      | ⟨.inputEmpty, _, _, rends, rst⟩ => .ok (.stop rows (rts + 1) rst (ends ++ rends))
      | ⟨.outputFull, _, _, _, _⟩ =>
          .error (csvError "output more than input, in header" path rows)
      | ⟨.outputEndsFull, _, _, _, _⟩ =>
          .error (csvError (tooManyCapMsg numFields (numFields + 6)) path rows)
      | ⟨.eos, _, _, _, _⟩ => .error (csvError "unexpect eof in header" path rows)
      | ⟨.record, nIn, _, rends, rst⟩ =>
          match recordCheck numFields rends.length (ends ++ rends) with
          | some m => .error (csvError m path rows)
          | none => headerLoop cfg numFields path outCap rts (rows + 1) rst [] (buf.drop nIn)

/-- `CsvReaderState`: the per-stream reader state carried between `align`
calls: tokenizer state, the carried tail (`out`, decoded bytes after the last
completed row), and the meaningful prefix of the reusable field-end scratch
table (`field_ends[..n_end]`). -/
structure CsvReaderState where
  tok : TokState
  out : List Nat
  fieldEnds : List Nat
deriving DecidableEq, Repr

/-- Modelled from the spec: `AligningState` (defined in
`input_format_text.rs`, not among the sources here), restricted to the fields
`align` uses: the reader state, the monotonic row counter, remaining header
rows to skip, the batch sequence id, the byte offset consumed so far, the
source path and the schema's field count. -/
structure AligningState where
  reader : CsvReaderState
  rows : Nat
  rowsToSkip : Nat
  batchId : Nat
  offset : Nat
  path : String
  numFields : Nat
deriving DecidableEq, Repr

/-- Modelled from the spec: `RowBatch` (defined in `input_format_text.rs`,
not among the sources here), with the fields `align` fills: decoded data,
row-end offsets into `data`, the flattened per-row field-end table, the
source path, batch id, offset and starting row number. -/
structure RowBatch where
  data : List Nat
  rowEnds : List Nat
  fieldEnds : List Nat
  path : String
  batchId : Nat
  offset : Nat
  startRow : Option Nat
deriving DecidableEq, Repr

/-- Intermediate outcome of one `align` call, before batch assembly: either
the call ended inside the header loop, or normal alignment ran (with the
aligner's row count after header skipping, and the final loop state). -/
inductive AlignCore where
  | stopped : Nat → Nat → TokState → List Nat → AlignCore
  | aligned : Nat → MainAcc → AlignCore
deriving DecidableEq, Repr

/-- The two phases of `InputFormatCSV::align` (header skipping, then normal
alignment), without the final batch assembly. -/
def alignCore (cfg : TokCfg) (st : AligningState) (bufIn : List Nat) :
    Except ErrorCode AlignCore :=
  match headerLoop cfg st.numFields st.path bufIn.length st.rowsToSkip st.rows
      st.reader.tok st.reader.fieldEnds bufIn with
  | .error e => .error e
  | .ok (.stop rows rts tok ends) => .ok (.stopped rows rts tok ends)
  | .ok (.through rows tok ends buf) =>
      match mainLoop cfg st.numFields st.path st.rows st.reader.out.length
          bufIn.length (buf.length + 1) ⟨[], ends, [], [], 0, tok⟩ buf with
      | .error e => .error e
      | .ok acc => .ok (.aligned rows acc)

/-- Batch assembly at the end of an `align` call (`input_format_csv.rs`
lines 289-321): with zero completed rows the decoded output joins the carried
tail and no batch is returned; otherwise the batch takes the old tail plus
the decoded output through the last completed row, and the rest becomes the
new tail. -/
def assemble (st : AligningState) (bufInLen : Nat) :
    AlignCore → AligningState × List RowBatch
  | .stopped rows rts tok ends =>
      ({st with
          rows := rows,
          rowsToSkip := rts,
          offset := st.offset + bufInLen,
          reader := ⟨tok, st.reader.out, ends⟩}, [])
  | .aligned rows acc =>
      if acc.rowEnds.isEmpty then
        ({st with
            rows := rows,
            rowsToSkip := 0,
            offset := st.offset + bufInLen,
            reader := ⟨acc.tok, st.reader.out ++ acc.outTmp, acc.ends⟩}, [])
      else
        ({st with
            rows := rows + acc.rowEnds.length,
            rowsToSkip := 0,
            offset := st.offset + bufInLen,
            batchId := st.batchId + 1,
            reader := ⟨acc.tok, acc.outTmp.drop acc.rbEnd, acc.ends⟩},
         [{data := st.reader.out ++ acc.outTmp.take acc.rbEnd,
           rowEnds := acc.rowEnds, fieldEnds := acc.fEnds, path := st.path,
           batchId := st.batchId, offset := 0, startRow := some rows}])

/-- `InputFormatCSV::align`: consume one chunk, return the updated aligner
state and the produced batches (`Vec<RowBatch>`). -/
def align (cfg : TokCfg) (st : AligningState) (bufIn : List Nat) :
    Except ErrorCode (AligningState × List RowBatch) :=
  match alignCore cfg st bufIn with
  | .error e => .error e
  | .ok core => .ok (assemble st bufIn.length core)

/-- Sequential `align` calls over a list of chunks, concatenating the
returned batches (the caller's chunk-feeding loop). -/
def alignAll (cfg : TokCfg) (st : AligningState) :
    List (List Nat) → Except ErrorCode (AligningState × List RowBatch)
  | [] => .ok (st, [])
  | c :: cs =>
      match align cfg st c with
      | .error e => .error e
      | .ok (st1, bs) =>
          match alignAll cfg st1 cs with
          | .error e => .error e
          | .ok (st2, bs2) => .ok (st2, bs ++ bs2)

/-- The aligner state at stream open: fresh tokenizer, empty tail, empty
field-end table (`CsvReaderState::create`), zero rows and batches so far, and
the configured number of header rows to skip. -/
def initState (path : String) (numFields rowsToSkip : Nat) : AligningState :=
  ⟨⟨⟨.startField, 0⟩, [], []⟩, 0, rowsToSkip, 0, 0, path, numFields⟩

/-- Column values as seen by the decoder model: the column's default value
(`defaulted`), the marker produced by the modelled default production when
the empty-as-default setting is off (`undefaulted`), an explicit null, or a
value decoded by the column's type-specific capability. -/
inductive CVal where
  | defaulted : String → CVal
  | undefaulted : String → CVal
  | nullV : CVal
  | parsed : List Nat → CVal
deriving DecidableEq, Repr

/-- Modelled from the spec: the per-stream format settings captured once at
open time (`common_io::FormatSettings`), restricted to the fields
`get_format_settings` fills. -/
structure FormatSettings where
  recordDelimiter : List Nat
  fieldDelimiter : List Nat
  emptyAsDefault : Bool
  quoteChar : Nat
  nullBytes : List Nat
  timezone : String
deriving DecidableEq, Repr

/-- Modelled from the spec: whitespace skipping of
`BufferReadExt::ignore_white_spaces` ("trim whitespace"). -/
def isWS (b : Nat) : Bool := b == 32 || b == 9 || b == 13 || b == 10

/-- Skip leading whitespace (the reader after `ignore_white_spaces`). -/
def skipWS (l : List Nat) : List Nat := l.dropWhile isWS

/-- One column: its schema name, its type-specific decode capability, and
its append-only builder.  Modelled from the spec: the capability
(`TypeDeserializer::de_text`, external) consumes a prefix of the reader,
returning the decoded value and the number of bytes consumed, or a parse
error message. -/
structure CsvColumn where
  name : String
  deText : List Nat → Except String (CVal × Nat)
  builder : List CVal

/-- Modelled from the spec: `TypeDeserializer::de_default` — the column's
default-value production, gated by the empty-as-default setting (spec §4.4:
"If the trimmed slice is empty, invoke the column's default-value production
(gated by the empty-as-default setting)").  The spec does not say what is
produced when the setting is disabled; that case is modelled by a distinct
marker value. -/
def deDefault (fs : FormatSettings) (col : CsvColumn) : CVal :=
  if fs.emptyAsDefault then .defaulted col.name else .undefaulted col.name

/-- Modelled from the spec: `format_column_error` (defined in the TSV input
format module, not among the sources here): a field-decode failure message
carrying the column index, the column name from the schema, the raw field
bytes, and the underlying message. -/
def formatColumnError (schema : List String) (c : Nat) (colData : List Nat)
    (msg : String) : String :=
  "column " ++ toString c ++ " (" ++ schema.getD c "" ++ "), raw data " ++
    toString colData ++ ", " ++ msg

/-- The column loop of `InputFormatCSV::read_row`: for column `c`, slice the
field bytes between the previous field end and `field_ends[c]`, trim
whitespace; an empty trimmed slice invokes the default production, otherwise
the column's decode capability runs and the remaining bytes must be
whitespace only ("bad field end").  On error the embedding returns no
builders: the Rust code's in-place appends to earlier columns are
unobservable because a failed batch is discarded. -/
def readRowGo (fs : FormatSettings) (schema : List String) (path : String)
    (rowIndex : Nat) (buf fieldEnds : List Nat) :
    Nat → Nat → List CsvColumn → Except ErrorCode (List CsvColumn)
  | _, _, [] => .ok []
  | c, fieldStart, col :: cols =>
      let fieldEnd := fieldEnds.getD c 0
      let colData := (buf.take fieldEnd).drop fieldStart
      let rdr := skipWS colData
      if rdr.isEmpty then
        match readRowGo fs schema path rowIndex buf fieldEnds (c + 1) fieldEnd cols with
        | .error e => .error e
        | .ok rest => .ok ({col with builder := col.builder ++ [deDefault fs col]} :: rest)
      else
        match col.deText rdr with
        | .error e =>
            .error (csvError (formatColumnError schema c colData e) path rowIndex)
        | .ok (v, n) =>
            if (skipWS (rdr.drop n)).isEmpty then
              match readRowGo fs schema path rowIndex buf fieldEnds (c + 1) fieldEnd cols with
              | .error e => .error e
              | .ok rest => .ok ({col with builder := col.builder ++ [v]} :: rest)
            else
              .error (csvError (formatColumnError schema c colData "bad field end")
                path rowIndex)

/-- `InputFormatCSV::read_row`. -/
def readRow (fs : FormatSettings) (schema : List String) (cols : List CsvColumn)
    (buf fieldEnds : List Nat) (path : String) (rowIndex : Nat) :
    Except ErrorCode (List CsvColumn) :=
  readRowGo fs schema path rowIndex buf fieldEnds 0 0 cols

/-- The row loop of `InputFormatCSV::deserialize`: row `i` spans the data
between consecutive row ends and uses the `n_column` field ends starting at
`i * n_column`; its absolute row number is `start_row + i`. -/
def deserializeGo (fs : FormatSettings) (schema : List String) (path : String)
    (startRow : Nat) (data fieldEnds : List Nat) :
    Nat → Nat → Nat → List Nat → List CsvColumn → Except ErrorCode (List CsvColumn)
  | _, _, _, [], cols => .ok cols
  | i, start, fIdx, e :: es, cols =>
      let buf := (data.take e).drop start
      let fes := ((fieldEnds.drop fIdx).take cols.length)
      match readRow fs schema cols buf fes path (startRow + i) with
      | .error err => .error err
      | .ok cols' => deserializeGo fs schema path startRow data fieldEnds
          (i + 1) e (fIdx + cols.length) es cols'

/-- `InputFormatCSV::deserialize`: decode one `RowBatch` into the column
builders. -/
def deserialize (fs : FormatSettings) (schema : List String)
    (cols : List CsvColumn) (batch : RowBatch) : Except ErrorCode (List CsvColumn) :=
  deserializeGo fs schema batch.path (batch.startRow.getD 0) batch.data
    batch.fieldEnds 0 0 0 batch.rowEnds cols

/-- Modelled from the spec: the engine settings (`common_settings::Settings`,
external), restricted to the recognized text-format options of spec §6,
including the null-marker byte-sequence option the spec lists as recognized
(default `"\N"`). -/
structure CsvSettings where
  formatQuoteChar : List Nat
  formatRecordDelimiter : List Nat
  formatFieldDelimiter : List Nat
  formatEmptyAsDefault : Nat
  formatNullMarker : Option (List Nat)
  timezoneStr : String
deriving DecidableEq, Repr

/-- `InputFormatCSV::get_format_settings`: capture the per-stream format
settings at open time.  The quote character must be exactly one byte;
`null_bytes` is set to the two-byte sequence `\N` (`vec![b'\\', b'N']`).
The timezone lookup (`get_time_zone`, external) is modelled as a
pass-through. -/
def getFormatSettings (s : CsvSettings) : Except ErrorCode FormatSettings :=
  if s.formatQuoteChar.length ≠ 1 then
    .error (.invalidArgument "quote_char can only contain one char")
  else
    .ok ⟨s.formatRecordDelimiter, s.formatFieldDelimiter,
      decide (s.formatEmptyAsDefault > 0), s.formatQuoteChar.getD 0 0, [92, 78],
      s.timezoneStr⟩

/-- Slices of `data` between consecutive end offsets, starting at `s`. -/
def rowSlicesGo (data : List Nat) : Nat → List Nat → List (List Nat)
  | _, [] => []
  | s, e :: es => (data.take e).drop s :: rowSlicesGo data e es

/-- The row data slices of a batch: `data[prev_end..end]` for each row end,
exactly how `deserialize` slices a batch. -/
def rowSlices (data rowEnds : List Nat) : List (List Nat) :=
  rowSlicesGo data 0 rowEnds

/-- The flattened field-end table regrouped into `numFields` entries per row,
exactly how `deserialize` slices it. -/
def groupFields (numFields : Nat) : Nat → List Nat → List (List Nat)
  | 0, _ => []
  | k + 1, l => l.take numFields :: groupFields numFields k (l.drop numFields)

/-- The rows of a batch as the decoder sees them: each row's data slice
paired with its per-row field ends. -/
def batchRows (numFields : Nat) (b : RowBatch) : List (List Nat × List Nat) :=
  (rowSlices b.data b.rowEnds).zip (groupFields numFields b.rowEnds.length b.fieldEnds)

/-- All rows of a batch list, concatenated in order. -/
def rowsAll (numFields : Nat) (bs : List RowBatch) : List (List Nat × List Nat) :=
  (bs.map (batchRows numFields)).flatten

/-- Total row count of a batch list. -/
def sumRows (bs : List RowBatch) : Nat :=
  (bs.map (fun b => b.rowEnds.length)).sum

/-- Equality of aligner states except for the batch-sequence id (chunked and
whole-stream runs consume batch ids at different rates). -/
def StEq (s t : AligningState) : Prop :=
  s.reader = t.reader ∧ s.rows = t.rows ∧ s.rowsToSkip = t.rowsToSkip ∧
    s.offset = t.offset ∧ s.path = t.path ∧ s.numFields = t.numFields

/-- Agreement of two `align` errors up to message text: both are `csv_error`
(`BadBytes`) failures for the same path.  (The message, including the
reported found-field count and row number, can depend on the chunking.) -/
def ErrAgree (e1 e2 : ErrorCode) : Prop :=
  ∃ p m1 r1 m2 r2, e1 = csvError m1 p r1 ∧ e2 = csvError m2 p r2

/-- Relation between two alignment-loop outcomes: equal on success, errors
agreeing per `ErrAgree` on failure. -/
def MRel : Except ErrorCode MainAcc → Except ErrorCode MainAcc → Prop
  | .ok a, .ok b => a = b
  | .error e1, .error e2 => ErrAgree e1 e2
  | _, _ => False

/-- Relation between two header-loop outcomes: equal on success, errors
agreeing per `ErrAgree` on failure. -/
def HRel : Except ErrorCode HeaderOut → Except ErrorCode HeaderOut → Prop
  | .ok a, .ok b => a = b
  | .error e1, .error e2 => ErrAgree e1 e2
  | _, _ => False

/-- Simulation relation between the whole-stream alignment loop's state and
the chunked run's alignment loop state after the chunk boundary: the
whole-stream loop carries the prefix chunk's decoded output `A0`, rows `R0`
and field ends `F0` in front, its row-end offsets are shifted by `Δ`
(the earlier rows' data length), and its last-row boundary `rbEnd` is offset
accordingly (frozen at `rb0` until the suffix completes a row). -/
def RebRel (A0 R0 F0 : List Nat) (Δ rb0 : Nat) (aW aB : MainAcc) : Prop :=
  aW.tok = aB.tok ∧ aW.ends = aB.ends ∧
  aW.outTmp = A0 ++ aB.outTmp ∧
  aW.rowEnds = R0 ++ aB.rowEnds.map (fun x => x + Δ) ∧
  aW.fEnds = F0 ++ aB.fEnds ∧
  ((aB.rowEnds = [] ∧ aW.rbEnd = rb0 ∧ aB.rbEnd = 0) ∨
   (aB.rowEnds ≠ [] ∧ aW.rbEnd = A0.length + aB.rbEnd))

/-- The observable relation between a whole-stream `align` outcome and a
chunked one: identical row data and field boundaries (and aligner state up
to batch ids) on success; on failure, errors agreeing on path, row and
class. -/
def OutcomeRel (numFields : Nat) :
    Except ErrorCode (AligningState × List RowBatch) →
      Except ErrorCode (AligningState × List RowBatch) → Prop
  | .ok (s1, b1), .ok (s2, b2) =>
      StEq s1 s2 ∧ rowsAll numFields b1 = rowsAll numFields b2
  | .error e1, .error e2 => ErrAgree e1 e2
  | _, _ => False

/-- Non-decreasing list of naturals. -/
def nonDecrB : List Nat → Bool
  | [] => true
  | [_] => true
  | a :: b :: l => Nat.ble a b && nonDecrB (b :: l)

/-- Strictly increasing list of naturals. -/
def strictIncrB : List Nat → Bool
  | [] => true
  | [_] => true
  | a :: b :: l => Nat.blt a b && strictIncrB (b :: l)

/-- Per-row field-end well-formedness as the decoder needs it: for each row,
the `numFields` field ends are non-decreasing and the last one equals the
row's length (its row end minus the previous row's end). -/
def rowsOKb (numFields : Nat) : Nat → List Nat → List Nat → Bool
  | _, [], fs => fs.isEmpty
  | prev, e :: es, fs =>
      nonDecrB (fs.take numFields) &&
        ((fs.take numFields).getLastD 0 == e - prev) && Nat.ble prev e &&
        rowsOKb numFields e es (fs.drop numFields)

/-- The structural invariant a returned `RowBatch` actually satisfies:
`row_ends.length * num_fields == field_ends.length`; row ends non-decreasing,
the last one equal to the data length; per-row field ends non-decreasing with
the last equal to that row's length. -/
def batchWFb (numFields : Nat) (b : RowBatch) : Bool :=
  (b.rowEnds.length * numFields == b.fieldEnds.length) &&
    nonDecrB b.rowEnds && (b.rowEnds.getLastD 0 == b.data.length) &&
    rowsOKb numFields 0 b.rowEnds b.fieldEnds

/-- Per-row field-end shape as the claim words it: the last field end of each
row equal to that row's `row_ends` entry itself. -/
def rowsClaimB (numFields : Nat) : List Nat → List Nat → Bool
  | [], fs => fs.isEmpty
  | e :: es, fs =>
      nonDecrB (fs.take numFields) && ((fs.take numFields).getLastD 0 == e) &&
        rowsClaimB numFields es (fs.drop numFields)

/-- The batch invariant exactly as claimed: length identity, strictly
increasing row ends, and per-row field ends whose last entry equals the
row's `row_ends` entry. -/
def batchClaimB (numFields : Nat) (b : RowBatch) : Bool :=
  (b.rowEnds.length * numFields == b.fieldEnds.length) &&
    strictIncrB b.rowEnds && rowsClaimB numFields b.rowEnds b.fieldEnds

/-- Classification of an `ErrorCode` (which constructor carries it). -/
def errIsBadBytes : ErrorCode → Bool
  | .badBytes _ => true
  | .invalidArgument _ => false

/-- A concrete tokenizer configuration for witnesses: comma-delimited,
double-quoted, newline-terminated. -/
def cfgEx : TokCfg := ⟨44, 34, .anyB 10⟩

/-- Well-formedness of a carried aligner state (holds at stream open and is
preserved by `align`): the carried field-end table is non-decreasing and
bounded by the tokenizer's record-relative output position; once header
skipping is done the output position equals the carried tail's length, and
while header rows remain the tail is empty. -/
def stateWFb (st : AligningState) : Bool :=
  nonDecrB st.reader.fieldEnds &&
    st.reader.fieldEnds.all (fun e => Nat.ble e st.reader.tok.outputPos) &&
    (if st.rowsToSkip = 0 then st.reader.tok.outputPos == st.reader.out.length
     else st.reader.out.isEmpty)

/-- Invariant of the normal-alignment loop state: the in-progress field-end
table is non-decreasing and bounded by the output position; the decoded
position bookkeeping ties the output position to the last row boundary; the
batch tables under construction already satisfy the row/field structural
invariant. -/
def mainWF (lrl nf : Nat) (acc : MainAcc) : Prop :=
  nonDecrB acc.ends = true ∧
    (∀ x ∈ acc.ends, x ≤ acc.tok.outputPos) ∧
    lrl + acc.outTmp.length = acc.rowEnds.getLastD 0 + acc.tok.outputPos ∧
    nonDecrB acc.rowEnds = true ∧
    (acc.rowEnds = [] → acc.rbEnd = 0) ∧
    (acc.rowEnds ≠ [] → acc.rowEnds.getLastD 0 = lrl + acc.rbEnd) ∧
    acc.rbEnd ≤ acc.outTmp.length ∧
    rowsOKb nf 0 acc.rowEnds acc.fEnds = true ∧
    acc.rowEnds.length * nf = acc.fEnds.length

instance exceptDecEq {ε α : Type} [DecidableEq ε] [DecidableEq α] :
    DecidableEq (Except ε α) := fun a b =>
  match a, b with
  | .error e, .error f => decidable_of_iff (e = f) (by simp)
  | .ok x, .ok y => decidable_of_iff (x = y) (by simp)
  | .error _, .ok _ => isFalse (by simp)
  | .ok _, .error _ => isFalse (by simp)

theorem csvError_badBytes (m p : String) (r : Nat) :
    errIsBadBytes (csvError m p r) = true := rfl

theorem headerLoop_err_shape (cfg : TokCfg) (nf : Nat) (path : String) (oc : Nat) :
    ∀ rts rows tok ends buf e,
      headerLoop cfg nf path oc rts rows tok ends buf = .error e →
      ∃ m r, e = csvError m path r := by
  intro rts
  induction rts with
  | zero => intro rows tok ends buf e h; simp [headerLoop] at h
  | succ n ih =>
      intro rows tok ends buf e h
      rw [headerLoop] at h
      rcases hr : readRecord cfg tok buf oc ((nf + 6) - ends.length) with
        ⟨res, nIn, rout, rends, rst⟩
      rw [hr] at h
      cases res with
      | inputEmpty => simp at h
      | outputFull => simp at h; exact ⟨_, _, h.symm⟩
      | outputEndsFull => simp at h; exact ⟨_, _, h.symm⟩
      | eos => simp at h; exact ⟨_, _, h.symm⟩
      | record =>
          simp at h
          match hchk : recordCheck nf rends.length (ends ++ rends) with
          | some m => rw [hchk] at h; simp at h; exact ⟨_, _, h.symm⟩
          | none => rw [hchk] at h; simp at h; exact ih _ _ _ _ _ h

theorem mainLoop_err_shape (cfg : TokCfg) (nf : Nat) (path : String)
    (startRow lrl ocb : Nat) :
    ∀ fuel acc buf e,
      mainLoop cfg nf path startRow lrl ocb fuel acc buf = .error e →
      ∃ m r, e = csvError m path r := by
  intro fuel
  induction fuel with
  | zero =>
      intro acc buf e h
      cases buf with
      | nil => simp [mainLoop] at h
      | cons b rest => simp [mainLoop] at h
  | succ n ih =>
      intro acc buf e h
      cases buf with
      | nil => simp [mainLoop] at h
      | cons b rest =>
          rw [mainLoop] at h
          rcases hr : readRecord cfg acc.tok (b :: rest) (ocb - acc.outTmp.length)
              ((nf + 6) - acc.ends.length) with ⟨res, nIn, rout, rends, rst⟩
          rw [hr] at h
          cases res with
          | inputEmpty => simp at h
          | outputFull => simp at h; exact ⟨_, _, h.symm⟩
          | outputEndsFull => simp at h; exact ⟨_, _, h.symm⟩
          | eos => simp at h; exact ⟨_, _, h.symm⟩
          | record =>
              simp at h
              match hchk : recordCheck nf rends.length (acc.ends ++ rends) with
              | some m => rw [hchk] at h; simp at h; exact ⟨_, _, h.symm⟩
              | none => rw [hchk] at h; simp at h; exact ih _ _ _ h

theorem align_err_shape (cfg : TokCfg) (st : AligningState) (bufIn : List Nat)
    (e : ErrorCode) (h : align cfg st bufIn = .error e) :
    ∃ m r, e = csvError m st.path r := by
  unfold align alignCore at h
  match hh : headerLoop cfg st.numFields st.path bufIn.length st.rowsToSkip st.rows
      st.reader.tok st.reader.fieldEnds bufIn with
  | .error e' =>
      rw [hh] at h; simp at h
      exact h ▸ headerLoop_err_shape _ _ _ _ _ _ _ _ _ _ hh
  | .ok (.stop rows rts tok ends) => rw [hh] at h; simp at h
  | .ok (.through rows tok ends buf) =>
      rw [hh] at h; simp at h
      match hm : mainLoop cfg st.numFields st.path st.rows st.reader.out.length
          bufIn.length (buf.length + 1) ⟨[], ends, [], [], 0, tok⟩ buf with
      | .error e' =>
          rw [hm] at h; simp at h
          exact h ▸ mainLoop_err_shape _ _ _ _ _ _ _ _ _ _ hm
      | .ok acc => rw [hm] at h; simp at h

/-- C10: every `align` call returns at most one `RowBatch`: the empty list
when no row completes, otherwise a singleton whose batch holds at least one
row — never two or more batches. -/
theorem align_at_most_one_batch (cfg : TokCfg) (st : AligningState)
    (bufIn : List Nat) (st' : AligningState) (bs : List RowBatch)
    (h : align cfg st bufIn = .ok (st', bs)) :
    bs.length ≤ 1 ∧ ∀ b ∈ bs, 0 < b.rowEnds.length := by
  unfold align at h
  match hc : alignCore cfg st bufIn with
  | .error e => rw [hc] at h; simp at h
  | .ok core =>
      rw [hc] at h; simp at h
      cases core with
      | stopped rows rts tok ends =>
          simp [assemble] at h
          rw [h.2]
          simp
      | aligned rows acc =>
          by_cases he : acc.rowEnds.isEmpty
          · simp [assemble, he] at h
            rw [h.2]
            simp
          · simp [assemble, he] at h
            rw [← h.2]
            refine ⟨by simp, ?_⟩
            intro b hb
            simp at hb
            rw [hb]
            simp only
            simp [List.isEmpty_iff] at he
            exact List.length_pos.mpr he

/-- C10 witness: a concrete run returning exactly one non-empty batch. -/
theorem align_at_most_one_batch_witness :
    ([(⟨[97, 98], [2], [1, 2], "p", 0, 0, some 0⟩ : RowBatch)] : List RowBatch).length ≤ 1 ∧
      ∀ b ∈ ([(⟨[97, 98], [2], [1, 2], "p", 0, 0, some 0⟩ : RowBatch)] : List RowBatch),
        0 < b.rowEnds.length :=
  align_at_most_one_batch cfgEx (initState "p" 2 0) [97, 44, 98, 44, 10]
    ⟨⟨⟨.startField, 0⟩, [], []⟩, 1, 0, 1, 5, "p", 2⟩ _ (by decide)

/-- C2: the field-count policy.  A completed record with field-end table
`ends` is accepted exactly when `ends.length = num_fields`, or when
`ends.length = num_fields + 1` and the extra final field is empty (its end
offset equals the previous field's end); the three rejection cases produce
the too-few, too-many and data-after-trailing-delimiter messages.
Concretely, `"a,b,\n"` with two fields yields one row `["a","b"]` and
`"a,b,c\n"` a `BadBytes` (malformed row) error. -/
theorem recordCheck_policy (numFields nEnd : Nat) (ends : List Nat)
    (hnf : 0 < numFields) :
    ((recordCheck numFields nEnd ends = none) ↔
      (ends.length = numFields ∨ (ends.length = numFields + 1 ∧
        ends.getD numFields 0 = ends.getD (numFields - 1) 0))) ∧
    (ends.length < numFields →
      recordCheck numFields nEnd ends = some (tooFewMsg numFields nEnd)) ∧
    (numFields + 1 < ends.length →
      recordCheck numFields nEnd ends = some (tooManyMsg numFields nEnd)) ∧
    (ends.length = numFields + 1 → ends.getD numFields 0 ≠ ends.getD (numFields - 1) 0 →
      recordCheck numFields nEnd ends = some trailingMsg) ∧
    (align cfgEx (initState "p" 2 0) [97, 44, 98, 44, 10]).map
        (fun p => p.2.map (batchRows 2)) = .ok [[([97, 98], [1, 2])]] ∧
    align cfgEx (initState "p" 2 0) [97, 44, 98, 44, 99, 10]
      = .error (csvError trailingMsg "p" 0) := by
  refine ⟨?_, ?_, ?_, ?_, by decide, by decide⟩
  · unfold recordCheck
    split_ifs with h1 h2 h3
    · constructor
      · intro h; exact absurd h (by simp)
      · intro h
        rcases h with h | ⟨h, -⟩ <;> omega
    · constructor
      · intro h; exact absurd h (by simp)
      · intro h
        rcases h with h | ⟨h, -⟩ <;> omega
    · constructor
      · intro h; exact absurd h (by simp)
      · intro h
        rcases h with h | ⟨-, h⟩
        · omega
        · exact h3.2 h
    · simp only [true_iff]
      rcases Nat.lt_or_ge ends.length (numFields + 1) with hlt | hge
      · left; omega
      · right
        have hl : ends.length = numFields + 1 := by omega
        refine ⟨hl, ?_⟩
        by_contra hne
        exact h3 ⟨hl, hne⟩
  · intro h; unfold recordCheck; simp [h]
  · intro h
    unfold recordCheck
    have h1 : ¬ ends.length < numFields := by omega
    have h2 : ends.length > numFields + 1 := by omega
    simp [h1, h2]
  · intro hl hne
    unfold recordCheck
    have h1 : ¬ ends.length < numFields := by omega
    have h2 : ¬ ends.length > numFields + 1 := by omega
    rw [if_neg h1, if_neg h2, if_pos ⟨hl, hne⟩]

/-- C2 witness: the policy evaluated at a concrete tolerated record. -/
theorem recordCheck_policy_witness :
    ((recordCheck 2 3 [1, 2, 2] = none) ↔
      (([1, 2, 2] : List Nat).length = 2 ∨ (([1, 2, 2] : List Nat).length = 2 + 1 ∧
        ([1, 2, 2] : List Nat).getD 2 0 = ([1, 2, 2] : List Nat).getD (2 - 1) 0))) ∧
    (([1, 2, 2] : List Nat).length < 2 → recordCheck 2 3 [1, 2, 2] = some (tooFewMsg 2 3)) ∧
    (2 + 1 < ([1, 2, 2] : List Nat).length → recordCheck 2 3 [1, 2, 2] = some (tooManyMsg 2 3)) ∧
    (([1, 2, 2] : List Nat).length = 2 + 1 →
      ([1, 2, 2] : List Nat).getD 2 0 ≠ ([1, 2, 2] : List Nat).getD (2 - 1) 0 →
      recordCheck 2 3 [1, 2, 2] = some trailingMsg) ∧
    (align cfgEx (initState "p" 2 0) [97, 44, 98, 44, 10]).map
        (fun p => p.2.map (batchRows 2)) = .ok [[([97, 98], [1, 2])]] ∧
    align cfgEx (initState "p" 2 0) [97, 44, 98, 44, 99, 10]
      = .error (csvError trailingMsg "p" 0) :=
  recordCheck_policy 2 3 [1, 2, 2] (by decide)

/-- C6 (amended): on tokenizer output-buffer exhaustion `align` fails through
`csv_error` with message "output more than input", a `BadBytes` error — the
same error class as the malformed-row errors, not a distinct internal-error
class (every error `align` returns is `BadBytes`). -/
theorem output_full_error_class :
    (∀ path row, outputFullErr path row = csvError "output more than input" path row ∧
      errIsBadBytes (outputFullErr path row) = true) ∧
    (∀ cfg st bufIn e, align cfg st bufIn = .error e → errIsBadBytes e = true) := by
  refine ⟨fun path row => ⟨rfl, rfl⟩, ?_⟩
  intro cfg st bufIn e h
  obtain ⟨m, r, hmr⟩ := align_err_shape cfg st bufIn e h
  rw [hmr]
  rfl

/-- C6 witness: a concrete erroring `align` call whose error is `BadBytes`. -/
theorem output_full_error_class_witness :
    errIsBadBytes (csvError (tooFewMsg 2 1) "p" 0) = true :=
  output_full_error_class.2 cfgEx (initState "p" 2 0) [97, 10]
    (csvError (tooFewMsg 2 1) "p" 0) (by decide)

/-- C6 counterexample: the output-buffer-exhaustion error has exactly the
same classification (`BadBytes`) as a malformed-row error, refuting the
claimed distinct internal-error class. -/
theorem output_full_error_class_counterexample :
    errIsBadBytes (outputFullErr "f" 0) = errIsBadBytes (csvError (tooFewMsg 2 1) "f" 0) ∧
      outputFullErr "f" 0
        = ErrorCode.badBytes "fail to parse CSV f:1 output more than input " := by
  decide

/-- C9 (amended): the null marker is not read from the settings: the format
settings produced at open time always carry the two-byte sequence `\N`
(`[92, 78]`), whatever the configured null-marker option says. -/
theorem getFormatSettings_null_marker (s : CsvSettings) (fs : FormatSettings)
    (h : getFormatSettings s = .ok fs) : fs.nullBytes = [92, 78] := by
  unfold getFormatSettings at h
  split_ifs at h with h1
  simp at h
  exact h ▸ rfl


/-- C9 witness: a concrete open call, with the default marker produced. -/
theorem getFormatSettings_null_marker_witness :
    (⟨[10], [44], false, 34, [92, 78], "UTC"⟩ : FormatSettings).nullBytes = [92, 78] :=
  getFormatSettings_null_marker ⟨[34], [10], [44], 0, none, "UTC"⟩ _ (by decide)

/-- C9 counterexample: configuring a different null marker does not reach the
produced format settings — they still carry `\N`, refuting "the per-stream
format settings carry the configured null-marker byte sequence". -/
theorem getFormatSettings_null_marker_counterexample :
    getFormatSettings ⟨[34], [10], [44], 0, some [88], "UTC"⟩
        = .ok ⟨[10], [44], false, 34, [92, 78], "UTC"⟩ ∧
      (⟨[34], [10], [44], 0, some [88], "UTC"⟩ : CsvSettings).formatNullMarker = some [88] ∧
      ([92, 78] : List Nat) ≠ [88] := by
  decide

/-- C7: in `read_row`, a field whose byte slice is empty after trimming
whitespace invokes the column's default-value production instead of parsing,
and (spec-modelled gating) that production yields the column's default value
exactly when the empty-as-default setting is enabled. -/
theorem readRow_empty_field_default :
    (∀ fs schema cols buf fieldEnds path rowIndex,
      readRow fs schema cols buf fieldEnds path rowIndex
        = readRowGo fs schema path rowIndex buf fieldEnds 0 0 cols) ∧
    (∀ fs schema path rowIndex buf fieldEnds c fieldStart col cols out,
      readRowGo fs schema path rowIndex buf fieldEnds c fieldStart (col :: cols) = .ok out →
      skipWS ((buf.take (fieldEnds.getD c 0)).drop fieldStart) = [] →
      ∃ rest, out = {col with builder := col.builder ++ [deDefault fs col]} :: rest) ∧
    (∀ fs col, deDefault fs col
        = if fs.emptyAsDefault then CVal.defaulted col.name else CVal.undefaulted col.name) ∧
    (∀ fs col, fs.emptyAsDefault = false → deDefault fs col ≠ CVal.defaulted col.name) := by
  refine ⟨fun _ _ _ _ _ _ _ => rfl, ?_, fun _ _ => rfl, ?_⟩
  · intro fs schema path rowIndex buf fieldEnds c fieldStart col cols out h hempty
    rw [readRowGo] at h
    rw [hempty] at h
    simp at h
    split at h
    · exact absurd h (by simp)
    · simp at h
      exact ⟨_, h.symm⟩
  · intro fs col h
    unfold deDefault
    rw [h]
    simp

/-- C7 witness: a concrete row whose only field is whitespace, decoded with
the empty-as-default setting enabled. -/
theorem readRow_empty_field_default_witness :
    ∃ rest,
      readRowGo ⟨[10], [44], true, 34, [92, 78], "UTC"⟩ ["a"] "p" 0 [32] [1] 0 0
          [⟨"a", fun _ => .error "x", []⟩]
        = .ok ((⟨"a", fun _ => .error "x",
            ([] : List CVal) ++ [deDefault ⟨[10], [44], true, 34, [92, 78], "UTC"⟩
              ⟨"a", fun _ => .error "x", []⟩]⟩ : CsvColumn) :: rest) := by
  obtain ⟨rest, hr⟩ := readRow_empty_field_default.2.1
    (⟨[10], [44], true, 34, [92, 78], "UTC"⟩ : FormatSettings) ["a"] "p" 0 [32] [1] 0 0
    (⟨"a", fun _ => .error "x", []⟩ : CsvColumn) [] _ rfl rfl
  refine ⟨rest, ?_⟩
  rw [← hr]
  rfl

theorem readRowGo_err_shape (fs : FormatSettings) (schema : List String)
    (path : String) (rowIndex : Nat) (buf fieldEnds : List Nat) :
    ∀ cols c fieldStart e,
      readRowGo fs schema path rowIndex buf fieldEnds c fieldStart cols = .error e →
      ∃ cc colData msg,
        e = csvError (formatColumnError schema cc colData msg) path rowIndex := by
  intro cols
  induction cols with
  | nil => intro c fieldStart e h; simp [readRowGo] at h
  | cons col cols ih =>
      intro c fieldStart e h
      rw [readRowGo] at h
      split_ifs at h with hemp
      · split at h
        next e' heq => simp at h; exact h ▸ ih _ _ _ heq
        next rest heq => simp at h
      · split at h
        next e2 heq => simp at h; exact ⟨c, _, e2, h.symm⟩
        next vn heq =>
          split at h
          · split at h
            next e' heq2 => simp at h; exact h ▸ ih _ _ _ heq2
            next rest heq2 => simp at h
          · simp at h
            exact ⟨c, _, "bad field end", h.symm⟩

theorem deserializeGo_err_shape (fs : FormatSettings) (schema : List String)
    (path : String) (startRow : Nat) (data fieldEnds : List Nat) :
    ∀ rowEnds i start fIdx cols e,
      deserializeGo fs schema path startRow data fieldEnds i start fIdx rowEnds cols
          = .error e →
      ∃ k cc colData msg, i ≤ k ∧ k < i + rowEnds.length ∧
        e = csvError (formatColumnError schema cc colData msg) path (startRow + k) := by
  intro rowEnds
  induction rowEnds with
  | nil => intro i start fIdx cols e h; simp [deserializeGo] at h
  | cons eend es ih =>
      intro i start fIdx cols e h
      rw [deserializeGo] at h
      split at h
      next err heq =>
          simp at h
          obtain ⟨cc, colData, msg, hshape⟩ :=
            readRowGo_err_shape fs schema path (startRow + i) _ _ _ _ _ _ heq
          exact ⟨i, cc, colData, msg, Nat.le_refl i, by simp, h ▸ hshape⟩
      next cols' heq =>
          obtain ⟨k, cc, cd, m, hik, hk, hsh⟩ := ih (i + 1) eend (fIdx + cols.length) cols' e h
          exact ⟨k, cc, cd, m, by omega, by simp at hk ⊢; omega, hsh⟩

/-- C8: decode failure atomicity: when any field of any row fails to decode
(parse error or unconsumed trailing bytes), `deserialize` aborts the whole
batch with a `csv_error`-wrapped `format_column_error` carrying the absolute
row number `start_row + i`, the column index/name, the raw field bytes and
the path; the embedding commits no builders on failure. -/
theorem deserialize_malformed_field :
    (∀ fs schema cols batch e, deserialize fs schema cols batch = .error e →
      ∃ k cc colData msg, k < batch.rowEnds.length ∧
        e = csvError (formatColumnError schema cc colData msg) batch.path
          (batch.startRow.getD 0 + k)) ∧
    (∀ fs schema path rowIndex buf fieldEnds cols e,
      readRow fs schema cols buf fieldEnds path rowIndex = .error e →
      ∃ cc colData msg,
        e = csvError (formatColumnError schema cc colData msg) path rowIndex) := by
  constructor
  · intro fs schema cols batch e h
    obtain ⟨k, cc, cd, m, -, hk, hsh⟩ :=
      deserializeGo_err_shape fs schema batch.path (batch.startRow.getD 0) batch.data
        batch.fieldEnds batch.rowEnds 0 0 0 cols e h
    exact ⟨k, cc, cd, m, by omega, hsh⟩
  · intro fs schema path rowIndex buf fieldEnds cols e h
    exact readRowGo_err_shape fs schema path rowIndex buf fieldEnds cols 0 0 e h

/-- C8 witness: a concrete one-row batch whose single field fails to parse. -/
theorem deserialize_malformed_field_witness :
    ∃ k cc colData msg,
      k < (⟨[97], [1], [1], "p", 0, 0, some 5⟩ : RowBatch).rowEnds.length ∧
        csvError (formatColumnError ["a"] 0 [97] "invalid") "p" 5
          = csvError (formatColumnError ["a"] cc colData msg)
              (⟨[97], [1], [1], "p", 0, 0, some 5⟩ : RowBatch).path
              ((⟨[97], [1], [1], "p", 0, 0, some 5⟩ : RowBatch).startRow.getD 0 + k) := by
  obtain ⟨k, cc, cd, m, hk, hsh⟩ := deserialize_malformed_field.1
    (⟨[10], [44], true, 34, [92, 78], "UTC"⟩ : FormatSettings) ["a"]
    [⟨"a", fun _ => .error "invalid", []⟩] (⟨[97], [1], [1], "p", 0, 0, some 5⟩ : RowBatch)
    (csvError (formatColumnError ["a"] 0 [97] "invalid") "p" 5) rfl
  exact ⟨k, cc, cd, m, hk, hsh⟩

theorem alignCore_aligned_inv (cfg : TokCfg) (st : AligningState) (bufIn : List Nat)
    (rows : Nat) (acc : MainAcc)
    (h : alignCore cfg st bufIn = .ok (.aligned rows acc)) :
    ∃ tok ends buf,
      headerLoop cfg st.numFields st.path bufIn.length st.rowsToSkip st.rows
          st.reader.tok st.reader.fieldEnds bufIn = .ok (.through rows tok ends buf) ∧
      mainLoop cfg st.numFields st.path st.rows st.reader.out.length bufIn.length
          (buf.length + 1) ⟨[], ends, [], [], 0, tok⟩ buf = .ok acc := by
  unfold alignCore at h
  match hh : headerLoop cfg st.numFields st.path bufIn.length st.rowsToSkip st.rows
      st.reader.tok st.reader.fieldEnds bufIn with
  | .error e => rw [hh] at h; simp at h
  | .ok (.stop rows' rts' tok' ends') => rw [hh] at h; simp at h
  | .ok (.through rows' tok' ends' buf') =>
      rw [hh] at h
      simp at h
      match hm : mainLoop cfg st.numFields st.path st.rows st.reader.out.length
          bufIn.length (buf'.length + 1) ⟨[], ends', [], [], 0, tok'⟩ buf' with
      | .error e => rw [hm] at h; simp at h
      | .ok acc' =>
          rw [hm] at h; simp at h
          obtain ⟨h1, h2⟩ := h
          exact ⟨tok', ends', buf', by rw [h1], by rw [← h2]; exact hm⟩

theorem mainLoop_rbEnd_inv (cfg : TokCfg) (nf : Nat) (path : String)
    (startRow lrl ocb : Nat) :
    ∀ fuel acc buf acc',
      mainLoop cfg nf path startRow lrl ocb fuel acc buf = .ok acc' →
      acc.rbEnd ≤ acc.outTmp.length →
      (acc.rowEnds = [] → acc.rbEnd = 0) →
      (acc.rowEnds ≠ [] → acc.rowEnds.getLastD 0 = lrl + acc.rbEnd) →
      acc'.rbEnd ≤ acc'.outTmp.length ∧ (acc'.rowEnds = [] → acc'.rbEnd = 0) ∧
        (acc'.rowEnds ≠ [] → acc'.rowEnds.getLastD 0 = lrl + acc'.rbEnd) := by
  intro fuel
  induction fuel with
  | zero =>
      intro acc buf acc' h h1 h2 h3
      cases buf with
      | nil => simp [mainLoop] at h; exact h ▸ ⟨h1, h2, h3⟩
      | cons b rest => simp [mainLoop] at h; exact h ▸ ⟨h1, h2, h3⟩
  | succ n ih =>
      intro acc buf acc' h h1 h2 h3
      cases buf with
      | nil => simp [mainLoop] at h; exact h ▸ ⟨h1, h2, h3⟩
      | cons b rest =>
          rw [mainLoop] at h
          rcases hr : readRecord cfg acc.tok (b :: rest) (ocb - acc.outTmp.length)
              ((nf + 6) - acc.ends.length) with ⟨res, nIn, rout, rends, rst⟩
          rw [hr] at h
          cases res with
          | inputEmpty =>
              simp at h
              rw [← h]
              refine ⟨by simp; omega, h2, ?_⟩
              intro hne
              simp only
              exact h3 hne
          | outputFull => simp at h
          | outputEndsFull => simp at h
          | eos => simp at h
          | record =>
              simp at h
              match hchk : recordCheck nf rends.length (acc.ends ++ rends) with
              | some m => rw [hchk] at h; simp at h
              | none =>
                  rw [hchk] at h; simp at h
                  refine ih _ _ _ h (by simp) (by simp) ?_
                  intro _
                  simp

/-- C3: tail conservation.  If the call ends while skipping headers, no batch
is returned and the tail is unchanged.  Otherwise, with `acc.outTmp` the
bytes decoded by this call's alignment loop: zero completed rows append them
all to the carried tail with no batch returned; at least one completed row
returns one batch whose data is the old tail plus the decoded bytes through
the last completed row boundary (its length equals the last row end), and
the new tail is exactly the decoded bytes after that boundary — nothing
discarded or duplicated. -/
theorem align_tail_conservation (cfg : TokCfg) (st : AligningState) (bufIn : List Nat) :
    (∀ rows rts tok ends, alignCore cfg st bufIn = .ok (.stopped rows rts tok ends) →
      ∃ st', align cfg st bufIn = .ok (st', ([] : List RowBatch)) ∧
        st'.reader.out = st.reader.out) ∧
    (∀ rows acc, alignCore cfg st bufIn = .ok (.aligned rows acc) →
      ∃ st' bs, align cfg st bufIn = .ok (st', bs) ∧
        ((acc.rowEnds = [] ∧ bs = [] ∧ st'.reader.out = st.reader.out ++ acc.outTmp) ∨
         (acc.rowEnds ≠ [] ∧ ∃ b, bs = [b] ∧
           b.data ++ st'.reader.out = st.reader.out ++ acc.outTmp ∧
           b.rowEnds = acc.rowEnds ∧
           b.data.length = b.rowEnds.getLastD 0 ∧
           st'.reader.out = acc.outTmp.drop acc.rbEnd))) := by
  constructor
  · intro rows rts tok ends hcore
    refine ⟨{st with
        rows := rows,
        rowsToSkip := rts,
        offset := st.offset + bufIn.length,
        reader := ⟨tok, st.reader.out, ends⟩}, ?_, rfl⟩
    unfold align
    rw [hcore]
    rfl
  · intro rows acc hcore
    obtain ⟨tok, ends, buf, hh, hm⟩ := alignCore_aligned_inv cfg st bufIn rows acc hcore
    have hinv := mainLoop_rbEnd_inv cfg st.numFields st.path st.rows
      st.reader.out.length bufIn.length (buf.length + 1) ⟨[], ends, [], [], 0, tok⟩
      buf acc hm (by simp) (by simp) (by simp)
    by_cases he : acc.rowEnds.isEmpty
    · refine ⟨{st with
          rows := rows,
          rowsToSkip := 0,
          offset := st.offset + bufIn.length,
          reader := ⟨acc.tok, st.reader.out ++ acc.outTmp, acc.ends⟩}, [], ?_,
        Or.inl ⟨List.isEmpty_iff.mp he, rfl, rfl⟩⟩
      unfold align
      rw [hcore]
      simp [assemble, he]
    · have hne : acc.rowEnds ≠ [] := by
        intro hx; rw [hx] at he; simp at he
      refine ⟨{st with
          rows := rows + acc.rowEnds.length,
          rowsToSkip := 0,
          offset := st.offset + bufIn.length,
          batchId := st.batchId + 1,
          reader := ⟨acc.tok, acc.outTmp.drop acc.rbEnd, acc.ends⟩},
        [(⟨st.reader.out ++ acc.outTmp.take acc.rbEnd, acc.rowEnds, acc.fEnds,
          st.path, st.batchId, 0, some rows⟩ : RowBatch)], ?_,
        Or.inr ⟨hne, ⟨_, rfl, ?_, rfl, ?_, rfl⟩⟩⟩
      · unfold align
        rw [hcore]
        simp [assemble, he]
      · simp only
        rw [List.append_assoc, List.take_append_drop]
      · have h1 := hinv.1
        show (st.reader.out ++ acc.outTmp.take acc.rbEnd).length = acc.rowEnds.getLastD 0
        rw [List.length_append, List.length_take, hinv.2.2 hne]
        omega

/-- C3 witness: a concrete call carrying half a record in, completing one
row and carrying the rest out. -/
theorem align_tail_conservation_witness :
    ∃ st' bs,
      align cfgEx ⟨⟨⟨.inField, 1⟩, [120], []⟩, 0, 0, 0, 2, "p", 1⟩ [97, 10, 98] = .ok (st', bs) ∧
      ((([2] : List Nat) = [] ∧ bs = [] ∧ st'.reader.out = [120] ++ [97, 98]) ∨
       (([2] : List Nat) ≠ [] ∧ ∃ b, bs = [b] ∧
         b.data ++ st'.reader.out = [120] ++ [97, 98] ∧
         b.rowEnds = [2] ∧
         b.data.length = b.rowEnds.getLastD 0 ∧
         st'.reader.out = List.drop 1 [97, 98])) := by
  have h := (align_tail_conservation cfgEx
    ⟨⟨⟨.inField, 1⟩, [120], []⟩, 0, 0, 0, 2, "p", 1⟩ [97, 10, 98]).2 0
    ⟨[97, 98], [], [2], [2], 1, ⟨.inField, 1⟩⟩ (by decide)
  simpa using h

theorem alignCore_stopped_inv (cfg : TokCfg) (st : AligningState) (bufIn : List Nat)
    (rows rts : Nat) (tok : TokState) (ends : List Nat)
    (h : alignCore cfg st bufIn = .ok (.stopped rows rts tok ends)) :
    headerLoop cfg st.numFields st.path bufIn.length st.rowsToSkip st.rows
      st.reader.tok st.reader.fieldEnds bufIn = .ok (.stop rows rts tok ends) := by
  unfold alignCore at h
  match hh : headerLoop cfg st.numFields st.path bufIn.length st.rowsToSkip st.rows
      st.reader.tok st.reader.fieldEnds bufIn with
  | .error e => rw [hh] at h; simp at h
  | .ok (.stop rows' rts' tok' ends') =>
      rw [hh] at h; simp at h
      rw [h.1, h.2.1, h.2.2.1, h.2.2.2]
  | .ok (.through rows' tok' ends' buf') =>
      rw [hh] at h
      simp at h
      match hm : mainLoop cfg st.numFields st.path st.rows st.reader.out.length
          bufIn.length (buf'.length + 1) ⟨[], ends', [], [], 0, tok'⟩ buf' with
      | .error e => rw [hm] at h; simp at h
      | .ok acc' => rw [hm] at h; simp at h

theorem headerLoop_rows (cfg : TokCfg) (nf : Nat) (path : String) (oc : Nat) :
    ∀ rts rows tok ends buf out,
      headerLoop cfg nf path oc rts rows tok ends buf = .ok out →
      (∀ rows' rts' tok' ends', out = .stop rows' rts' tok' ends' →
        rts' ≤ rts ∧ 0 < rts' ∧ rows' = rows + (rts - rts')) ∧
      (∀ rows' tok' ends' buf', out = .through rows' tok' ends' buf' →
        rows' = rows + rts) := by
  intro rts
  induction rts with
  | zero =>
      intro rows tok ends buf out h
      simp [headerLoop] at h
      constructor
      · intro rows' rts' tok' ends' hout
        rw [← h] at hout; simp at hout
      · intro rows' tok' ends' buf' hout
        rw [← h] at hout; simp at hout
        omega
  | succ n ih =>
      intro rows tok ends buf out h
      rw [headerLoop] at h
      rcases hr : readRecord cfg tok buf oc ((nf + 6) - ends.length) with
        ⟨res, nIn, rout, rends, rst⟩
      rw [hr] at h
      cases res with
      | inputEmpty =>
          simp at h
          constructor
          · intro rows' rts' tok' ends' hout
            rw [← h] at hout; simp at hout
            refine ⟨by omega, by omega, ?_⟩
            omega
          · intro rows' tok' ends' buf' hout
            rw [← h] at hout; simp at hout
      | outputFull => simp at h
      | outputEndsFull => simp at h
      | eos => simp at h
      | record =>
          simp at h
          match hchk : recordCheck nf rends.length (ends ++ rends) with
          | some m => rw [hchk] at h; simp at h
          | none =>
              rw [hchk] at h; simp at h
              obtain ⟨hstop, hthrough⟩ := ih (rows + 1) rst [] (buf.drop nIn) out h
              constructor
              · intro rows' rts' tok' ends' hout
                obtain ⟨h1, h2, h3⟩ := hstop rows' rts' tok' ends' hout
                refine ⟨by omega, h2, by omega⟩
              · intro rows' tok' ends' buf' hout
                have := hthrough rows' tok' ends' buf' hout
                omega

theorem sumRows_append (a b : List RowBatch) :
    sumRows (a ++ b) = sumRows a + sumRows b := by
  simp [sumRows]

theorem align_rows_acct (cfg : TokCfg) (st : AligningState) (bufIn : List Nat)
    (st' : AligningState) (bs : List RowBatch)
    (h : align cfg st bufIn = .ok (st', bs)) :
    st'.rowsToSkip ≤ st.rowsToSkip ∧
    st'.rows + st'.rowsToSkip = st.rows + st.rowsToSkip + sumRows bs ∧
    ∀ b ∈ bs, b.startRow = some (st.rows + st.rowsToSkip) := by
  unfold align at h
  match hc : alignCore cfg st bufIn with
  | .error e => rw [hc] at h; simp at h
  | .ok (.stopped rows rts tok ends) =>
      rw [hc] at h
      simp [assemble] at h
      obtain ⟨hst, hbs⟩ := h
      subst hbs
      subst hst
      have hh := alignCore_stopped_inv cfg st bufIn rows rts tok ends hc
      obtain ⟨hstop, -⟩ := headerLoop_rows cfg st.numFields st.path bufIn.length
        st.rowsToSkip st.rows st.reader.tok st.reader.fieldEnds bufIn _ hh
      obtain ⟨h1, h2, h3⟩ := hstop rows rts tok ends rfl
      refine ⟨h1, ?_, by simp⟩
      show rows + rts = st.rows + st.rowsToSkip + sumRows []
      simp [sumRows]
      omega
  | .ok (.aligned rows acc) =>
      rw [hc] at h
      obtain ⟨tok, ends, buf, hh, hm⟩ := alignCore_aligned_inv cfg st bufIn rows acc hc
      obtain ⟨-, hthrough⟩ := headerLoop_rows cfg st.numFields st.path bufIn.length
        st.rowsToSkip st.rows st.reader.tok st.reader.fieldEnds bufIn _ hh
      have hrows : rows = st.rows + st.rowsToSkip := hthrough rows tok ends buf rfl
      by_cases he : acc.rowEnds.isEmpty
      · simp [assemble, he] at h
        obtain ⟨hst, hbs⟩ := h
        subst hbs
        subst hst
        refine ⟨by simp, ?_, by simp⟩
        show rows + 0 = st.rows + st.rowsToSkip + sumRows []
        simp [sumRows]
        omega
      · simp [assemble, he] at h
        obtain ⟨hst, hbs⟩ := h
        subst hbs
        subst hst
        refine ⟨by simp, ?_, ?_⟩
        · show rows + acc.rowEnds.length + 0
            = st.rows + st.rowsToSkip + sumRows [(⟨st.reader.out ++ acc.outTmp.take acc.rbEnd,
              acc.rowEnds, acc.fEnds, st.path, st.batchId, 0, some rows⟩ : RowBatch)]
          simp [sumRows]
          omega
        · intro b hb
          simp at hb
          rw [hb, hrows]

theorem align_batches_shape (cfg : TokCfg) (st : AligningState) (bufIn : List Nat)
    (st' : AligningState) (bs : List RowBatch)
    (h : align cfg st bufIn = .ok (st', bs)) : bs = [] ∨ ∃ b, bs = [b] := by
  unfold align at h
  match hc : alignCore cfg st bufIn with
  | .error e => rw [hc] at h; simp at h
  | .ok (.stopped rows rts tok ends) =>
      rw [hc] at h
      simp [assemble] at h
      exact Or.inl h.2
  | .ok (.aligned rows acc) =>
      rw [hc] at h
      by_cases he : acc.rowEnds.isEmpty
      · simp [assemble, he] at h
        exact Or.inl h.2
      · simp [assemble, he] at h
        exact Or.inr ⟨_, h.2.symm⟩

theorem alignAll_startRow_inv (cfg : TokCfg) :
    ∀ chunks (st st' : AligningState) (bs : List RowBatch),
      alignAll cfg st chunks = .ok (st', bs) →
      ∀ k (hk : k < bs.length),
        (bs.get ⟨k, hk⟩).startRow
          = some (st.rows + st.rowsToSkip + sumRows (bs.take k)) := by
  intro chunks
  induction chunks with
  | nil =>
      intro st st' bs h k hk
      simp [alignAll] at h
      rw [h.2] at hk
      simp at hk
  | cons c cs ih =>
      intro st st' bs h k hk
      rw [alignAll] at h
      match ha : align cfg st c with
      | .error e => rw [ha] at h; simp at h
      | .ok (st1, bs1) =>
          rw [ha] at h
          simp only [] at h
          match hr : alignAll cfg st1 cs with
          | .error e => rw [hr] at h; simp at h
          | .ok (st2, bs2) =>
              rw [hr] at h
              simp at h
              obtain ⟨hst, hbs⟩ := h
              subst hst
              obtain ⟨hle, hacct, hsr⟩ := align_rows_acct cfg st c st1 bs1 ha
              rcases align_batches_shape cfg st c st1 bs1 ha with hb0 | ⟨b, hb1⟩
              · subst hb0
                simp at hbs
                subst hbs
                have := ih st1 _ bs2 hr k hk
                rw [this]
                simp [sumRows] at hacct
                congr 1
                omega
              · subst hb1
                subst hbs
                match k with
                | 0 =>
                    simp
                    have hsr0 := hsr b (by simp)
                    rw [hsr0]
                    simp [sumRows]
                | Nat.succ j =>
                    have hk2 : j < bs2.length := by
                      simp at hk
                      omega
                    have hget : (([b] ++ bs2).get ⟨j + 1, hk⟩) = bs2.get ⟨j, hk2⟩ := by
                      simp
                    rw [hget]
                    have := ih st1 _ bs2 hr j hk2
                    rw [this]
                    have htake : ([b] ++ bs2).take (j + 1) = b :: bs2.take j := by
                      simp
                    rw [htake]
                    have hsum : sumRows (b :: bs2.take j)
                        = b.rowEnds.length + sumRows (bs2.take j) := by
                      simp [sumRows]
                    rw [hsum]
                    simp [sumRows] at hacct
                    congr 1
                    omega

/-- C5: row numbering continuity.  Starting from a fresh aligner state with
`h0` header rows to skip, across any sequence of `align` calls the `k`-th
emitted batch's `start_row` equals the skipped header count plus the sum of
the row counts of all previously emitted batches. -/
theorem alignAll_start_row_continuity (cfg : TokCfg) (path : String)
    (nf h0 : Nat) (chunks : List (List Nat)) (st' : AligningState)
    (bs : List RowBatch)
    (h : alignAll cfg (initState path nf h0) chunks = .ok (st', bs)) :
    ∀ k (hk : k < bs.length),
      (bs.get ⟨k, hk⟩).startRow = some (h0 + sumRows (bs.take k)) := by
  intro k hk
  have := alignAll_startRow_inv cfg chunks (initState path nf h0) st' bs h k hk
  simpa [initState] using this

/-- C5 witness: the spec's header-skip example, one batch with
`start_row = 1`. -/
theorem alignAll_start_row_continuity_witness :
    ((([(⟨[49, 50], [2], [1, 2], "p", 0, 0, some 1⟩ : RowBatch)]).get ⟨0, by decide⟩).startRow
      = some (1 + sumRows (([(⟨[49, 50], [2], [1, 2], "p", 0, 0, some 1⟩ : RowBatch)]).take 0))) :=
  alignAll_start_row_continuity cfgEx "p" 2 1 [[104, 49, 44, 104, 50, 10, 49, 44, 50, 10]]
    ⟨⟨⟨.startField, 0⟩, [], []⟩, 2, 0, 1, 10, "p", 2⟩
    [⟨[49, 50], [2], [1, 2], "p", 0, 0, some 1⟩] (by decide) 0 (by decide)

theorem tokStep_cont_spec (cfg : TokCfg) (st : TokState) (b : Nat) :
    ∀ w e st1, tokStep cfg st b = .cont w e st1 →
      st1.outputPos = st.outputPos + w.length ∧ (e = [] ∨ e = [st.outputPos]) ∧
        w.length ≤ 1 := by
  intro w e st1 h
  unfold tokStep at h
  cases hp : st.phase <;> rw [hp] at h <;>
    simp only [startFieldStep, stopAct] at h <;>
    split_ifs at h <;> simp at h <;>
    obtain ⟨hw, he, hst⟩ := h <;> subst hw <;> subst he <;>
    simp [← hst]

theorem tokStep_stop_spec (cfg : TokCfg) (st : TokState) (b : Nat) :
    ∀ w e st1, tokStep cfg st b = .stop w e st1 →
      w = [] ∧ e = [st.outputPos] ∧ st1.outputPos = 0 := by
  intro w e st1 h
  unfold tokStep at h
  cases hp : st.phase <;> rw [hp] at h <;>
    simp only [startFieldStep, stopAct] at h <;>
    split_ifs at h <;> simp at h <;>
    obtain ⟨hw, he, hst⟩ := h <;> subst hw <;> subst he <;>
    simp [← hst]

theorem nonDecrB_tail (a : Nat) (l : List Nat) (h : nonDecrB (a :: l) = true) :
    nonDecrB l = true := by
  cases l with
  | nil => rfl
  | cons b l' =>
      simp [nonDecrB] at h
      exact h.2

theorem nonDecrB_cons_of_le (a b : Nat) (l : List Nat)
    (h : nonDecrB (a :: l) = true) (hba : b ≤ a) : nonDecrB (b :: l) = true := by
  cases l with
  | nil => rfl
  | cons c l' =>
      simp [nonDecrB] at h ⊢
      exact ⟨by omega, h.2⟩

theorem nonDecrB_cons_le_head (a c : Nat) (l : List Nat)
    (h : nonDecrB (a :: c :: l) = true) : a ≤ c := by
  simp [nonDecrB] at h
  exact h.1

theorem nonDecrB_cons (a : Nat) (l : List Nat) (hl : nonDecrB l = true)
    (ha : ∀ x ∈ l, a ≤ x) : nonDecrB (a :: l) = true := by
  cases l with
  | nil => rfl
  | cons b l' =>
      simp [nonDecrB]
      exact ⟨ha b (by simp), hl⟩

theorem nonDecrB_mem_le (a : Nat) (l : List Nat) (h : nonDecrB (a :: l) = true) :
    ∀ x ∈ l, a ≤ x := by
  induction l generalizing a with
  | nil => simp
  | cons b l' ih =>
      intro x hx
      have hab : a ≤ b := nonDecrB_cons_le_head a b l' h
      have ht : nonDecrB (b :: l') = true := nonDecrB_tail a (b :: l') h
      rcases List.mem_cons.mp hx with hx | hx
      · omega
      · exact Nat.le_trans hab (ih b ht x hx)

theorem nonDecrB_append (A B : List Nat) (p : Nat) (hA : nonDecrB A = true)
    (hB : nonDecrB (p :: B) = true) (hb : ∀ a ∈ A, a ≤ p) :
    nonDecrB (A ++ B) = true := by
  induction A with
  | nil => exact nonDecrB_tail p B hB
  | cons a A' ih =>
      have hA' : nonDecrB A' = true := nonDecrB_tail a A' hA
      have hrec : nonDecrB (A' ++ B) = true := ih hA' (fun x hx => hb x (by simp [hx]))
      rw [List.cons_append]
      cases hAB : A' ++ B with
      | nil => rfl
      | cons c l' =>
          rw [hAB] at hrec
          refine nonDecrB_cons a (c :: l') hrec ?_
          intro x hx
          have hx' : x ∈ A' ++ B := by rw [hAB]; exact hx
          rcases List.mem_append.mp hx' with hxa | hxb
          · cases A' with
            | nil => simp at hxa
            | cons a2 A'' =>
                have h1 : a ≤ a2 := nonDecrB_cons_le_head a a2 A'' hA
                have h2 := nonDecrB_mem_le a2 A'' (nonDecrB_tail a (a2 :: A'') hA)
                rcases List.mem_cons.mp hxa with hxa | hxa
                · omega
                · have := h2 x hxa
                  omega
          · have hap : a ≤ p := hb a (by simp)
            have := nonDecrB_mem_le p B hB x hxb
            omega

theorem nonDecrB_snoc (R : List Nat) (E : Nat) (hR : nonDecrB R = true)
    (hle : ∀ x ∈ R, x ≤ E) : nonDecrB (R ++ [E]) = true := by
  refine nonDecrB_append R [E] E hR ?_ hle
  simp [nonDecrB]

theorem nonDecrB_le_getLastD (l : List Nat) (d : Nat) (h : nonDecrB l = true) :
    ∀ x ∈ l, x ≤ l.getLastD d := by
  induction l generalizing d with
  | nil => simp
  | cons a l' ih =>
      intro x hx
      cases l' with
      | nil =>
          rcases List.mem_cons.mp hx with hx | hx
          · simp [hx]
          · simp at hx
      | cons b l'' =>
          have ht : nonDecrB (b :: l'') = true := nonDecrB_tail a (b :: l'') h
          rcases List.mem_cons.mp hx with hx | hx
          · have hab : a ≤ b := nonDecrB_cons_le_head a b l'' h
            have hb := ih d ht b (by simp)
            simp only [List.getLastD_cons] at hb ⊢
            omega
          · have := ih d ht x hx
            simp only [List.getLastD_cons] at this ⊢
            exact this

theorem getLastD_append_right (l r : List Nat) (h : r ≠ []) :
    ∀ d, (l ++ r).getLastD d = r.getLastD d := by
  induction l with
  | nil => intro d; rfl
  | cons a l ih =>
      intro d
      rw [List.cons_append, List.getLastD_cons, ih a]
      cases r with
      | nil => exact absurd rfl h
      | cons b r' => rw [List.getLastD_cons, List.getLastD_cons]

theorem readRecord_ends_spec (cfg : TokCfg) :
    ∀ (input : List Nat) (st : TokState) (oc ec : Nat) (r : RR),
      readRecord cfg st input oc ec = r →
      nonDecrB (st.outputPos :: r.ends) = true ∧
      (∀ x ∈ r.ends, x ≤ st.outputPos + r.out.length) ∧
      (r.result = .record → r.ends ≠ [] ∧
        r.ends.getLastD 0 = st.outputPos + r.out.length ∧ r.st.outputPos = 0) ∧
      (r.result = .inputEmpty → r.st.outputPos = st.outputPos + r.out.length) := by
  intro input
  induction input with
  | nil =>
      intro st oc ec r h
      simp [readRecord] at h
      rw [← h]
      refine ⟨rfl, by simp, by simp, by simp⟩
  | cons b rest ih =>
      intro st oc ec r h
      rw [readRecord] at h
      rcases htok : tokStep cfg st b with ⟨w, e, st1⟩ | ⟨w, e, st1⟩
      · obtain ⟨hpos, hee, hw⟩ := tokStep_cont_spec cfg st b w e st1 htok
        rw [htok] at h
        simp only [] at h
        split_ifs at h with hc1 hc2
        · rcases hrec : readRecord cfg st1 rest (oc - w.length) (ec - e.length) with
            ⟨res2, n2, out2, ends2, st2⟩
          rw [hrec] at h
          obtain ⟨ih1, ih2, ih3, ih4⟩ := ih st1 (oc - w.length) (ec - e.length) _ hrec
          rw [← h]
          simp only at ih1 ih2 ih3 ih4 ⊢
          have hstep : nonDecrB (st.outputPos :: ends2) = true := by
            refine nonDecrB_cons_of_le st1.outputPos st.outputPos ends2 ih1 ?_
            omega
          refine ⟨?_, ?_, ?_, ?_⟩
          · rcases hee with he | he
            · rw [he]; simpa using hstep
            · rw [he]
              simp only [List.cons_append, List.singleton_append]
              refine nonDecrB_cons st.outputPos (st.outputPos :: ends2) hstep ?_
              intro x hx
              rcases List.mem_cons.mp hx with hx | hx
              · omega
              · have := nonDecrB_mem_le st.outputPos ends2 hstep x hx
                omega
          · intro x hx
            rcases List.mem_append.mp hx with hx | hx
            · rcases hee with he | he
              · rw [he] at hx; simp at hx
              · rw [he] at hx; simp at hx
                simp [hx]
            · have := ih2 x hx
              simp [List.length_append]
              omega
          · intro hres
            obtain ⟨hne, hlast, hpos0⟩ := ih3 hres
            refine ⟨by simp [hne], ?_, hpos0⟩
            rw [getLastD_append_right e ends2 hne 0, hlast]
            simp [List.length_append]
            omega
          · intro hres
            have := ih4 hres
            simp [List.length_append]
            omega
        · rw [← h]
          refine ⟨rfl, by simp, by simp, by simp⟩
        · rw [← h]
          refine ⟨rfl, by simp, by simp, by simp⟩
      · obtain ⟨hw, he, hpos0⟩ := tokStep_stop_spec cfg st b w e st1 htok
        rw [htok] at h
        simp only [] at h
        split_ifs at h with hc1 hc2
        · rw [← h]
          subst hw
          subst he
          refine ⟨by simp [nonDecrB], ?_, ?_, by simp⟩
          · intro x hx
            simp at hx
            simp [hx]
          · intro _
            exact ⟨by simp, by simp, hpos0⟩
        · rw [← h]
          refine ⟨rfl, by simp, by simp, by simp⟩
        · rw [← h]
          refine ⟨rfl, by simp, by simp, by simp⟩

theorem nonDecrB_take (n : Nat) : ∀ l : List Nat, nonDecrB l = true →
    nonDecrB (l.take n) = true := by
  induction n with
  | zero => intro l h; simp [nonDecrB]
  | succ n ih =>
      intro l h
      cases l with
      | nil => simp [nonDecrB]
      | cons a l' =>
          rw [List.take_succ_cons]
          cases l' with
          | nil => simp [nonDecrB]
          | cons b l'' =>
              have h1 : a ≤ b := nonDecrB_cons_le_head a b l'' h
              have h2 := ih (b :: l'') (nonDecrB_tail a (b :: l'') h)
              cases n with
              | zero => simp [nonDecrB]
              | succ m =>
                  rw [List.take_succ_cons] at h2 ⊢
                  refine nonDecrB_cons a (b :: (l''.take m)) ?_ ?_
                  · exact h2
                  · intro x hx
                    rcases List.mem_cons.mp hx with hx | hx
                    · omega
                    · have hmem : x ∈ b :: l'' := by
                        right
                        exact List.mem_of_mem_take hx
                      have := nonDecrB_mem_le a (b :: l'') h x hmem
                      omega

theorem getLastD_eq_getD (l : List Nat) (hne : l ≠ []) (d : Nat) :
    l.getLastD d = l.getD (l.length - 1) d := by
  induction l generalizing d with
  | nil => exact absurd rfl hne
  | cons a l' ih =>
      cases l' with
      | nil => rfl
      | cons b l'' =>
          rw [List.getLastD_cons, ih (by simp) a]
          simp [List.getD]

theorem getD_take_lt (l : List Nat) (n i d : Nat) (h : i < n) :
    (l.take n).getD i d = l.getD i d := by
  simp [List.getD]
  rw [List.getElem?_take]
  simp [h]

theorem rowsOKb_snoc (nf : Nat) :
    ∀ (R : List Nat), ∀ (F G : List Nat) (prev E : Nat),
      rowsOKb nf prev R F = true →
      F.length = R.length * nf →
      G.length = nf →
      nonDecrB G = true →
      G.getLastD 0 = E - R.getLastD prev →
      R.getLastD prev ≤ E →
      rowsOKb nf prev (R ++ [E]) (F ++ G) = true := by
  intro R
  induction R with
  | nil =>
      intro F G prev E h hF hG hnd hlast hle
      have hFnil : F = [] := List.eq_nil_of_length_eq_zero (by simpa using hF)
      subst hFnil
      simp only [List.nil_append, rowsOKb]
      have htake : G.take nf = G := by
        rw [← hG]
        exact List.take_length G
      have hdrop : G.drop nf = [] := by
        rw [← hG]
        exact List.drop_length G
      rw [htake, hdrop]
      simp only [List.getLastD_nil] at hlast hle
      simp [rowsOKb, hnd, Nat.ble_eq, hle]
      rw [List.getLastD_eq_getLast?] at hlast
      exact hlast
  | cons e es ih =>
      intro F G prev E h hF hG hnd hlast hle
      simp only [rowsOKb, Bool.and_eq_true] at h
      obtain ⟨⟨⟨h1, h2⟩, h3⟩, h4⟩ := h
      have hFlen : nf ≤ F.length := by
        rw [hF]
        simp [Nat.succ_mul]
      have htake : (F ++ G).take nf = F.take nf := List.take_append_of_le_length hFlen
      have hdrop : (F ++ G).drop nf = F.drop nf ++ G := List.drop_append_of_le_length hFlen
      rw [List.cons_append]
      simp only [rowsOKb, Bool.and_eq_true]
      rw [htake, hdrop]
      refine ⟨⟨⟨h1, h2⟩, h3⟩, ?_⟩
      have hlen : (F.drop nf).length = es.length * nf := by
        rw [List.length_drop, hF]
        simp [Nat.succ_mul]
      have hlast' : G.getLastD 0 = E - es.getLastD e := by
        rw [List.getLastD_cons] at hlast
        exact hlast
      have hle' : es.getLastD e ≤ E := by
        rw [List.getLastD_cons] at hle
        exact hle
      exact ih (F.drop nf) G e E h4 hlen hG hnd hlast' hle'

theorem recordCheck_none_inv (nf n : Nat) (ends : List Nat)
    (h : recordCheck nf n ends = none) :
    ends.length = nf ∨ (ends.length = nf + 1 ∧ ends.getD nf 0 = ends.getD (nf - 1) 0) := by
  unfold recordCheck at h
  split_ifs at h with h1 h2 h3
  rcases Nat.lt_or_ge ends.length (nf + 1) with hlt | hge
  · left; omega
  · right
    have hl : ends.length = nf + 1 := by omega
    refine ⟨hl, ?_⟩
    by_contra hne
    exact h3 ⟨hl, hne⟩

theorem mainLoop_mainWF (cfg : TokCfg) (nf : Nat) (path : String)
    (sr lrl ocb : Nat) (hnf : 0 < nf) :
    ∀ fuel acc buf acc',
      mainLoop cfg nf path sr lrl ocb fuel acc buf = .ok acc' →
      mainWF lrl nf acc → mainWF lrl nf acc' := by
  intro fuel
  induction fuel with
  | zero =>
      intro acc buf acc' h hwf
      cases buf with
      | nil => simp [mainLoop] at h; exact h ▸ hwf
      | cons b rest => simp [mainLoop] at h; exact h ▸ hwf
  | succ n ih =>
      intro acc buf acc' h hwf
      cases buf with
      | nil => simp [mainLoop] at h; exact h ▸ hwf
      | cons b rest =>
          obtain ⟨w1, w2, w3, w4, w5, w6, w7, w8, w9⟩ := hwf
          rw [mainLoop] at h
          rcases hr : readRecord cfg acc.tok (b :: rest) (ocb - acc.outTmp.length)
              ((nf + 6) - acc.ends.length) with ⟨res, nIn, rout, rends, rst⟩
          obtain ⟨e1, e2, e3, e4⟩ := readRecord_ends_spec cfg (b :: rest) acc.tok
            (ocb - acc.outTmp.length) ((nf + 6) - acc.ends.length) _ hr
          simp only at e1 e2 e3 e4
          rw [hr] at h
          cases res with
          | inputEmpty =>
              simp at h
              have hpos := e4 rfl
              rw [← h]
              refine ⟨?_, ?_, ?_, w4, w5, w6, ?_, w8, w9⟩
              · exact nonDecrB_append acc.ends rends acc.tok.outputPos w1 e1 w2
              · intro x hx
                simp only
                rcases List.mem_append.mp hx with hx | hx
                · have := w2 x hx
                  omega
                · have := e2 x hx
                  omega
              · simp only [List.length_append]
                omega
              · simp only [List.length_append]
                omega
          | outputFull => simp at h
          | outputEndsFull => simp at h
          | eos => simp at h
          | record =>
              simp at h
              match hchk : recordCheck nf rends.length (acc.ends ++ rends) with
              | some m => rw [hchk] at h; simp at h
              | none =>
                  rw [hchk] at h; simp at h
                  obtain ⟨hne, hlastr, hpos0⟩ := e3 rfl
                  have hndends : nonDecrB (acc.ends ++ rends) = true :=
                    nonDecrB_append acc.ends rends acc.tok.outputPos w1 e1 w2
                  have hlastends : (acc.ends ++ rends).getLastD 0
                      = acc.tok.outputPos + rout.length := by
                    rw [getLastD_append_right acc.ends rends hne 0]
                    exact hlastr
                  have hlenends : (acc.ends ++ rends).length = nf ∨
                      ((acc.ends ++ rends).length = nf + 1 ∧
                        (acc.ends ++ rends).getD nf 0 = (acc.ends ++ rends).getD (nf - 1) 0) :=
                    recordCheck_none_inv nf rends.length (acc.ends ++ rends) hchk
                  have hglen : ((acc.ends ++ rends).take nf).length = nf := by
                    rcases hlenends with hl | ⟨hl, -⟩ <;>
                      simp [List.length_take, hl]
                  have hgnd : nonDecrB ((acc.ends ++ rends).take nf) = true :=
                    nonDecrB_take nf (acc.ends ++ rends) hndends
                  have hglast : ((acc.ends ++ rends).take nf).getLastD 0
                      = acc.tok.outputPos + rout.length := by
                    rcases hlenends with hl | ⟨hl, heq⟩
                    · rw [← hl, List.take_length]
                      exact hlastends
                    · have hgne : (acc.ends ++ rends).take nf ≠ [] := by
                        intro hx
                        have := hglen
                        rw [hx] at this
                        simp at this
                        omega
                      rw [getLastD_eq_getD _ hgne 0, hglen]
                      rw [getD_take_lt _ nf (nf - 1) 0 (by omega)]
                      rw [← heq]
                      rw [getLastD_eq_getD _ (by rw [← List.length_pos]; omega) 0] at hlastends
                      rw [hl] at hlastends
                      simpa using hlastends
                  have hrowle : ∀ x ∈ acc.rowEnds,
                      x ≤ lrl + (acc.outTmp.length + rout.length) := by
                    intro x hx
                    have hx1 := nonDecrB_le_getLastD acc.rowEnds 0 w4 x hx
                    omega
                  refine ih _ _ _ h ?_
                  refine ⟨rfl, by simp, ?_, ?_, ?_, ?_, ?_, ?_, ?_⟩
                  · simp only [List.length_append]
                    rw [getLastD_append_right acc.rowEnds
                      [lrl + (acc.outTmp.length + rout.length)] (by simp) 0]
                    simp [hpos0]
                  · exact nonDecrB_snoc acc.rowEnds (lrl + (acc.outTmp.length + rout.length))
                      w4 hrowle
                  · intro hx
                    simp at hx
                  · intro _
                    simp only
                    rw [getLastD_append_right acc.rowEnds
                      [lrl + (acc.outTmp.length + rout.length)] (by simp) 0]
                    simp
                  · simp
                  · simp only
                    refine rowsOKb_snoc nf acc.rowEnds acc.fEnds ((acc.ends ++ rends).take nf)
                      0 (lrl + (acc.outTmp.length + rout.length)) w8 w9.symm hglen hgnd ?_ ?_
                    · rw [hglast]
                      omega
                    · omega
                  · simp only [List.length_append, List.length_cons, List.length_nil, hglen]
                    rw [Nat.add_mul, Nat.one_mul]
                    omega

theorem headerLoop_wf (cfg : TokCfg) (nf : Nat) (path : String) (oc : Nat) :
    ∀ rts rows tok ends buf out,
      headerLoop cfg nf path oc rts rows tok ends buf = .ok out →
      nonDecrB ends = true →
      (∀ x ∈ ends, x ≤ tok.outputPos) →
      (∀ rows' rts' tok' ends', out = .stop rows' rts' tok' ends' →
        nonDecrB ends' = true ∧ (∀ x ∈ ends', x ≤ tok'.outputPos)) ∧
      (∀ rows' tok' ends' buf', out = .through rows' tok' ends' buf' →
        (nonDecrB ends' = true ∧ (∀ x ∈ ends', x ≤ tok'.outputPos)) ∧
        (0 < rts → ends' = [] ∧ tok'.outputPos = 0) ∧
        (rts = 0 → tok' = tok ∧ ends' = ends ∧ buf' = buf)) := by
  intro rts
  induction rts with
  | zero =>
      intro rows tok ends buf out h hnd hbd
      simp [headerLoop] at h
      constructor
      · intro rows' rts' tok' ends' hout
        rw [← h] at hout; simp at hout
      · intro rows' tok' ends' buf' hout
        rw [← h] at hout; simp at hout
        obtain ⟨-, h2, h3, h4⟩ := hout
        subst h2; subst h3; subst h4
        exact ⟨⟨hnd, hbd⟩, by simp, fun _ => ⟨rfl, rfl, rfl⟩⟩
  | succ n ih =>
      intro rows tok ends buf out h hnd hbd
      rw [headerLoop] at h
      rcases hr : readRecord cfg tok buf oc ((nf + 6) - ends.length) with
        ⟨res, nIn, rout, rends, rst⟩
      obtain ⟨e1, e2, e3, e4⟩ := readRecord_ends_spec cfg buf tok oc
        ((nf + 6) - ends.length) _ hr
      simp only at e1 e2 e3 e4
      rw [hr] at h
      cases res with
      | inputEmpty =>
          simp at h
          have hpos := e4 rfl
          constructor
          · intro rows' rts' tok' ends' hout
            rw [← h] at hout; simp at hout
            obtain ⟨-, -, h3, h4⟩ := hout
            subst h3; subst h4
            refine ⟨nonDecrB_append ends rends tok.outputPos hnd e1 hbd, ?_⟩
            intro x hx
            rcases List.mem_append.mp hx with hx | hx
            · have := hbd x hx
              omega
            · have := e2 x hx
              omega
          · intro rows' tok' ends' buf' hout
            rw [← h] at hout; simp at hout
      | outputFull => simp at h
      | outputEndsFull => simp at h
      | eos => simp at h
      | record =>
          simp at h
          match hchk : recordCheck nf rends.length (ends ++ rends) with
          | some m => rw [hchk] at h; simp at h
          | none =>
              rw [hchk] at h; simp at h
              obtain ⟨-, -, hpos0⟩ := e3 rfl
              obtain ⟨ihstop, ihthrough⟩ := ih (rows + 1) rst [] (buf.drop nIn) out h
                rfl (by simp)
              constructor
              · exact ihstop
              · intro rows' tok' ends' buf' hout
                obtain ⟨hwf', hpos', -⟩ := ihthrough rows' tok' ends' buf' hout
                refine ⟨hwf', ?_, fun hx => absurd hx (by omega)⟩
                intro _
                cases n with
                | zero =>
                    obtain ⟨ht, he, -⟩ := (ihthrough rows' tok' ends' buf' hout).2.2 rfl
                    subst ht
                    exact ⟨he, hpos0⟩
                | succ m => exact hpos' (by omega)

theorem align_preserves_shape (cfg : TokCfg) (st : AligningState) (bufIn : List Nat)
    (st' : AligningState) (bs : List RowBatch)
    (h : align cfg st bufIn = .ok (st', bs)) :
    st'.numFields = st.numFields ∧ st'.path = st.path := by
  unfold align at h
  match hc : alignCore cfg st bufIn with
  | .error e => rw [hc] at h; simp at h
  | .ok (.stopped rows rts tok ends) =>
      rw [hc] at h
      simp [assemble] at h
      rw [← h.1]
      exact ⟨rfl, rfl⟩
  | .ok (.aligned rows acc) =>
      rw [hc] at h
      by_cases he : acc.rowEnds.isEmpty
      · simp [assemble, he] at h
        rw [← h.1]
        exact ⟨rfl, rfl⟩
      · simp [assemble, he] at h
        rw [← h.1]
        exact ⟨rfl, rfl⟩

theorem align_wf (cfg : TokCfg) (st : AligningState) (bufIn : List Nat)
    (st' : AligningState) (bs : List RowBatch) (hnf : 0 < st.numFields)
    (h : align cfg st bufIn = .ok (st', bs)) (hwf : stateWFb st = true) :
    stateWFb st' = true ∧ ∀ b ∈ bs, batchWFb st.numFields b = true := by
  have hwfs := hwf
  simp [stateWFb, List.all_eq_true] at hwfs
  obtain ⟨⟨hwf1, hwf2⟩, hcond⟩ := hwfs
  have hwf3 : st.rowsToSkip = 0 → st.reader.tok.outputPos = st.reader.out.length := by
    intro hz
    rw [if_pos hz] at hcond
    exact hcond
  have hwf4 : 0 < st.rowsToSkip → st.reader.out = [] := by
    intro hz
    rw [if_neg (by omega)] at hcond
    exact hcond
  unfold align at h
  match hc : alignCore cfg st bufIn with
  | .error e => rw [hc] at h; simp at h
  | .ok (.stopped rows rts tok ends) =>
      rw [hc] at h
      simp [assemble] at h
      obtain ⟨hst, hbs⟩ := h
      subst hbs
      subst hst
      have hh := alignCore_stopped_inv cfg st bufIn rows rts tok ends hc
      obtain ⟨hstop, -⟩ := headerLoop_wf cfg st.numFields st.path bufIn.length
        st.rowsToSkip st.rows st.reader.tok st.reader.fieldEnds bufIn _ hh hwf1 hwf2
      obtain ⟨hnd', hbd'⟩ := hstop rows rts tok ends rfl
      obtain ⟨hrts, -⟩ := headerLoop_rows cfg st.numFields st.path bufIn.length
        st.rowsToSkip st.rows st.reader.tok st.reader.fieldEnds bufIn _ hh
      obtain ⟨hle, hpos, -⟩ := hrts rows rts tok ends rfl
      have hrts0 : ¬ rts = 0 := by omega
      refine ⟨?_, by simp⟩
      simp [stateWFb, List.all_eq_true, hnd', hrts0]
      refine ⟨hbd', ?_⟩
      exact hwf4 (by omega)
  | .ok (.aligned rows acc) =>
      rw [hc] at h
      obtain ⟨tok, ends, buf, hh, hm⟩ := alignCore_aligned_inv cfg st bufIn rows acc hc
      obtain ⟨-, hthrough⟩ := headerLoop_wf cfg st.numFields st.path bufIn.length
        st.rowsToSkip st.rows st.reader.tok st.reader.fieldEnds bufIn _ hh hwf1 hwf2
      obtain ⟨⟨hnd0, hbd0⟩, hposz, hsame⟩ := hthrough rows tok ends buf rfl
      have hacc0 : mainWF st.reader.out.length st.numFields
          (⟨[], ends, [], [], 0, tok⟩ : MainAcc) := by
        refine ⟨hnd0, hbd0, ?_, rfl, fun _ => rfl, by simp, by simp, rfl, by simp⟩
        simp only
        rcases Nat.eq_zero_or_pos st.rowsToSkip with hz | hz
        · obtain ⟨ht, -, -⟩ := hsame hz
          subst ht
          simp [hwf3 hz]
        · obtain ⟨-, hp⟩ := hposz hz
          simp [hp, hwf4 hz]
      have hmw := mainLoop_mainWF cfg st.numFields st.path st.rows
        st.reader.out.length bufIn.length hnf (buf.length + 1)
        ⟨[], ends, [], [], 0, tok⟩ buf acc hm hacc0
      obtain ⟨m1, m2, m3, m4, m5, m6, m7, m8, m9⟩ := hmw
      by_cases he : acc.rowEnds.isEmpty
      · simp [assemble, he] at h
        obtain ⟨hst, hbs⟩ := h
        subst hbs
        subst hst
        refine ⟨?_, by simp⟩
        simp [stateWFb, List.all_eq_true, m1]
        refine ⟨m2, ?_⟩
        have hz : acc.rowEnds = [] := List.isEmpty_iff.mp he
        rw [hz] at m3
        simp at m3
        omega
      · simp [assemble, he] at h
        obtain ⟨hst, hbs⟩ := h
        subst hst
        have hne : acc.rowEnds ≠ [] := by
          intro hx; rw [hx] at he; simp at he
        have h6 := m6 hne
        refine ⟨?_, ?_⟩
        · simp [stateWFb, List.all_eq_true, m1]
          refine ⟨m2, ?_⟩
          omega
        · intro b hb
          rw [← hbs] at hb
          simp at hb
          subst hb
          simp [batchWFb]
          refine ⟨⟨⟨m9, m4⟩, ?_⟩, m8⟩
          rw [List.getLastD_eq_getLast?] at h6
          rw [h6]
          simp [List.length_take, List.length_append]
          omega

theorem initState_wf (path : String) (nf h0 : Nat) :
    stateWFb (initState path nf h0) = true := by
  simp [stateWFb, initState, nonDecrB]

theorem alignAll_wf_inv (cfg : TokCfg) (nf : Nat) (hnf : 0 < nf) :
    ∀ chunks (st st' : AligningState) (bs : List RowBatch),
      st.numFields = nf → stateWFb st = true →
      alignAll cfg st chunks = .ok (st', bs) →
      ∀ b ∈ bs, batchWFb nf b = true := by
  intro chunks
  induction chunks with
  | nil =>
      intro st st' bs hn hwf h
      simp [alignAll] at h
      rw [h.2]
      simp
  | cons c cs ih =>
      intro st st' bs hn hwf h
      rw [alignAll] at h
      match ha : align cfg st c with
      | .error e => rw [ha] at h; simp at h
      | .ok (st1, bs1) =>
          rw [ha] at h
          simp only [] at h
          match hr : alignAll cfg st1 cs with
          | .error e => rw [hr] at h; simp at h
          | .ok (st2, bs2) =>
              rw [hr] at h
              simp at h
              obtain ⟨-, hbs⟩ := h
              obtain ⟨hwf1, hbw⟩ := align_wf cfg st c st1 bs1 (by omega) ha hwf
              obtain ⟨hn1, -⟩ := align_preserves_shape cfg st c st1 bs1 ha
              intro b hb
              rw [← hbs] at hb
              rcases List.mem_append.mp hb with hb | hb
              · have := hbw b hb
                rw [hn] at this
                exact this
              · exact ih st1 st2 bs2 (by omega) hwf1 hr b hb

/-- C4 (amended): every `RowBatch` returned by `align` on a stream satisfies:
`row_ends.length * num_fields = field_ends.length`; `row_ends` is
non-decreasing (not strictly increasing: empty rows repeat an offset) with
its last entry equal to `data.length`; and within each row the `num_fields`
stored field-end offsets are non-decreasing with the last one equal to that
row's LENGTH (its `row_ends` entry minus the previous row's entry) — field
ends are row-relative, so the decoder's per-column slicing exactly tiles
each row. -/
theorem row_batch_invariant (cfg : TokCfg) (path : String) (nf h0 : Nat)
    (chunks : List (List Nat)) (st' : AligningState) (bs : List RowBatch)
    (hnf : 0 < nf)
    (h : alignAll cfg (initState path nf h0) chunks = .ok (st', bs)) :
    ∀ b ∈ bs, batchWFb nf b = true :=
  alignAll_wf_inv cfg nf hnf chunks (initState path nf h0) st' bs rfl
    (initState_wf path nf h0) h

/-- C4 witness: a concrete two-row batch satisfying the amended invariant. -/
theorem row_batch_invariant_witness :
    batchWFb 1 (⟨[97, 98], [1, 2], [1, 1], "p", 0, 0, some 0⟩ : RowBatch) = true :=
  row_batch_invariant cfgEx "p" 1 0 [[97, 10, 98, 10]]
    ⟨⟨⟨.startField, 0⟩, [], []⟩, 2, 0, 1, 4, "p", 1⟩
    [⟨[97, 98], [1, 2], [1, 1], "p", 0, 0, some 0⟩] (by decide) (by decide)
    (⟨[97, 98], [1, 2], [1, 1], "p", 0, 0, some 0⟩ : RowBatch) (by decide)

/-- C4 counterexample: the invariant exactly as claimed fails on real
batches: with one column, `"a\nb\n"` yields a batch whose second row's last
field end (its row-relative length 1) differs from that row's `row_ends`
entry 2, and `"\n\nb\n"` yields row ends `[0, 0, 1]`, which are not strictly
increasing. -/
theorem row_batch_invariant_counterexample :
    (align cfgEx (initState "p" 1 0) [97, 10, 98, 10]).map
        (fun p => p.2.map (batchClaimB 1)) = .ok [false] ∧
    (align cfgEx (initState "p" 1 0) [10, 10, 98, 10]).map
        (fun p => p.2.map (fun b => strictIncrB b.rowEnds)) = .ok [false] := by
  decide

theorem readRecord_nin_spec (cfg : TokCfg) :
    ∀ (input : List Nat) (st : TokState) (oc ec : Nat) (r : RR),
      readRecord cfg st input oc ec = r →
      r.result ≠ .eos ∧
      r.nIn ≤ input.length ∧
      r.out.length ≤ r.nIn ∧
      (r.result = .inputEmpty → r.nIn = input.length) ∧
      (r.result = .record → 0 < r.nIn) := by
  intro input
  induction input with
  | nil =>
      intro st oc ec r h
      simp [readRecord] at h
      rw [← h]
      refine ⟨by simp, by simp, by simp, by simp, by simp⟩
  | cons b rest ih =>
      intro st oc ec r h
      rw [readRecord] at h
      rcases htok : tokStep cfg st b with ⟨w, e, st1⟩ | ⟨w, e, st1⟩
      · obtain ⟨-, -, hw⟩ := tokStep_cont_spec cfg st b w e st1 htok
        rw [htok] at h
        simp only [] at h
        split_ifs at h
        · rcases hrec : readRecord cfg st1 rest (oc - w.length) (ec - e.length) with
            ⟨res2, n2, out2, ends2, st2⟩
          rw [hrec] at h
          obtain ⟨i1, i2, i3, i4, i5⟩ := ih st1 (oc - w.length) (ec - e.length) _ hrec
          rw [← h]
          simp only at i1 i2 i3 i4 i5 ⊢
          refine ⟨i1, by simp only [List.length_cons]; omega, ?_, ?_, ?_⟩
          · simp only [List.length_append]
            omega
          · intro hres
            have := i4 hres
            simp
            omega
          · intro _
            omega
        · rw [← h]
          refine ⟨by simp, by simp, by simp, by simp, by simp⟩
        · rw [← h]
          refine ⟨by simp, by simp, by simp, by simp, by simp⟩
      · obtain ⟨hw, -, -⟩ := tokStep_stop_spec cfg st b w e st1 htok
        rw [htok] at h
        simp only [] at h
        split_ifs at h
        · rw [← h]
          subst hw
          refine ⟨by simp, by simp, by simp, by simp, by simp⟩
        · rw [← h]
          refine ⟨by simp, by simp, by simp, by simp, by simp⟩
        · rw [← h]
          refine ⟨by simp, by simp, by simp, by simp, by simp⟩

theorem readRecord_cap_irrel (cfg : TokCfg) :
    ∀ (input : List Nat) (st : TokState) (oc oc' ec : Nat),
      input.length ≤ oc → input.length ≤ oc' →
      readRecord cfg st input oc ec = readRecord cfg st input oc' ec := by
  intro input
  induction input with
  | nil => intro st oc oc' ec h1 h2; rfl
  | cons b rest ih =>
      intro st oc oc' ec h1 h2
      simp only [List.length_cons] at h1 h2
      rw [readRecord]
      conv_rhs => rw [readRecord]
      rcases htok : tokStep cfg st b with ⟨w, e, st1⟩ | ⟨w, e, st1⟩
      · obtain ⟨-, -, hw⟩ := tokStep_cont_spec cfg st b w e st1 htok
        simp only []
        have hoc : w.length ≤ oc := by omega
        have hoc' : w.length ≤ oc' := by omega
        rw [if_pos hoc, if_pos hoc']
        split_ifs with he
        · rw [ih st1 (oc - w.length) (oc' - w.length) (ec - e.length) ?_ ?_]
          · omega
          · omega
        · rfl
      · obtain ⟨hw, -, -⟩ := tokStep_stop_spec cfg st b w e st1 htok
        subst hw
        simp only [List.length_nil, Nat.zero_le, if_pos]

theorem readRecord_append (cfg : TokCfg) :
    ∀ (xs : List Nat) (st : TokState) (oc ec : Nat) (ys : List Nat) (r : RR),
      readRecord cfg st xs oc ec = r →
      (r.result ≠ .inputEmpty → readRecord cfg st (xs ++ ys) oc ec = r) ∧
      (r.result = .inputEmpty →
        ∀ r2 : RR, readRecord cfg r.st ys (oc - r.out.length) (ec - r.ends.length) = r2 →
          readRecord cfg st (xs ++ ys) oc ec
            = ⟨r2.result, xs.length + r2.nIn, r.out ++ r2.out, r.ends ++ r2.ends, r2.st⟩) := by
  intro xs
  induction xs with
  | nil =>
      intro st oc ec ys r h
      rw [show readRecord cfg st [] oc ec = ⟨.inputEmpty, 0, [], [], st⟩ from rfl] at h
      subst h
      constructor
      · intro hne
        simp at hne
      · intro _ r2 h2
        simp only [] at h2
        simp only [List.length_nil, Nat.sub_zero] at h2
        show readRecord cfg st ys oc ec = _
        rw [h2]
        simp
  | cons b rest ih =>
      intro st oc ec ys r h
      rw [readRecord] at h
      rcases htok : tokStep cfg st b with ⟨w, e, st1⟩ | ⟨w, e, st1⟩
      · rw [htok] at h
        simp only [] at h
        split_ifs at h with hc1 hc2
        · rcases hra : readRecord cfg st1 rest (oc - w.length) (ec - e.length) with
            ⟨resA, nA, outA, endsA, stA⟩
          rw [hra] at h
          obtain ⟨ih1, ih2⟩ := ih st1 (oc - w.length) (ec - e.length) ys _ hra
          subst h
          constructor
          · intro hne
            simp only [] at hne
            have hW := ih1 hne
            show readRecord cfg st (b :: (rest ++ ys)) oc ec = _
            rw [readRecord, htok]
            simp only []
            rw [if_pos hc1, if_pos hc2, hW]
          · intro hres r2 h2
            simp only [] at hres
            simp only [] at h2
            simp only [List.length_append, ← Nat.sub_sub] at h2
            have hW := ih2 hres r2 h2
            show readRecord cfg st (b :: (rest ++ ys)) oc ec = _
            rw [readRecord, htok]
            simp only []
            rw [if_pos hc1, if_pos hc2, hW]
            simp only [RR.mk.injEq, List.append_assoc, List.length_cons, true_and, and_true]
            omega
        · subst h
          constructor
          · intro _
            show readRecord cfg st (b :: (rest ++ ys)) oc ec = _
            rw [readRecord, htok]
            simp only []
            rw [if_pos hc1, if_neg hc2]
          · intro hres
            simp at hres
        · subst h
          constructor
          · intro _
            show readRecord cfg st (b :: (rest ++ ys)) oc ec = _
            rw [readRecord, htok]
            simp only []
            rw [if_neg hc1]
          · intro hres
            simp at hres
      · rw [htok] at h
        simp only [] at h
        split_ifs at h with hc1 hc2
        · subst h
          constructor
          · intro _
            show readRecord cfg st (b :: (rest ++ ys)) oc ec = _
            rw [readRecord, htok]
            simp only []
            rw [if_pos hc1, if_pos hc2]
          · intro hres
            simp at hres
        · subst h
          constructor
          · intro _
            show readRecord cfg st (b :: (rest ++ ys)) oc ec = _
            rw [readRecord, htok]
            simp only []
            rw [if_pos hc1, if_neg hc2]
          · intro hres
            simp at hres
        · subst h
          constructor
          · intro _
            show readRecord cfg st (b :: (rest ++ ys)) oc ec = _
            rw [readRecord, htok]
            simp only []
            rw [if_neg hc1]
          · intro hres
            simp at hres

theorem mainLoop_fuel_irrel (cfg : TokCfg) (nf : Nat) (path : String)
    (sr lrl ocb : Nat) :
    ∀ fuel fuel' (acc : MainAcc) (buf : List Nat),
      buf.length ≤ fuel → buf.length ≤ fuel' →
      mainLoop cfg nf path sr lrl ocb fuel acc buf
        = mainLoop cfg nf path sr lrl ocb fuel' acc buf := by
  intro fuel
  induction fuel with
  | zero =>
      intro fuel' acc buf h1 h2
      have hb : buf = [] := List.eq_nil_of_length_eq_zero (by omega)
      subst hb
      cases fuel' <;> simp [mainLoop]
  | succ n ih =>
      intro fuel' acc buf h1 h2
      cases buf with
      | nil => cases fuel' <;> simp [mainLoop]
      | cons b rest =>
          simp only [List.length_cons] at h1 h2
          obtain ⟨m, hm⟩ : ∃ m, fuel' = m + 1 := ⟨fuel' - 1, by omega⟩
          subst hm
          rw [mainLoop]
          conv_rhs => rw [mainLoop]
          rcases hr : readRecord cfg acc.tok (b :: rest) (ocb - acc.outTmp.length)
              ((nf + 6) - acc.ends.length) with ⟨res, nIn, rout, rends, rst⟩
          obtain ⟨-, hle, -, -, hpos⟩ := readRecord_nin_spec cfg (b :: rest) acc.tok _ _ _ hr
          simp only at hle hpos
          simp only [List.length_cons] at hle
          cases res with
          | inputEmpty => rfl
          | outputFull => rfl
          | outputEndsFull => rfl
          | eos => rfl
          | record =>
              simp only []
              have hp : 0 < nIn := hpos rfl
              match hchk : recordCheck nf rends.length (acc.ends ++ rends) with
              | some m' => rfl
              | none =>
                  apply ih
                  · simp only [List.length_drop, List.length_cons]
                    omega
                  · simp only [List.length_drop, List.length_cons]
                    omega

theorem mainLoop_out_growth (cfg : TokCfg) (nf : Nat) (path : String)
    (sr lrl ocb : Nat) :
    ∀ fuel (acc : MainAcc) (buf : List Nat) (acc' : MainAcc),
      mainLoop cfg nf path sr lrl ocb fuel acc buf = .ok acc' →
      acc'.outTmp.length ≤ acc.outTmp.length + buf.length := by
  intro fuel
  induction fuel with
  | zero =>
      intro acc buf acc' h
      cases buf with
      | nil => simp [mainLoop] at h; rw [← h]; simp
      | cons b rest => simp [mainLoop] at h; rw [← h]; simp
  | succ n ih =>
      intro acc buf acc' h
      cases buf with
      | nil => simp [mainLoop] at h; rw [← h]; simp
      | cons b rest =>
          rw [mainLoop] at h
          rcases hr : readRecord cfg acc.tok (b :: rest) (ocb - acc.outTmp.length)
              ((nf + 6) - acc.ends.length) with ⟨res, nIn, rout, rends, rst⟩
          rw [hr] at h
          obtain ⟨-, hle, hout, -, hpos⟩ := readRecord_nin_spec cfg (b :: rest) acc.tok _ _ _ hr
          simp only at hle hout hpos
          simp only [List.length_cons] at hle
          cases res with
          | inputEmpty =>
              simp at h
              rw [← h]
              simp only [List.length_append, List.length_cons]
              omega
          | outputFull => simp at h
          | outputEndsFull => simp at h
          | eos => simp at h
          | record =>
              simp at h
              match hchk : recordCheck nf rends.length (acc.ends ++ rends) with
              | some m' => rw [hchk] at h; simp at h
              | none =>
                  rw [hchk] at h
                  simp at h
                  have := ih _ _ _ h
                  simp only [List.length_append, List.length_drop, List.length_cons] at this
                  simp only [List.length_cons]
                  omega

theorem mainLoop_MRel_self (cfg : TokCfg) (nf : Nat) (path : String)
    (sr lrl ocb fuel : Nat) (acc : MainAcc) (buf : List Nat) :
    MRel (mainLoop cfg nf path sr lrl ocb fuel acc buf)
         (mainLoop cfg nf path sr lrl ocb fuel acc buf) := by
  match hm : mainLoop cfg nf path sr lrl ocb fuel acc buf with
  | .ok a => show (a = a); rfl
  | .error e =>
      obtain ⟨m, r, he⟩ := mainLoop_err_shape cfg nf path sr lrl ocb fuel acc buf e hm
      show ErrAgree e e
      exact ⟨path, m, r, m, r, he, he⟩

theorem mainLoop_param_rel (cfg : TokCfg) (nf : Nat) (path : String) (lrl : Nat) :
    ∀ fuel (acc : MainAcc) (buf : List Nat) (sr1 sr2 ocb1 ocb2 : Nat),
      acc.outTmp.length + buf.length ≤ ocb1 →
      acc.outTmp.length + buf.length ≤ ocb2 →
      MRel (mainLoop cfg nf path sr1 lrl ocb1 fuel acc buf)
           (mainLoop cfg nf path sr2 lrl ocb2 fuel acc buf) := by
  intro fuel
  induction fuel with
  | zero =>
      intro acc buf sr1 sr2 ocb1 ocb2 h1 h2
      cases buf <;> simp [mainLoop, MRel]
  | succ n ih =>
      intro acc buf sr1 sr2 ocb1 ocb2 h1 h2
      cases buf with
      | nil => simp [mainLoop, MRel]
      | cons b rest =>
          simp only [List.length_cons] at h1 h2
          rw [mainLoop]
          conv_rhs => rw [mainLoop]
          have hcap : readRecord cfg acc.tok (b :: rest) (ocb2 - acc.outTmp.length)
              ((nf + 6) - acc.ends.length)
              = readRecord cfg acc.tok (b :: rest) (ocb1 - acc.outTmp.length)
                ((nf + 6) - acc.ends.length) :=
            readRecord_cap_irrel cfg (b :: rest) acc.tok _ _ _
              (by simp only [List.length_cons]; omega)
              (by simp only [List.length_cons]; omega)
          rw [hcap]
          rcases hr : readRecord cfg acc.tok (b :: rest) (ocb1 - acc.outTmp.length)
              ((nf + 6) - acc.ends.length) with ⟨res, nIn, rout, rends, rst⟩
          obtain ⟨-, hle, hout, -, hpos⟩ := readRecord_nin_spec cfg (b :: rest) acc.tok _ _ _ hr
          simp only at hle hout hpos
          simp only [List.length_cons] at hle
          cases res with
          | inputEmpty => show _ = _; rfl
          | outputFull =>
              show ErrAgree _ _
              exact ⟨path, "output more than input", sr1 + acc.rowEnds.length,
                "output more than input", sr2 + acc.rowEnds.length, rfl, rfl⟩
          | outputEndsFull =>
              show ErrAgree _ _
              exact ⟨path, tooManyCapMsg nf (nf + 6), sr1 + acc.rowEnds.length,
                tooManyCapMsg nf (nf + 6), sr2 + acc.rowEnds.length, rfl, rfl⟩
          | eos =>
              show ErrAgree _ _
              exact ⟨path, "unexpect eof", sr1 + acc.rowEnds.length,
                "unexpect eof", sr2 + acc.rowEnds.length, rfl, rfl⟩
          | record =>
              simp only []
              have hp : 0 < nIn := hpos rfl
              match hchk : recordCheck nf rends.length (acc.ends ++ rends) with
              | some m' =>
                  show ErrAgree _ _
                  exact ⟨path, m', sr1 + acc.rowEnds.length,
                    m', sr2 + acc.rowEnds.length, rfl, rfl⟩
              | none =>
                  apply ih
                  · simp only [List.length_append, List.length_drop, List.length_cons]
                    omega
                  · simp only [List.length_append, List.length_drop, List.length_cons]
                    omega

theorem recordCheck_none_indep (nf a b : Nat) (L : List Nat) :
    recordCheck nf a L = none ↔ recordCheck nf b L = none := by
  unfold recordCheck
  split_ifs <;> simp

theorem mainLoop_extend (cfg : TokCfg) (nf : Nat) (path : String) (sr lrl : Nat) :
    ∀ fuelA (bufA ys : List Nat) (acc : MainAcc) (fuelW ocbA ocbW : Nat),
      bufA.length ≤ fuelA → bufA.length + ys.length ≤ fuelW →
      acc.outTmp.length + bufA.length ≤ ocbA →
      acc.outTmp.length + bufA.length + ys.length ≤ ocbW →
      (∀ e, mainLoop cfg nf path sr lrl ocbA fuelA acc bufA = .error e →
        mainLoop cfg nf path sr lrl ocbW fuelW acc (bufA ++ ys) = .error e) ∧
      (∀ accA, mainLoop cfg nf path sr lrl ocbA fuelA acc bufA = .ok accA →
        MRel (mainLoop cfg nf path sr lrl ocbW fuelW acc (bufA ++ ys))
             (mainLoop cfg nf path sr lrl ocbW (ys.length + 1) accA ys)) := by
  intro fuelA
  induction fuelA with
  | zero =>
      intro bufA ys acc fuelW ocbA ocbW h1 h2 h3 h4
      have hb : bufA = [] := List.eq_nil_of_length_eq_zero (by omega)
      subst hb
      constructor
      · intro e he
        simp [mainLoop] at he
      · intro accA hok
        simp [mainLoop] at hok
        subst hok
        simp only [List.nil_append]
        simp only [List.length_nil, Nat.zero_add] at h2
        rw [mainLoop_fuel_irrel cfg nf path sr lrl ocbW fuelW (ys.length + 1) acc ys h2
          (by omega)]
        exact mainLoop_MRel_self cfg nf path sr lrl ocbW (ys.length + 1) acc ys
  | succ n ih =>
      intro bufA ys acc fuelW ocbA ocbW h1 h2 h3 h4
      cases bufA with
      | nil =>
          constructor
          · intro e he
            simp [mainLoop] at he
          · intro accA hok
            simp [mainLoop] at hok
            subst hok
            simp only [List.nil_append]
            simp only [List.length_nil, Nat.zero_add] at h2
            rw [mainLoop_fuel_irrel cfg nf path sr lrl ocbW fuelW (ys.length + 1) acc ys h2
              (by omega)]
            exact mainLoop_MRel_self cfg nf path sr lrl ocbW (ys.length + 1) acc ys
      | cons b rest =>
          simp only [List.length_cons] at h1 h2 h3 h4
          obtain ⟨m, hm⟩ : ∃ m, fuelW = m + 1 := ⟨fuelW - 1, by omega⟩
          subst hm
          rcases hrA : readRecord cfg acc.tok (b :: rest) (ocbA - acc.outTmp.length)
              ((nf + 6) - acc.ends.length) with ⟨res, nIn, rout, rends, rst⟩
          obtain ⟨hnoeos, hle, hout, hieq, hpos⟩ :=
            readRecord_nin_spec cfg (b :: rest) acc.tok _ _ _ hrA
          simp only at hnoeos hle hout hieq hpos
          simp only [List.length_cons] at hle
          have hcap : readRecord cfg acc.tok (b :: rest) (ocbW - acc.outTmp.length)
              ((nf + 6) - acc.ends.length) = ⟨res, nIn, rout, rends, rst⟩ := by
            rw [← hrA]
            exact readRecord_cap_irrel cfg (b :: rest) acc.tok _ _ _
              (by simp only [List.length_cons]; omega)
              (by simp only [List.length_cons]; omega)
          obtain ⟨hext, hglue⟩ := readRecord_append cfg (b :: rest) acc.tok
            (ocbW - acc.outTmp.length) ((nf + 6) - acc.ends.length) ys _ hcap
          cases res with
          | eos => exact absurd rfl hnoeos
          | outputFull =>
              have hW := hext (by simp)
              rw [List.cons_append] at hW
              constructor
              · intro e he
                rw [mainLoop, hrA] at he
                simp only [] at he
                show mainLoop cfg nf path sr lrl ocbW (m + 1) acc ((b :: rest) ++ ys) = .error e
                rw [List.cons_append, mainLoop, hW]
                exact he
              · intro accA hok
                rw [mainLoop, hrA] at hok
                simp at hok
          | outputEndsFull =>
              have hW := hext (by simp)
              rw [List.cons_append] at hW
              constructor
              · intro e he
                rw [mainLoop, hrA] at he
                simp only [] at he
                show mainLoop cfg nf path sr lrl ocbW (m + 1) acc ((b :: rest) ++ ys) = .error e
                rw [List.cons_append, mainLoop, hW]
                exact he
              · intro accA hok
                rw [mainLoop, hrA] at hok
                simp at hok
          | record =>
              have hW := hext (by simp)
              rw [List.cons_append] at hW
              have hp : 0 < nIn := hpos rfl
              constructor
              · intro e he
                rw [mainLoop, hrA] at he
                simp only [] at he
                show mainLoop cfg nf path sr lrl ocbW (m + 1) acc ((b :: rest) ++ ys) = .error e
                rw [List.cons_append, mainLoop, hW]
                simp only []
                match hchk : recordCheck nf rends.length (acc.ends ++ rends) with
                | some m' =>
                    rw [hchk] at he
                    simp only [] at he ⊢
                    exact he
                | none =>
                    rw [hchk] at he
                    simp only [] at he ⊢
                    have hdrop : (b :: (rest ++ ys)).drop nIn = ((b :: rest).drop nIn) ++ ys := by
                      rw [← List.cons_append]
                      exact List.drop_append_of_le_length (by simp only [List.length_cons]; omega)
                    rw [hdrop]
                    refine (ih ((b :: rest).drop nIn) ys _ m ocbA ocbW ?_ ?_ ?_ ?_).1 e he
                    · simp only [List.length_drop, List.length_cons]
                      omega
                    · simp only [List.length_drop, List.length_cons]
                      omega
                    · simp only [List.length_append, List.length_drop, List.length_cons]
                      omega
                    · simp only [List.length_append, List.length_drop, List.length_cons]
                      omega
              · intro accA hok
                rw [mainLoop, hrA] at hok
                simp only [] at hok
                show MRel (mainLoop cfg nf path sr lrl ocbW (m + 1) acc ((b :: rest) ++ ys))
                  (mainLoop cfg nf path sr lrl ocbW (ys.length + 1) accA ys)
                rw [List.cons_append, mainLoop, hW]
                simp only []
                match hchk : recordCheck nf rends.length (acc.ends ++ rends) with
                | some m' =>
                    rw [hchk] at hok
                    simp at hok
                | none =>
                    rw [hchk] at hok
                    simp only [] at hok ⊢
                    have hdrop : (b :: (rest ++ ys)).drop nIn = ((b :: rest).drop nIn) ++ ys := by
                      rw [← List.cons_append]
                      exact List.drop_append_of_le_length (by simp only [List.length_cons]; omega)
                    rw [hdrop]
                    refine (ih ((b :: rest).drop nIn) ys _ m ocbA ocbW ?_ ?_ ?_ ?_).2 accA hok
                    · simp only [List.length_drop, List.length_cons]
                      omega
                    · simp only [List.length_drop, List.length_cons]
                      omega
                    · simp only [List.length_append, List.length_drop, List.length_cons]
                      omega
                    · simp only [List.length_append, List.length_drop, List.length_cons]
                      omega
          | inputEmpty =>
              have hnin : nIn = rest.length + 1 := by
                have := hieq rfl
                simpa using this
              constructor
              · intro e he
                rw [mainLoop, hrA] at he
                simp at he
              · intro accA hok
                rw [mainLoop, hrA] at hok
                simp only [] at hok
                simp only [Except.ok.injEq] at hok
                subst hok
                rcases hr2 : readRecord cfg rst ys ((ocbW - acc.outTmp.length) - rout.length)
                    (((nf + 6) - acc.ends.length) - rends.length) with
                  ⟨res2, nIn2, rout2, rends2, rst2⟩
                have hWg := hglue rfl _ hr2
                rw [List.cons_append] at hWg
                simp only [] at hWg
                obtain ⟨hnoeos2, hle2, hout2, hieq2, hpos2⟩ :=
                  readRecord_nin_spec cfg ys rst _ _ _ hr2
                simp only at hnoeos2 hle2 hout2 hieq2 hpos2
                cases ys with
                | nil =>
                    rw [show readRecord cfg rst ([] : List Nat)
                        ((ocbW - acc.outTmp.length) - rout.length)
                        (((nf + 6) - acc.ends.length) - rends.length)
                        = ⟨.inputEmpty, 0, [], [], rst⟩ from rfl] at hr2
                    simp only [RR.mk.injEq] at hr2
                    obtain ⟨hq1, hq2, hq3, hq4, hq5⟩ := hr2
                    subst hq1
                    subst hq2
                    subst hq3
                    subst hq4
                    subst hq5
                    rw [List.cons_append, mainLoop, mainLoop, hWg]
                    simp only []
                    show (⟨acc.outTmp ++ (rout ++ []), acc.ends ++ (rends ++ []), acc.rowEnds,
                        acc.fEnds, acc.rbEnd, rst⟩ : MainAcc)
                      = ⟨acc.outTmp ++ rout, acc.ends ++ rends, acc.rowEnds, acc.fEnds,
                        acc.rbEnd, rst⟩
                    simp
                | cons y ys' =>
                    have hr2' : readRecord cfg rst (y :: ys')
                        (ocbW - (acc.outTmp.length + rout.length))
                        ((nf + 6) - (acc.ends.length + rends.length))
                        = ⟨res2, nIn2, rout2, rends2, rst2⟩ := by
                      rw [← Nat.sub_sub, ← Nat.sub_sub]
                      exact hr2
                    rw [List.cons_append, mainLoop, hWg]
                    rw [mainLoop]
                    simp only []
                    simp only [List.length_append]
                    rw [hr2']
                    cases res2 with
                    | eos => exact absurd rfl hnoeos2
                    | inputEmpty =>
                        simp only []
                        show (⟨acc.outTmp ++ (rout ++ rout2), acc.ends ++ (rends ++ rends2),
                            acc.rowEnds, acc.fEnds, acc.rbEnd, rst2⟩ : MainAcc)
                          = ⟨(acc.outTmp ++ rout) ++ rout2, (acc.ends ++ rends) ++ rends2,
                            acc.rowEnds, acc.fEnds, acc.rbEnd, rst2⟩
                        simp [List.append_assoc]
                    | outputFull =>
                        simp only []
                        show ErrAgree _ _
                        exact ⟨path, "output more than input", sr + acc.rowEnds.length,
                          "output more than input", sr + acc.rowEnds.length, rfl, rfl⟩
                    | outputEndsFull =>
                        simp only []
                        show ErrAgree _ _
                        exact ⟨path, tooManyCapMsg nf (nf + 6), sr + acc.rowEnds.length,
                          tooManyCapMsg nf (nf + 6), sr + acc.rowEnds.length, rfl, rfl⟩
                    | record =>
                        simp only []
                        have hp2 : 0 < nIn2 := hpos2 rfl
                        have hassoc : acc.ends ++ (rends ++ rends2)
                            = (acc.ends ++ rends) ++ rends2 := by
                          simp
                        match hchkW : recordCheck nf (rends ++ rends2).length
                            (acc.ends ++ (rends ++ rends2)) with
                        | some mW =>
                            match hchkR : recordCheck nf rends2.length
                                ((acc.ends ++ rends) ++ rends2) with
                            | some mR =>
                                simp only []
                                show ErrAgree _ _
                                exact ⟨path, mW, sr + acc.rowEnds.length,
                                  mR, sr + acc.rowEnds.length, rfl, rfl⟩
                            | none =>
                                exfalso
                                have hcontra := (recordCheck_none_indep nf rends2.length
                                  (rends ++ rends2).length ((acc.ends ++ rends) ++ rends2)).mp
                                  hchkR
                                rw [← hassoc] at hcontra
                                rw [hcontra] at hchkW
                                simp at hchkW
                        | none =>
                            have hchkR : recordCheck nf rends2.length
                                ((acc.ends ++ rends) ++ rends2) = none := by
                              rw [← hassoc]
                              exact (recordCheck_none_indep nf (rends ++ rends2).length
                                rends2.length (acc.ends ++ (rends ++ rends2))).mp hchkW
                            rw [hchkR]
                            simp only []
                            have hdrop : (b :: (rest ++ y :: ys')).drop
                                ((b :: rest).length + nIn2) = (y :: ys').drop nIn2 := by
                              rw [← List.cons_append]
                              exact List.drop_append nIn2
                            rw [hdrop]
                            simp only [List.append_assoc, List.length_append, Nat.add_assoc]
                            rw [mainLoop_fuel_irrel cfg nf path sr lrl ocbW m
                              ((y :: ys').length) _ _
                              (by simp only [List.length_drop, List.length_cons] at h2 ⊢; omega)
                              (by simp only [List.length_drop]; omega)]
                            exact mainLoop_MRel_self cfg nf path sr lrl ocbW ((y :: ys').length)
                              _ _

theorem mainLoop_rebase (cfg : TokCfg) (nf : Nat) (path : String) :
    ∀ fuelW (ys : List Nat) (fuelB : Nat) (aW aB : MainAcc)
      (A0 R0 F0 : List Nat) (D rb0 srW srB lrlW lrlB ocbW ocbB : Nat),
      ys.length ≤ fuelW → ys.length ≤ fuelB →
      aW.outTmp.length + ys.length ≤ ocbW →
      aB.outTmp.length + ys.length ≤ ocbB →
      lrlW + A0.length = lrlB + D →
      RebRel A0 R0 F0 D rb0 aW aB →
      (match mainLoop cfg nf path srW lrlW ocbW fuelW aW ys,
             mainLoop cfg nf path srB lrlB ocbB fuelB aB ys with
       | .ok w, .ok b2 => RebRel A0 R0 F0 D rb0 w b2
       | .error e1, .error e2 => ErrAgree e1 e2
       | _, _ => False) := by
  intro fuelW
  induction fuelW with
  | zero =>
      intro ys fuelB aW aB A0 R0 F0 D rb0 srW srB lrlW lrlB ocbW ocbB h1 h2 h3 h4 hlrl hrel
      have hys : ys = [] := List.eq_nil_of_length_eq_zero (by omega)
      subst hys
      have hW0 : mainLoop cfg nf path srW lrlW ocbW 0 aW [] = .ok aW := by
        simp [mainLoop]
      have hB0 : mainLoop cfg nf path srB lrlB ocbB fuelB aB [] = .ok aB := by
        cases fuelB <;> simp [mainLoop]
      rw [hW0, hB0]
      exact hrel
  | succ n ih =>
      intro ys fuelB aW aB A0 R0 F0 D rb0 srW srB lrlW lrlB ocbW ocbB h1 h2 h3 h4 hlrl hrel
      cases ys with
      | nil =>
          have hW0 : mainLoop cfg nf path srW lrlW ocbW (n + 1) aW [] = .ok aW := by
            simp [mainLoop]
          have hB0 : mainLoop cfg nf path srB lrlB ocbB fuelB aB [] = .ok aB := by
            cases fuelB <;> simp [mainLoop]
          rw [hW0, hB0]
          exact hrel
      | cons y ysr =>
          simp only [List.length_cons] at h1 h2 h3 h4
          obtain ⟨k, hk⟩ : ∃ k, fuelB = k + 1 := ⟨fuelB - 1, by omega⟩
          subst hk
          obtain ⟨ht, he, ho, hr, hf, hdisj⟩ := hrel
          rcases hrB : readRecord cfg aB.tok (y :: ysr) (ocbB - aB.outTmp.length)
              ((nf + 6) - aB.ends.length) with ⟨res, nIn, rout, rends, rst⟩
          have hrW : readRecord cfg aW.tok (y :: ysr) (ocbW - aW.outTmp.length)
              ((nf + 6) - aW.ends.length) = ⟨res, nIn, rout, rends, rst⟩ := by
            rw [ht, he]
            rw [readRecord_cap_irrel cfg (y :: ysr) aB.tok (ocbW - aW.outTmp.length)
              (ocbB - aB.outTmp.length) ((nf + 6) - aB.ends.length)
              (by simp only [List.length_cons]; omega)
              (by simp only [List.length_cons]; omega)]
            exact hrB
          obtain ⟨hnoeos, hle, hout, hieq, hpos⟩ :=
            readRecord_nin_spec cfg (y :: ysr) aB.tok _ _ _ hrB
          simp only at hnoeos hle hout hieq hpos
          simp only [List.length_cons] at hle
          rw [mainLoop]
          rw [mainLoop]
          rw [hrW, hrB]
          cases res with
          | eos => exact absurd rfl hnoeos
          | inputEmpty =>
              simp only []
              refine ⟨rfl, by rw [he], ?_, hr, hf, ?_⟩
              · rw [ho, List.append_assoc]
              · rcases hdisj with ⟨hd1, hd2, hd3⟩ | ⟨hd1, hd2⟩
                · exact Or.inl ⟨hd1, hd2, hd3⟩
                · exact Or.inr ⟨hd1, hd2⟩
          | outputFull =>
              show ErrAgree _ _
              exact ⟨path, "output more than input", srW + aW.rowEnds.length,
                "output more than input", srB + aB.rowEnds.length, rfl, rfl⟩
          | outputEndsFull =>
              show ErrAgree _ _
              exact ⟨path, tooManyCapMsg nf (nf + 6), srW + aW.rowEnds.length,
                tooManyCapMsg nf (nf + 6), srB + aB.rowEnds.length, rfl, rfl⟩
          | record =>
              simp only []
              have hp : 0 < nIn := hpos rfl
              rw [he]
              match hchk : recordCheck nf rends.length (aB.ends ++ rends) with
              | some m =>
                  simp only []
                  show ErrAgree _ _
                  exact ⟨path, m, srW + aW.rowEnds.length,
                    m, srB + aB.rowEnds.length, rfl, rfl⟩
              | none =>
                  simp only []
                  have hrel' : RebRel A0 R0 F0 D rb0
                      ⟨aW.outTmp ++ rout, [],
                       aW.rowEnds ++ [lrlW + (aW.outTmp ++ rout).length],
                       aW.fEnds ++ (aB.ends ++ rends).take nf,
                       (aW.outTmp ++ rout).length, rst⟩
                      ⟨aB.outTmp ++ rout, [],
                       aB.rowEnds ++ [lrlB + (aB.outTmp ++ rout).length],
                       aB.fEnds ++ (aB.ends ++ rends).take nf,
                       (aB.outTmp ++ rout).length, rst⟩ := by
                    refine ⟨rfl, rfl, ?_, ?_, ?_, Or.inr ⟨by simp, ?_⟩⟩
                    · rw [ho, List.append_assoc]
                    · rw [hr, ho, List.map_append, List.append_assoc]
                      simp only [List.map_cons, List.map_nil, List.append_assoc,
                        List.cons.injEq, and_true, List.append_cancel_left_eq,
                        List.length_append]
                      omega
                    · rw [hf, List.append_assoc]
                    · simp only [ho, List.length_append]
                      omega
                  have := ih ((y :: ysr).drop nIn) k _ _ A0 R0 F0 D rb0 srW srB lrlW lrlB
                    ocbW ocbB
                    (by simp only [List.length_drop, List.length_cons]; omega)
                    (by simp only [List.length_drop, List.length_cons]; omega)
                    (by simp only [List.length_append, List.length_drop, List.length_cons]
                        omega)
                    (by simp only [List.length_append, List.length_drop, List.length_cons]
                        omega)
                    hlrl hrel'
                  exact this

theorem headerLoop_cap_irrel (cfg : TokCfg) (nf : Nat) (path : String) :
    ∀ rts (rows : Nat) (tok : TokState) (ends buf : List Nat) (oc oc' : Nat),
      buf.length ≤ oc → buf.length ≤ oc' →
      headerLoop cfg nf path oc rts rows tok ends buf
        = headerLoop cfg nf path oc' rts rows tok ends buf := by
  intro rts
  induction rts with
  | zero => intros; rfl
  | succ n ih =>
      intro rows tok ends buf oc oc' h1 h2
      rw [headerLoop]
      conv_rhs => rw [headerLoop]
      rw [readRecord_cap_irrel cfg buf tok oc oc' ((nf + 6) - ends.length) h1 h2]
      rcases hr : readRecord cfg tok buf oc' ((nf + 6) - ends.length) with
        ⟨res, nIn, rout, rends, rst⟩
      cases res with
      | inputEmpty => rfl
      | outputFull => rfl
      | outputEndsFull => rfl
      | eos => rfl
      | record =>
          simp only []
          match hchk : recordCheck nf rends.length (ends ++ rends) with
          | some m => rfl
          | none =>
              exact ih (rows + 1) rst [] (buf.drop nIn) oc oc'
                (by simp only [List.length_drop]; omega)
                (by simp only [List.length_drop]; omega)

theorem headerLoop_through_len (cfg : TokCfg) (nf : Nat) (path : String) (oc : Nat) :
    ∀ rts (rows : Nat) (tok : TokState) (ends buf : List Nat)
      (rows' : Nat) (tok' : TokState) (ends' rem : List Nat),
      headerLoop cfg nf path oc rts rows tok ends buf
        = .ok (.through rows' tok' ends' rem) →
      rem.length ≤ buf.length := by
  intro rts
  induction rts with
  | zero =>
      intro rows tok ends buf rows' tok' ends' rem h
      simp [headerLoop] at h
      rw [← h.2.2.2]
  | succ n ih =>
      intro rows tok ends buf rows' tok' ends' rem h
      rw [headerLoop] at h
      rcases hr : readRecord cfg tok buf oc ((nf + 6) - ends.length) with
        ⟨res, nIn, rout, rends, rst⟩
      rw [hr] at h
      cases res with
      | inputEmpty => simp at h
      | outputFull => simp at h
      | outputEndsFull => simp at h
      | eos => simp at h
      | record =>
          simp only [] at h
          match hchk : recordCheck nf rends.length (ends ++ rends) with
          | some m => rw [hchk] at h; simp at h
          | none =>
              rw [hchk] at h
              simp only [] at h
              have := ih (rows + 1) rst [] (buf.drop nIn) rows' tok' ends' rem h
              simp only [List.length_drop] at this
              omega

theorem headerLoop_HRel_self (cfg : TokCfg) (nf : Nat) (path : String)
    (oc rts rows : Nat) (tok : TokState) (ends buf : List Nat) :
    HRel (headerLoop cfg nf path oc rts rows tok ends buf)
         (headerLoop cfg nf path oc rts rows tok ends buf) := by
  match hh : headerLoop cfg nf path oc rts rows tok ends buf with
  | .ok a => show (a = a); rfl
  | .error e =>
      obtain ⟨m, r, he⟩ := headerLoop_err_shape cfg nf path oc rts rows tok ends buf e hh
      show ErrAgree e e
      exact ⟨path, m, r, m, r, he, he⟩

theorem headerLoop_extend (cfg : TokCfg) (nf : Nat) (path : String) :
    ∀ rts (rows : Nat) (tok : TokState) (ends bufA ys : List Nat) (ocA ocW : Nat),
      bufA.length ≤ ocA → bufA.length + ys.length ≤ ocW →
      (∀ e, headerLoop cfg nf path ocA rts rows tok ends bufA = .error e →
        headerLoop cfg nf path ocW rts rows tok ends (bufA ++ ys) = .error e) ∧
      (∀ (rows' : Nat) (tok' : TokState) (ends' rem : List Nat),
        headerLoop cfg nf path ocA rts rows tok ends bufA
          = .ok (.through rows' tok' ends' rem) →
        headerLoop cfg nf path ocW rts rows tok ends (bufA ++ ys)
          = .ok (.through rows' tok' ends' (rem ++ ys))) ∧
      (∀ (rows' rts' : Nat) (tok' : TokState) (ends' : List Nat),
        headerLoop cfg nf path ocA rts rows tok ends bufA
          = .ok (.stop rows' rts' tok' ends') →
        HRel (headerLoop cfg nf path ocW rts rows tok ends (bufA ++ ys))
             (headerLoop cfg nf path ocW rts' rows' tok' ends' ys)) := by
  intro rts
  induction rts with
  | zero =>
      intro rows tok ends bufA ys ocA ocW h1 h2
      refine ⟨?_, ?_, ?_⟩
      · intro e he
        simp [headerLoop] at he
      · intro rows' tok' ends' rem h
        simp [headerLoop] at h
        obtain ⟨e1, e2, e3, e4⟩ := h
        subst e1
        subst e2
        subst e3
        subst e4
        rfl
      · intro rows' rts' tok' ends' h
        simp [headerLoop] at h
  | succ n ih =>
      intro rows tok ends bufA ys ocA ocW h1 h2
      rcases hrA : readRecord cfg tok bufA ocA ((nf + 6) - ends.length) with
        ⟨res, nIn, rout, rends, rst⟩
      obtain ⟨hnoeos, hle, hout, hieq, hpos⟩ := readRecord_nin_spec cfg bufA tok _ _ _ hrA
      simp only at hnoeos hle hout hieq hpos
      have hcap : readRecord cfg tok bufA ocW ((nf + 6) - ends.length)
          = ⟨res, nIn, rout, rends, rst⟩ :=
        (readRecord_cap_irrel cfg bufA tok ocW ocA ((nf + 6) - ends.length)
          (by omega) h1).trans hrA
      obtain ⟨hext, hglue⟩ := readRecord_append cfg bufA tok ocW
        ((nf + 6) - ends.length) ys _ hcap
      cases res with
      | eos =>
          have hW := hext (by simp)
          refine ⟨?_, ?_, ?_⟩
          · intro e he
            rw [headerLoop, hrA] at he
            simp only [] at he
            rw [headerLoop, hW]
            exact he
          · intro rows' tok' ends' rem h
            rw [headerLoop, hrA] at h
            simp at h
          · intro rows' rts' tok' ends' h
            rw [headerLoop, hrA] at h
            simp at h
      | outputFull =>
          have hW := hext (by simp)
          refine ⟨?_, ?_, ?_⟩
          · intro e he
            rw [headerLoop, hrA] at he
            simp only [] at he
            rw [headerLoop, hW]
            exact he
          · intro rows' tok' ends' rem h
            rw [headerLoop, hrA] at h
            simp at h
          · intro rows' rts' tok' ends' h
            rw [headerLoop, hrA] at h
            simp at h
      | outputEndsFull =>
          have hW := hext (by simp)
          refine ⟨?_, ?_, ?_⟩
          · intro e he
            rw [headerLoop, hrA] at he
            simp only [] at he
            rw [headerLoop, hW]
            exact he
          · intro rows' tok' ends' rem h
            rw [headerLoop, hrA] at h
            simp at h
          · intro rows' rts' tok' ends' h
            rw [headerLoop, hrA] at h
            simp at h
      | record =>
          have hW := hext (by simp)
          have hp : 0 < nIn := hpos rfl
          have hdrop : (bufA ++ ys).drop nIn = (bufA.drop nIn) ++ ys :=
            List.drop_append_of_le_length (by omega)
          refine ⟨?_, ?_, ?_⟩
          · intro e he
            rw [headerLoop, hrA] at he
            simp only [] at he
            rw [headerLoop, hW]
            simp only []
            match hchk : recordCheck nf rends.length (ends ++ rends) with
            | some m =>
                rw [hchk] at he
                simp only [] at he
                exact he
            | none =>
                rw [hchk] at he
                simp only [] at he
                rw [hdrop]
                refine (ih (rows + 1) rst [] (bufA.drop nIn) ys ocA ocW ?_ ?_).1 e he
                · simp only [List.length_drop]
                  omega
                · simp only [List.length_drop]
                  omega
          · intro rows' tok' ends' rem h
            rw [headerLoop, hrA] at h
            simp only [] at h
            rw [headerLoop, hW]
            simp only []
            match hchk : recordCheck nf rends.length (ends ++ rends) with
            | some m =>
                rw [hchk] at h
                simp at h
            | none =>
                rw [hchk] at h
                simp only [] at h
                rw [hdrop]
                refine (ih (rows + 1) rst [] (bufA.drop nIn) ys ocA ocW ?_ ?_).2.1
                  rows' tok' ends' rem h
                · simp only [List.length_drop]
                  omega
                · simp only [List.length_drop]
                  omega
          · intro rows' rts' tok' ends' h
            rw [headerLoop, hrA] at h
            simp only [] at h
            rw [headerLoop, hW]
            simp only []
            match hchk : recordCheck nf rends.length (ends ++ rends) with
            | some m =>
                rw [hchk] at h
                simp at h
            | none =>
                rw [hchk] at h
                simp only [] at h
                rw [hdrop]
                refine (ih (rows + 1) rst [] (bufA.drop nIn) ys ocA ocW ?_ ?_).2.2
                  rows' rts' tok' ends' h
                · simp only [List.length_drop]
                  omega
                · simp only [List.length_drop]
                  omega
      | inputEmpty =>
          have hnin : nIn = bufA.length := by simpa using hieq rfl
          refine ⟨?_, ?_, ?_⟩
          · intro e he
            rw [headerLoop, hrA] at he
            simp at he
          · intro rows' tok' ends' rem h
            rw [headerLoop, hrA] at h
            simp at h
          · intro rows' rts' tok' ends' h
            rw [headerLoop, hrA] at h
            simp only [] at h
            simp only [Except.ok.injEq, HeaderOut.stop.injEq] at h
            obtain ⟨e1, e2, e3, e4⟩ := h
            subst e1
            subst e2
            subst e3
            subst e4
            rcases hr2 : readRecord cfg rst ys (ocW - rout.length)
                (((nf + 6) - ends.length) - rends.length) with
              ⟨res2, nIn2, rout2, rends2, rst2⟩
            have hWg := hglue rfl _ hr2
            simp only [] at hWg
            obtain ⟨hnoeos2, hle2, hout2, hieq2, hpos2⟩ :=
              readRecord_nin_spec cfg ys rst _ _ _ hr2
            simp only at hnoeos2 hle2 hout2 hieq2 hpos2
            have hr2res : readRecord cfg rst ys ocW ((nf + 6) - (ends ++ rends).length)
                = ⟨res2, nIn2, rout2, rends2, rst2⟩ := by
              simp only [List.length_append, ← Nat.sub_sub]
              rw [readRecord_cap_irrel cfg ys rst ocW (ocW - rout.length)
                (((nf + 6) - ends.length) - rends.length) (by omega) (by omega)]
              exact hr2
            rw [headerLoop, hWg]
            rw [headerLoop, hr2res]
            cases res2 with
            | eos => exact absurd rfl hnoeos2
            | inputEmpty =>
                show _ = _
                simp [List.append_assoc]
            | outputFull =>
                show ErrAgree _ _
                exact ⟨path, "output more than input, in header", rows,
                  "output more than input, in header", rows, rfl, rfl⟩
            | outputEndsFull =>
                show ErrAgree _ _
                exact ⟨path, tooManyCapMsg nf (nf + 6), rows,
                  tooManyCapMsg nf (nf + 6), rows, rfl, rfl⟩
            | record =>
                simp only []
                have hassoc : ends ++ (rends ++ rends2) = (ends ++ rends) ++ rends2 := by
                  simp
                match hchkW : recordCheck nf (rends ++ rends2).length
                    (ends ++ (rends ++ rends2)) with
                | some mW =>
                    match hchkR : recordCheck nf rends2.length
                        ((ends ++ rends) ++ rends2) with
                    | some mR =>
                        simp only []
                        show ErrAgree _ _
                        exact ⟨path, mW, rows, mR, rows, rfl, rfl⟩
                    | none =>
                        exfalso
                        have hcontra := (recordCheck_none_indep nf rends2.length
                          (rends ++ rends2).length ((ends ++ rends) ++ rends2)).mp hchkR
                        rw [← hassoc] at hcontra
                        rw [hcontra] at hchkW
                        simp at hchkW
                | none =>
                    have hchkR : recordCheck nf rends2.length
                        ((ends ++ rends) ++ rends2) = none := by
                      rw [← hassoc]
                      exact (recordCheck_none_indep nf (rends ++ rends2).length
                        rends2.length (ends ++ (rends ++ rends2))).mp hchkW
                    rw [hchkR]
                    simp only []
                    have hdrop2 : (bufA ++ ys).drop (bufA.length + nIn2)
                        = ys.drop nIn2 := List.drop_append nIn2
                    rw [hdrop2]
                    exact headerLoop_HRel_self cfg nf path ocW n (rows + 1) rst2 []
                      (ys.drop nIn2)

theorem align_nil (cfg : TokCfg) (st : AligningState) :
    align cfg st [] = .ok (st, []) := by
  rcases st with ⟨⟨tok, out, fe⟩, rows, rts, bid, off, path, nf⟩
  cases rts with
  | zero =>
      unfold align alignCore
      simp [headerLoop, mainLoop, assemble]
  | succ k =>
      unfold align alignCore
      simp [headerLoop, readRecord, assemble]

theorem StEq_refl (s : AligningState) : StEq s s := ⟨rfl, rfl, rfl, rfl, rfl, rfl⟩

theorem StEq_trans (a b c : AligningState) (h1 : StEq a b) (h2 : StEq b c) :
    StEq a c := by
  obtain ⟨x1, x2, x3, x4, x5, x6⟩ := h1
  obtain ⟨y1, y2, y3, y4, y5, y6⟩ := h2
  exact ⟨x1.trans y1, x2.trans y2, x3.trans y3, x4.trans y4, x5.trans y5, x6.trans y6⟩

theorem rowsAll_append (nf : Nat) (a b : List RowBatch) :
    rowsAll nf (a ++ b) = rowsAll nf a ++ rowsAll nf b := by
  simp [rowsAll]

theorem rowSlicesGo_length (data : List Nat) :
    ∀ (es : List Nat) (s : Nat), (rowSlicesGo data s es).length = es.length := by
  intro es
  induction es with
  | nil => intro s; rfl
  | cons e es ih => intro s; simp [rowSlicesGo, ih]

theorem rowSlicesGo_append (data : List Nat) :
    ∀ (es1 es2 : List Nat) (s : Nat),
      rowSlicesGo data s (es1 ++ es2)
        = rowSlicesGo data s es1 ++ rowSlicesGo data (es1.getLastD s) es2 := by
  intro es1
  induction es1 with
  | nil => intro es2 s; simp [rowSlicesGo]
  | cons e es ih =>
      intro es2 s
      simp only [List.cons_append, rowSlicesGo, List.getLastD_cons, List.append_eq]
      rw [ih]

theorem rowSlicesGo_front (D1 D2 : List Nat) :
    ∀ (es : List Nat) (s : Nat), (∀ x ∈ es, x ≤ D1.length) →
      rowSlicesGo (D1 ++ D2) s es = rowSlicesGo D1 s es := by
  intro es
  induction es with
  | nil => intros; rfl
  | cons e es ih =>
      intro s hb
      simp only [rowSlicesGo]
      rw [List.take_append_of_le_length (hb e (by simp)),
        ih e (fun x hx => hb x (by simp [hx]))]

theorem rowSlicesGo_shift (D1 D2 : List Nat) :
    ∀ (es : List Nat) (s : Nat),
      rowSlicesGo (D1 ++ D2) (D1.length + s) (es.map (fun x => D1.length + x))
        = rowSlicesGo D2 s es := by
  intro es
  induction es with
  | nil => intros; rfl
  | cons e es ih =>
      intro s
      simp only [List.map_cons, rowSlicesGo]
      rw [List.take_append e, List.drop_append s, ih e]

theorem rowSlicesGo_shift0 (D1 D2 : List Nat) (es : List Nat) :
    rowSlicesGo (D1 ++ D2) D1.length (es.map (fun x => D1.length + x))
      = rowSlicesGo D2 0 es := by
  have := rowSlicesGo_shift D1 D2 es 0
  simpa using this

theorem groupFields_length (nf : Nat) :
    ∀ (k : Nat) (l : List Nat), (groupFields nf k l).length = k := by
  intro k
  induction k with
  | zero => intro l; rfl
  | succ m ih => intro l; simp [groupFields, ih]

theorem groupFields_append (nf : Nat) :
    ∀ (k1 : Nat) (f1 : List Nat) (k2 : Nat) (f2 : List Nat),
      f1.length = k1 * nf →
      groupFields nf (k1 + k2) (f1 ++ f2)
        = groupFields nf k1 f1 ++ groupFields nf k2 f2 := by
  intro k1
  induction k1 with
  | zero =>
      intro f1 k2 f2 hl
      have hnil : f1 = [] := List.eq_nil_of_length_eq_zero (by simpa using hl)
      subst hnil
      simp [groupFields]
  | succ m ih =>
      intro f1 k2 f2 hl
      have hnf_le : nf ≤ f1.length := by
        rw [hl]
        simp [Nat.succ_mul]
      have hshape : m + 1 + k2 = (m + k2) + 1 := by omega
      rw [hshape]
      simp only [groupFields]
      rw [List.take_append_of_le_length hnf_le, List.drop_append_of_le_length hnf_le]
      rw [ih (f1.drop nf) k2 f2
        (by simp only [List.length_drop, hl, Nat.succ_mul]; omega)]
      simp

theorem batchRows_split (nf : Nat) (bA bB bW : RowBatch)
    (hdata : bW.data = bA.data ++ bB.data)
    (hrows : bW.rowEnds = bA.rowEnds ++ bB.rowEnds.map (fun x => bA.data.length + x))
    (hf : bW.fieldEnds = bA.fieldEnds ++ bB.fieldEnds)
    (hAbound : ∀ x ∈ bA.rowEnds, x ≤ bA.data.length)
    (hAlast : bA.rowEnds.getLastD 0 = bA.data.length)
    (hAflen : bA.fieldEnds.length = bA.rowEnds.length * nf) :
    batchRows nf bW = batchRows nf bA ++ batchRows nf bB := by
  unfold batchRows rowSlices
  rw [hdata, hrows, hf]
  rw [rowSlicesGo_append]
  rw [rowSlicesGo_front bA.data bB.data bA.rowEnds 0 hAbound]
  rw [hAlast]
  rw [rowSlicesGo_shift0]
  simp only [List.length_append, List.length_map]
  rw [groupFields_append nf bA.rowEnds.length bA.fieldEnds bB.rowEnds.length
    bB.fieldEnds hAflen]
  rw [List.zip_append (by simp [rowSlicesGo_length, groupFields_length])]

theorem through_acc0_wf (cfg : TokCfg) (st : AligningState) (bufIn : List Nat)
    (rows : Nat) (tok : TokState) (ends buf : List Nat)
    (hwf : stateWFb st = true)
    (hh : headerLoop cfg st.numFields st.path bufIn.length st.rowsToSkip st.rows
      st.reader.tok st.reader.fieldEnds bufIn = .ok (.through rows tok ends buf)) :
    mainWF st.reader.out.length st.numFields
      (⟨[], ends, [], [], 0, tok⟩ : MainAcc) := by
  have hwfs := hwf
  simp [stateWFb, List.all_eq_true] at hwfs
  obtain ⟨⟨hwf1, hwf2⟩, hcond⟩ := hwfs
  have hwf3 : st.rowsToSkip = 0 → st.reader.tok.outputPos = st.reader.out.length := by
    intro hz
    rw [if_pos hz] at hcond
    exact hcond
  have hwf4 : 0 < st.rowsToSkip → st.reader.out = [] := by
    intro hz
    rw [if_neg (by omega)] at hcond
    exact hcond
  obtain ⟨-, hthrough⟩ := headerLoop_wf cfg st.numFields st.path bufIn.length
    st.rowsToSkip st.rows st.reader.tok st.reader.fieldEnds bufIn _ hh hwf1 hwf2
  obtain ⟨⟨hnd0, hbd0⟩, hposz, hsame⟩ := hthrough rows tok ends buf rfl
  refine ⟨hnd0, hbd0, ?_, rfl, fun _ => rfl, by simp, by simp, rfl, by simp⟩
  simp only
  rcases Nat.eq_zero_or_pos st.rowsToSkip with hz | hz
  · obtain ⟨ht, -, -⟩ := hsame hz
    subst ht
    simp [hwf3 hz]
  · obtain ⟨-, hp⟩ := hposz hz
    simp [hp, hwf4 hz]

theorem alignAll_err_shape (cfg : TokCfg) :
    ∀ chunks (st : AligningState) (e : ErrorCode),
      alignAll cfg st chunks = .error e → ∃ m r, e = csvError m st.path r := by
  intro chunks
  induction chunks with
  | nil =>
      intro st e h
      simp [alignAll] at h
  | cons c cs ih =>
      intro st e h
      rw [alignAll] at h
      match ha : align cfg st c with
      | .error e' =>
          rw [ha] at h
          simp at h
          subst h
          exact align_err_shape cfg st c e' ha
      | .ok (st1, bs) =>
          rw [ha] at h
          simp only [] at h
          match hr : alignAll cfg st1 cs with
          | .error e2 =>
              rw [hr] at h
              simp at h
              subst h
              obtain ⟨m, r, he⟩ := ih st1 e2 hr
              obtain ⟨-, hpath⟩ := align_preserves_shape cfg st c st1 bs ha
              rw [hpath] at he
              exact ⟨m, r, he⟩
          | .ok (st2, bs2) =>
              rw [hr] at h
              simp at h

theorem align_stopped_eq (cfg : TokCfg) (st : AligningState) (bufIn : List Nat)
    (rows rts : Nat) (tok : TokState) (ends : List Nat)
    (hh : headerLoop cfg st.numFields st.path bufIn.length st.rowsToSkip st.rows
      st.reader.tok st.reader.fieldEnds bufIn = .ok (.stop rows rts tok ends)) :
    align cfg st bufIn = .ok ({st with
      rows := rows,
      rowsToSkip := rts,
      offset := st.offset + bufIn.length,
      reader := ⟨tok, st.reader.out, ends⟩}, []) := by
  unfold align alignCore
  rw [hh]
  rfl

theorem align_through_eq (cfg : TokCfg) (st : AligningState) (bufIn : List Nat)
    (rows : Nat) (tok : TokState) (ends rem : List Nat)
    (hh : headerLoop cfg st.numFields st.path bufIn.length st.rowsToSkip st.rows
      st.reader.tok st.reader.fieldEnds bufIn = .ok (.through rows tok ends rem)) :
    align cfg st bufIn
      = (match mainLoop cfg st.numFields st.path st.rows st.reader.out.length
          bufIn.length (rem.length + 1) ⟨[], ends, [], [], 0, tok⟩ rem with
        | .error e => .error e
        | .ok acc => .ok (assemble st bufIn.length (.aligned rows acc))) := by
  unfold align alignCore
  rw [hh]
  simp only []
  match hm : mainLoop cfg st.numFields st.path st.rows st.reader.out.length
      bufIn.length (rem.length + 1) ⟨[], ends, [], [], 0, tok⟩ rem with
  | .error e => rfl
  | .ok acc => rfl

theorem align_two_through (cfg : TokCfg) (st : AligningState) (c ys : List Nat)
    (rowsA : Nat) (tokA : TokState) (endsA remA : List Nat) (accA : MainAcc)
    (st1 : AligningState) (bs1 : List RowBatch)
    (hnf : 0 < st.numFields) (hwf : stateWFb st = true)
    (hhA : headerLoop cfg st.numFields st.path c.length st.rowsToSkip st.rows
      st.reader.tok st.reader.fieldEnds c = .ok (.through rowsA tokA endsA remA))
    (hmA : mainLoop cfg st.numFields st.path st.rows st.reader.out.length c.length
      (remA.length + 1) ⟨[], endsA, [], [], 0, tokA⟩ remA = .ok accA)
    (hok : assemble st c.length (.aligned rowsA accA) = (st1, bs1)) :
    match align cfg st (c ++ ys), align cfg st1 ys with
    | .ok (sW, bW), .ok (s2, b2) =>
        StEq sW s2 ∧ rowsAll st.numFields bW
          = rowsAll st.numFields bs1 ++ rowsAll st.numFields b2
    | .error e1, .error e2 => ErrAgree e1 e2
    | _, _ => False := by
  have hremA : remA.length ≤ c.length := headerLoop_through_len cfg st.numFields st.path
    c.length st.rowsToSkip st.rows st.reader.tok st.reader.fieldEnds c rowsA tokA endsA
    remA hhA
  obtain ⟨hp1, hp2, hp3⟩ := headerLoop_extend cfg st.numFields st.path st.rowsToSkip
    st.rows st.reader.tok st.reader.fieldEnds c ys c.length ((c ++ ys).length)
    (le_refl _) (by simp)
  have hWh := hp2 rowsA tokA endsA remA hhA
  have hWeq := align_through_eq cfg st (c ++ ys) rowsA tokA endsA (remA ++ ys) hWh
  have hacc0 : mainWF st.reader.out.length st.numFields
      (⟨[], endsA, [], [], 0, tokA⟩ : MainAcc) :=
    through_acc0_wf cfg st c rowsA tokA endsA remA hwf hhA
  obtain ⟨m1, m2, m3, m4, m5, m6, m7, m8, m9⟩ :=
    mainLoop_mainWF cfg st.numFields st.path st.rows st.reader.out.length c.length hnf
      (remA.length + 1) _ remA accA hmA hacc0
  have hgrow : accA.outTmp.length ≤ remA.length := by
    have := mainLoop_out_growth cfg st.numFields st.path st.rows st.reader.out.length
      c.length (remA.length + 1) _ remA accA hmA
    simpa using this
  obtain ⟨-, hLp2⟩ := mainLoop_extend cfg st.numFields st.path st.rows
    st.reader.out.length (remA.length + 1) remA ys ⟨[], endsA, [], [], 0, tokA⟩
    ((remA ++ ys).length + 1) c.length ((c ++ ys).length)
    (by omega) (by simp only [List.length_append]; omega)
    (by simpa using hremA)
    (by simp only [List.length_append]
        simpa using (by omega : remA.length + ys.length ≤ c.length + ys.length))
  have hMR := hLp2 accA hmA
  by_cases hemp : accA.rowEnds.isEmpty
  · -- the prefix chunk completed no row: no batch, everything carried forward
    have hrowsE : accA.rowEnds = [] := List.isEmpty_iff.mp hemp
    have hfE : accA.fEnds = [] := by
      have hl : accA.fEnds.length = 0 := by rw [← m9, hrowsE]; simp
      exact List.eq_nil_of_length_eq_zero hl
    have hrbE : accA.rbEnd = 0 := m5 hrowsE
    rw [show assemble st c.length (.aligned rowsA accA)
        = ({st with
              rows := rowsA,
              rowsToSkip := 0,
              offset := st.offset + c.length,
              reader := ⟨accA.tok, st.reader.out ++ accA.outTmp, accA.ends⟩},
           ([] : List RowBatch)) from by simp [assemble, hemp]] at hok
    simp only [Prod.mk.injEq] at hok
    obtain ⟨hst1, hbs1⟩ := hok
    subst hst1
    subst hbs1
    have hBeq := align_through_eq cfg
      {st with
        rows := rowsA,
        rowsToSkip := 0,
        offset := st.offset + c.length,
        reader := ⟨accA.tok, st.reader.out ++ accA.outTmp, accA.ends⟩} ys
      rowsA accA.tok accA.ends ys rfl
    simp only [] at hBeq
    simp only [List.length_append] at hBeq
    have hrelE : RebRel accA.outTmp [] [] 0 0 accA
        ⟨[], accA.ends, [], [], 0, accA.tok⟩ := by
      refine ⟨rfl, rfl, by simp, by simp [hrowsE], by simp [hfE],
        Or.inl ⟨rfl, hrbE, rfl⟩⟩
    have hreb := mainLoop_rebase cfg st.numFields st.path (ys.length + 1) ys
      (ys.length + 1) accA ⟨[], accA.ends, [], [], 0, accA.tok⟩ accA.outTmp [] [] 0 0
      st.rows rowsA st.reader.out.length (st.reader.out.length + accA.outTmp.length)
      ((c ++ ys).length) ys.length
      (by omega) (by omega)
      (by simp only [List.length_append]; omega)
      (by simp only []; simp only [List.length_nil]; omega)
      (by omega)
      hrelE
    match hmW : mainLoop cfg st.numFields st.path st.rows st.reader.out.length
        ((c ++ ys).length) ((remA ++ ys).length + 1) ⟨[], endsA, [], [], 0, tokA⟩
        (remA ++ ys) with
    | .error eW =>
        rw [hmW] at hMR
        match hres : mainLoop cfg st.numFields st.path st.rows st.reader.out.length
            ((c ++ ys).length) (ys.length + 1) accA ys with
        | .ok accR =>
            rw [hres] at hMR
            exact absurd hMR (by simp [MRel])
        | .error eR =>
            rw [hres] at hreb
            match hmB : mainLoop cfg st.numFields st.path rowsA
                (st.reader.out.length + accA.outTmp.length) ys.length (ys.length + 1)
                ⟨[], accA.ends, [], [], 0, accA.tok⟩ ys with
            | .ok accB2 =>
                rw [hmB] at hreb
                exact absurd hreb (by simp)
            | .error eB =>
                have hWerr : align cfg st (c ++ ys) = .error eW := by
                  rw [hWeq, hmW]
                have hBerr : align cfg
                    {st with
                      rows := rowsA,
                      rowsToSkip := 0,
                      offset := st.offset + c.length,
                      reader := ⟨accA.tok, st.reader.out ++ accA.outTmp, accA.ends⟩} ys
                    = .error eB := by
                  rw [hBeq, hmB]
                rw [hWerr, hBerr]
                obtain ⟨mw, rw1, hew⟩ := mainLoop_err_shape cfg st.numFields st.path
                  st.rows st.reader.out.length ((c ++ ys).length)
                  ((remA ++ ys).length + 1) _ _ eW hmW
                obtain ⟨mb, rb1, heb⟩ := mainLoop_err_shape cfg st.numFields st.path
                  rowsA (st.reader.out.length + accA.outTmp.length) ys.length
                  (ys.length + 1) _ _ eB hmB
                exact ⟨st.path, mw, rw1, mb, rb1, hew, heb⟩
    | .ok accW2 =>
        rw [hmW] at hMR
        match hres : mainLoop cfg st.numFields st.path st.rows st.reader.out.length
            ((c ++ ys).length) (ys.length + 1) accA ys with
        | .error eR =>
            rw [hres] at hMR
            exact absurd hMR (by simp [MRel])
        | .ok accR =>
            rw [hres] at hMR hreb
            have hWR : accW2 = accR := hMR
            rw [hWR] at hmW
            match hmB : mainLoop cfg st.numFields st.path rowsA
                (st.reader.out.length + accA.outTmp.length) ys.length (ys.length + 1)
                ⟨[], accA.ends, [], [], 0, accA.tok⟩ ys with
            | .error eB =>
                rw [hmB] at hreb
                exact absurd hreb (by simp)
            | .ok accB2 =>
                rw [hmB] at hreb
                obtain ⟨q1, q2, q3, q4, q5, q6⟩ := hreb
                have hWok : align cfg st (c ++ ys)
                    = .ok (assemble st (c ++ ys).length (.aligned rowsA accR)) := by
                  rw [hWeq, hmW]
                have hBok : align cfg
                    {st with
                      rows := rowsA,
                      rowsToSkip := 0,
                      offset := st.offset + c.length,
                      reader := ⟨accA.tok, st.reader.out ++ accA.outTmp, accA.ends⟩} ys
                    = .ok (assemble
                      {st with
                        rows := rowsA,
                        rowsToSkip := 0,
                        offset := st.offset + c.length,
                        reader := ⟨accA.tok, st.reader.out ++ accA.outTmp, accA.ends⟩}
                      ys.length (.aligned rowsA accB2)) := by
                  rw [hBeq, hmB]
                by_cases hempB : accB2.rowEnds.isEmpty
                · have hrowsRE : accR.rowEnds = [] := by
                    rw [q4]
                    simp [List.isEmpty_iff.mp hempB]
                  have hempR : accR.rowEnds.isEmpty = true := by simp [hrowsRE]
                  have hWfin : align cfg st (c ++ ys)
                      = .ok ({st with
                          rows := rowsA,
                          rowsToSkip := 0,
                          offset := st.offset + (c ++ ys).length,
                          reader := ⟨accR.tok, st.reader.out ++ accR.outTmp,
                            accR.ends⟩},
                        ([] : List RowBatch)) := by
                    rw [hWok]
                    simp [assemble, hempR]
                  have hBfin : align cfg
                      {st with
                        rows := rowsA,
                        rowsToSkip := 0,
                        offset := st.offset + c.length,
                        reader := ⟨accA.tok, st.reader.out ++ accA.outTmp,
                          accA.ends⟩} ys
                      = .ok ({st with
                          rows := rowsA,
                          rowsToSkip := 0,
                          offset := st.offset + c.length + ys.length,
                          reader := ⟨accB2.tok,
                            (st.reader.out ++ accA.outTmp) ++ accB2.outTmp,
                            accB2.ends⟩},
                        ([] : List RowBatch)) := by
                    rw [hBok]
                    simp [assemble, hempB]
                  rw [hWfin, hBfin]
                  refine ⟨⟨?_, rfl, rfl, ?_, rfl, rfl⟩, by simp [rowsAll]⟩
                  · rw [q1, q2, q3, List.append_assoc]
                  · simp only [List.length_append]
                    omega
                · have hneB : accB2.rowEnds ≠ [] := fun hx => hempB (by simp [hx])
                  have hRne : accR.rowEnds ≠ [] := by
                    rw [q4]
                    simpa using hneB
                  have hempR : ¬accR.rowEnds.isEmpty = true := fun hx =>
                    hRne (List.isEmpty_iff.mp hx)
                  rcases q6 with ⟨hq0, -, -⟩ | ⟨-, hq6⟩
                  · exact absurd hq0 hneB
                  have hWfin : align cfg st (c ++ ys)
                      = .ok ({st with
                          rows := rowsA + accR.rowEnds.length,
                          rowsToSkip := 0,
                          offset := st.offset + (c ++ ys).length,
                          batchId := st.batchId + 1,
                          reader := ⟨accR.tok, accR.outTmp.drop accR.rbEnd,
                            accR.ends⟩},
                        [⟨st.reader.out ++ accR.outTmp.take accR.rbEnd, accR.rowEnds,
                          accR.fEnds, st.path, st.batchId, 0, some rowsA⟩]) := by
                    rw [hWok]
                    simp [assemble, hempR]
                  have hBfin : align cfg
                      {st with
                        rows := rowsA,
                        rowsToSkip := 0,
                        offset := st.offset + c.length,
                        reader := ⟨accA.tok, st.reader.out ++ accA.outTmp,
                          accA.ends⟩} ys
                      = .ok ({st with
                          rows := rowsA + accB2.rowEnds.length,
                          rowsToSkip := 0,
                          offset := st.offset + c.length + ys.length,
                          batchId := st.batchId + 1,
                          reader := ⟨accB2.tok, accB2.outTmp.drop accB2.rbEnd,
                            accB2.ends⟩},
                        [⟨(st.reader.out ++ accA.outTmp)
                            ++ accB2.outTmp.take accB2.rbEnd,
                          accB2.rowEnds, accB2.fEnds, st.path, st.batchId, 0,
                          some rowsA⟩]) := by
                    rw [hBok]
                    simp [assemble, hempB]
                  rw [hWfin, hBfin]
                  refine ⟨⟨?_, ?_, rfl, ?_, rfl, rfl⟩, ?_⟩
                  · rw [q1, q2, q3, hq6, List.drop_append accB2.rbEnd]
                  · rw [q4]
                    simp
                  · simp only [List.length_append]
                    omega
                  · have hbatch : (⟨st.reader.out ++ accR.outTmp.take accR.rbEnd,
                        accR.rowEnds, accR.fEnds, st.path, st.batchId, 0,
                        some rowsA⟩ : RowBatch)
                        = ⟨(st.reader.out ++ accA.outTmp)
                            ++ accB2.outTmp.take accB2.rbEnd,
                          accB2.rowEnds, accB2.fEnds, st.path, st.batchId, 0,
                          some rowsA⟩ := by
                      rw [q3, q4, q5, hq6, List.take_append accB2.rbEnd]
                      simp [List.append_assoc]
                    rw [hbatch]
                    simp [rowsAll]
  · -- the prefix chunk emitted a batch
    have hrowsNE : accA.rowEnds ≠ [] := fun hx => hemp (by simp [hx])
    have h6A := m6 hrowsNE
    rw [show assemble st c.length (.aligned rowsA accA)
        = ({st with
              rows := rowsA + accA.rowEnds.length,
              rowsToSkip := 0,
              offset := st.offset + c.length,
              batchId := st.batchId + 1,
              reader := ⟨accA.tok, accA.outTmp.drop accA.rbEnd, accA.ends⟩},
           [⟨st.reader.out ++ accA.outTmp.take accA.rbEnd, accA.rowEnds, accA.fEnds,
             st.path, st.batchId, 0, some rowsA⟩])
        from by simp [assemble, hemp]] at hok
    simp only [Prod.mk.injEq] at hok
    obtain ⟨hst1, hbs1⟩ := hok
    subst hst1
    subst hbs1
    have hBeq := align_through_eq cfg
      {st with
        rows := rowsA + accA.rowEnds.length,
        rowsToSkip := 0,
        offset := st.offset + c.length,
        batchId := st.batchId + 1,
        reader := ⟨accA.tok, accA.outTmp.drop accA.rbEnd, accA.ends⟩} ys
      (rowsA + accA.rowEnds.length) accA.tok accA.ends ys rfl
    simp only [] at hBeq
    simp only [List.length_drop] at hBeq
    have hrelNE : RebRel accA.outTmp accA.rowEnds accA.fEnds
        (st.reader.out.length + accA.rbEnd) accA.rbEnd accA
        ⟨[], accA.ends, [], [], 0, accA.tok⟩ := by
      refine ⟨rfl, rfl, by simp, by simp, by simp, Or.inl ⟨rfl, rfl, rfl⟩⟩
    have hreb := mainLoop_rebase cfg st.numFields st.path (ys.length + 1) ys
      (ys.length + 1) accA ⟨[], accA.ends, [], [], 0, accA.tok⟩ accA.outTmp
      accA.rowEnds accA.fEnds (st.reader.out.length + accA.rbEnd) accA.rbEnd
      st.rows (rowsA + accA.rowEnds.length) st.reader.out.length
      (accA.outTmp.length - accA.rbEnd) ((c ++ ys).length) ys.length
      (by omega) (by omega)
      (by simp only [List.length_append]; omega)
      (by simp only []; simp only [List.length_nil]; omega)
      (by omega)
      hrelNE
    match hmW : mainLoop cfg st.numFields st.path st.rows st.reader.out.length
        ((c ++ ys).length) ((remA ++ ys).length + 1) ⟨[], endsA, [], [], 0, tokA⟩
        (remA ++ ys) with
    | .error eW =>
        rw [hmW] at hMR
        match hres : mainLoop cfg st.numFields st.path st.rows st.reader.out.length
            ((c ++ ys).length) (ys.length + 1) accA ys with
        | .ok accR =>
            rw [hres] at hMR
            exact absurd hMR (by simp [MRel])
        | .error eR =>
            rw [hres] at hreb
            match hmB : mainLoop cfg st.numFields st.path (rowsA + accA.rowEnds.length)
                (accA.outTmp.length - accA.rbEnd) ys.length (ys.length + 1)
                ⟨[], accA.ends, [], [], 0, accA.tok⟩ ys with
            | .ok accB2 =>
                rw [hmB] at hreb
                exact absurd hreb (by simp)
            | .error eB =>
                have hWerr : align cfg st (c ++ ys) = .error eW := by
                  rw [hWeq, hmW]
                have hBerr : align cfg
                    {st with
                      rows := rowsA + accA.rowEnds.length,
                      rowsToSkip := 0,
                      offset := st.offset + c.length,
                      batchId := st.batchId + 1,
                      reader := ⟨accA.tok, accA.outTmp.drop accA.rbEnd, accA.ends⟩} ys
                    = .error eB := by
                  rw [hBeq, hmB]
                rw [hWerr, hBerr]
                obtain ⟨mw, rw1, hew⟩ := mainLoop_err_shape cfg st.numFields st.path
                  st.rows st.reader.out.length ((c ++ ys).length)
                  ((remA ++ ys).length + 1) _ _ eW hmW
                obtain ⟨mb, rb1, heb⟩ := mainLoop_err_shape cfg st.numFields st.path
                  (rowsA + accA.rowEnds.length) (accA.outTmp.length - accA.rbEnd)
                  ys.length (ys.length + 1) _ _ eB hmB
                exact ⟨st.path, mw, rw1, mb, rb1, hew, heb⟩
    | .ok accW2 =>
        rw [hmW] at hMR
        match hres : mainLoop cfg st.numFields st.path st.rows st.reader.out.length
            ((c ++ ys).length) (ys.length + 1) accA ys with
        | .error eR =>
            rw [hres] at hMR
            exact absurd hMR (by simp [MRel])
        | .ok accR =>
            rw [hres] at hMR hreb
            have hWR : accW2 = accR := hMR
            rw [hWR] at hmW
            match hmB : mainLoop cfg st.numFields st.path (rowsA + accA.rowEnds.length)
                (accA.outTmp.length - accA.rbEnd) ys.length (ys.length + 1)
                ⟨[], accA.ends, [], [], 0, accA.tok⟩ ys with
            | .error eB =>
                rw [hmB] at hreb
                exact absurd hreb (by simp)
            | .ok accB2 =>
                rw [hmB] at hreb
                obtain ⟨q1, q2, q3, q4, q5, q6⟩ := hreb
                have hWok : align cfg st (c ++ ys)
                    = .ok (assemble st (c ++ ys).length (.aligned rowsA accR)) := by
                  rw [hWeq, hmW]
                have hBok : align cfg
                    {st with
                      rows := rowsA + accA.rowEnds.length,
                      rowsToSkip := 0,
                      offset := st.offset + c.length,
                      batchId := st.batchId + 1,
                      reader := ⟨accA.tok, accA.outTmp.drop accA.rbEnd, accA.ends⟩} ys
                    = .ok (assemble
                      {st with
                        rows := rowsA + accA.rowEnds.length,
                        rowsToSkip := 0,
                        offset := st.offset + c.length,
                        batchId := st.batchId + 1,
                        reader := ⟨accA.tok, accA.outTmp.drop accA.rbEnd, accA.ends⟩}
                      ys.length (.aligned (rowsA + accA.rowEnds.length) accB2)) := by
                  rw [hBeq, hmB]
                have hacc0B : mainWF (accA.outTmp.length - accA.rbEnd) st.numFields
                    (⟨[], accA.ends, [], [], 0, accA.tok⟩ : MainAcc) := by
                  refine ⟨m1, m2, ?_, rfl, fun _ => rfl, by simp, by simp, rfl, by simp⟩
                  simp only [List.length_nil, List.getLastD_nil, Nat.add_zero,
                    Nat.zero_add]
                  omega
                obtain ⟨n1, n2, n3, n4, n5, n6, n7, n8, n9⟩ :=
                  mainLoop_mainWF cfg st.numFields st.path (rowsA + accA.rowEnds.length)
                    (accA.outTmp.length - accA.rbEnd) ys.length hnf (ys.length + 1) _ ys
                    accB2 hmB hacc0B
                by_cases hempB : accB2.rowEnds.isEmpty
                · -- the suffix completed no further row: the whole-stream batch is
                  -- exactly the prefix chunk's batch
                  have hrowsBE : accB2.rowEnds = [] := List.isEmpty_iff.mp hempB
                  have hfBE : accB2.fEnds = [] := by
                    have hl : accB2.fEnds.length = 0 := by rw [← n9, hrowsBE]; simp
                    exact List.eq_nil_of_length_eq_zero hl
                  have hrowsR : accR.rowEnds = accA.rowEnds := by
                    rw [q4, hrowsBE]
                    simp
                  have hempR : ¬accR.rowEnds.isEmpty = true := fun hx =>
                    hrowsNE (by rw [← hrowsR]; exact List.isEmpty_iff.mp hx)
                  rcases q6 with ⟨-, hq61, hq62⟩ | ⟨hq60, -⟩
                  · have hWfin : align cfg st (c ++ ys)
                        = .ok ({st with
                            rows := rowsA + accR.rowEnds.length,
                            rowsToSkip := 0,
                            offset := st.offset + (c ++ ys).length,
                            batchId := st.batchId + 1,
                            reader := ⟨accR.tok, accR.outTmp.drop accR.rbEnd,
                              accR.ends⟩},
                          [⟨st.reader.out ++ accR.outTmp.take accR.rbEnd,
                            accR.rowEnds, accR.fEnds, st.path, st.batchId, 0,
                            some rowsA⟩]) := by
                      rw [hWok]
                      simp [assemble, hempR]
                    have hBfin : align cfg
                        {st with
                          rows := rowsA + accA.rowEnds.length,
                          rowsToSkip := 0,
                          offset := st.offset + c.length,
                          batchId := st.batchId + 1,
                          reader := ⟨accA.tok, accA.outTmp.drop accA.rbEnd,
                            accA.ends⟩} ys
                        = .ok ({st with
                            rows := rowsA + accA.rowEnds.length,
                            rowsToSkip := 0,
                            offset := st.offset + c.length + ys.length,
                            batchId := st.batchId + 1,
                            reader := ⟨accB2.tok,
                              (accA.outTmp.drop accA.rbEnd) ++ accB2.outTmp,
                              accB2.ends⟩},
                          ([] : List RowBatch)) := by
                      rw [hBok]
                      simp [assemble, hempB]
                    rw [hWfin, hBfin]
                    refine ⟨⟨?_, ?_, rfl, ?_, rfl, rfl⟩, ?_⟩
                    · rw [q1, q2, q3, hq61, List.drop_append_of_le_length m7]
                    · rw [hrowsR]
                    · simp only [List.length_append]
                      omega
                    · have hbatch : (⟨st.reader.out ++ accR.outTmp.take accR.rbEnd,
                          accR.rowEnds, accR.fEnds, st.path, st.batchId, 0,
                          some rowsA⟩ : RowBatch)
                          = ⟨st.reader.out ++ accA.outTmp.take accA.rbEnd,
                            accA.rowEnds, accA.fEnds, st.path, st.batchId, 0,
                            some rowsA⟩ := by
                        rw [q3, hrowsR, q5, hfBE, hq61,
                          List.take_append_of_le_length m7]
                        simp
                      rw [hbatch]
                      simp [rowsAll]
                  · exact absurd hrowsBE hq60
                · -- both runs emit a batch; the whole-stream batch splits into the
                  -- prefix batch followed by the suffix batch
                  have hneB : accB2.rowEnds ≠ [] := fun hx => hempB (by simp [hx])
                  have hRne : accR.rowEnds ≠ [] := by
                    rw [q4]
                    simp [hneB]
                  have hempR : ¬accR.rowEnds.isEmpty = true := fun hx =>
                    hRne (List.isEmpty_iff.mp hx)
                  rcases q6 with ⟨hq0, -, -⟩ | ⟨-, hq6⟩
                  · exact absurd hq0 hneB
                  have hWfin : align cfg st (c ++ ys)
                      = .ok ({st with
                          rows := rowsA + accR.rowEnds.length,
                          rowsToSkip := 0,
                          offset := st.offset + (c ++ ys).length,
                          batchId := st.batchId + 1,
                          reader := ⟨accR.tok, accR.outTmp.drop accR.rbEnd,
                            accR.ends⟩},
                        [⟨st.reader.out ++ accR.outTmp.take accR.rbEnd, accR.rowEnds,
                          accR.fEnds, st.path, st.batchId, 0, some rowsA⟩]) := by
                    rw [hWok]
                    simp [assemble, hempR]
                  have hBfin : align cfg
                      {st with
                        rows := rowsA + accA.rowEnds.length,
                        rowsToSkip := 0,
                        offset := st.offset + c.length,
                        batchId := st.batchId + 1,
                        reader := ⟨accA.tok, accA.outTmp.drop accA.rbEnd,
                          accA.ends⟩} ys
                      = .ok ({st with
                          rows := rowsA + accA.rowEnds.length
                            + accB2.rowEnds.length,
                          rowsToSkip := 0,
                          offset := st.offset + c.length + ys.length,
                          batchId := st.batchId + 1 + 1,
                          reader := ⟨accB2.tok, accB2.outTmp.drop accB2.rbEnd,
                            accB2.ends⟩},
                        [⟨(accA.outTmp.drop accA.rbEnd)
                            ++ accB2.outTmp.take accB2.rbEnd,
                          accB2.rowEnds, accB2.fEnds, st.path, st.batchId + 1, 0,
                          some (rowsA + accA.rowEnds.length)⟩]) := by
                    rw [hBok]
                    simp [assemble, hempB]
                  rw [hWfin, hBfin]
                  refine ⟨⟨?_, ?_, rfl, ?_, rfl, rfl⟩, ?_⟩
                  · rw [q1, q2, q3, hq6, List.drop_append accB2.rbEnd]
                  · rw [q4]
                    simp only [List.length_append, List.length_map]
                    omega
                  · simp only [List.length_append]
                    omega
                  · have hsplit := batchRows_split st.numFields
                      ⟨st.reader.out ++ accA.outTmp.take accA.rbEnd, accA.rowEnds,
                        accA.fEnds, st.path, st.batchId, 0, some rowsA⟩
                      ⟨accA.outTmp.drop accA.rbEnd ++ accB2.outTmp.take accB2.rbEnd,
                        accB2.rowEnds, accB2.fEnds, st.path, st.batchId + 1, 0,
                        some (rowsA + accA.rowEnds.length)⟩
                      ⟨st.reader.out ++ accR.outTmp.take accR.rbEnd, accR.rowEnds,
                        accR.fEnds, st.path, st.batchId, 0, some rowsA⟩
                      ?_ ?_ ?_ ?_ ?_ ?_
                    · simp only [rowsAll, List.map_cons, List.map_nil,
                        List.flatten_cons, List.flatten_nil, List.append_nil]
                      exact hsplit
                    · simp only []
                      rw [q3, hq6, List.take_append accB2.rbEnd]
                      simp only [List.append_assoc]
                      rw [← List.append_assoc (accA.outTmp.take accA.rbEnd),
                        List.take_append_drop]
                    · simp only []
                      rw [q4]
                      have hlen : (st.reader.out ++ accA.outTmp.take accA.rbEnd).length
                          = st.reader.out.length + accA.rbEnd := by
                        simp only [List.length_append, List.length_take]
                        omega
                      rw [hlen]
                      congr 1
                      apply List.map_congr_left
                      intro x hx
                      omega
                    · simp only []
                      exact q5
                    · simp only []
                      intro x hx
                      have hb := nonDecrB_le_getLastD accA.rowEnds 0 m4 x hx
                      simp only [List.length_append, List.length_take]
                      omega
                    · simp only []
                      simp only [List.length_append, List.length_take]
                      omega
                    · simp only []
                      omega

theorem align_two (cfg : TokCfg) (st : AligningState) (c ys : List Nat)
    (hnf : 0 < st.numFields) (hwf : stateWFb st = true) :
    (∀ e, align cfg st c = .error e →
      ∃ e', align cfg st (c ++ ys) = .error e') ∧
    (∀ st1 bs1, align cfg st c = .ok (st1, bs1) →
      match align cfg st (c ++ ys), align cfg st1 ys with
      | .ok (sW, bW), .ok (s2, b2) =>
          StEq sW s2 ∧ rowsAll st.numFields bW
            = rowsAll st.numFields bs1 ++ rowsAll st.numFields b2
      | .error e1, .error e2 => ErrAgree e1 e2
      | _, _ => False) := by
  obtain ⟨hp1, hp2, hp3⟩ := headerLoop_extend cfg st.numFields st.path st.rowsToSkip
    st.rows st.reader.tok st.reader.fieldEnds c ys c.length ((c ++ ys).length)
    (le_refl _) (by simp)
  match hhA : headerLoop cfg st.numFields st.path c.length st.rowsToSkip st.rows
      st.reader.tok st.reader.fieldEnds c with
  | .error e0 =>
      have hWh := hp1 e0 hhA
      have hAerr : align cfg st c = .error e0 := by
        unfold align alignCore
        rw [hhA]
      have hWerr : align cfg st (c ++ ys) = .error e0 := by
        unfold align alignCore
        rw [hWh]
      constructor
      · intro e he
        exact ⟨e0, hWerr⟩
      · intro st1 bs1 hok
        rw [hAerr] at hok
        simp at hok
  | .ok (.through rowsA tokA endsA remA) =>
      have hAeq := align_through_eq cfg st c rowsA tokA endsA remA hhA
      have hremA : remA.length ≤ c.length := headerLoop_through_len cfg st.numFields
        st.path c.length st.rowsToSkip st.rows st.reader.tok st.reader.fieldEnds c
        rowsA tokA endsA remA hhA
      constructor
      · intro e he
        rw [hAeq] at he
        match hmA : mainLoop cfg st.numFields st.path st.rows st.reader.out.length
            c.length (remA.length + 1) ⟨[], endsA, [], [], 0, tokA⟩ remA with
        | .ok accA =>
            rw [hmA] at he
            simp at he
        | .error eA =>
            rw [hmA] at he
            obtain ⟨hLp1, -⟩ := mainLoop_extend cfg st.numFields st.path st.rows
              st.reader.out.length (remA.length + 1) remA ys
              ⟨[], endsA, [], [], 0, tokA⟩ ((remA ++ ys).length + 1) c.length
              ((c ++ ys).length)
              (by omega) (by simp only [List.length_append]; omega)
              (by simpa using hremA)
              (by simp only [List.length_append]
                  simpa using (by omega : remA.length + ys.length
                    ≤ c.length + ys.length))
            have hWm := hLp1 eA hmA
            have hWh := hp2 rowsA tokA endsA remA hhA
            have hWeq := align_through_eq cfg st (c ++ ys) rowsA tokA endsA
              (remA ++ ys) hWh
            refine ⟨eA, ?_⟩
            rw [hWeq, hWm]
      · intro st1 bs1 hok
        rw [hAeq] at hok
        match hmA : mainLoop cfg st.numFields st.path st.rows st.reader.out.length
            c.length (remA.length + 1) ⟨[], endsA, [], [], 0, tokA⟩ remA with
        | .error eA =>
            rw [hmA] at hok
            simp at hok
        | .ok accA =>
            rw [hmA] at hok
            simp only [Except.ok.injEq] at hok
            exact align_two_through cfg st c ys rowsA tokA endsA remA accA st1 bs1
              hnf hwf hhA hmA hok
  | .ok (.stop rowsA rtsA tokA endsA) =>
      have hAok := align_stopped_eq cfg st c rowsA rtsA tokA endsA hhA
      constructor
      · intro e he
        rw [hAok] at he
        simp at he
      · intro st1 bs1 hok
        rw [hAok] at hok
        simp only [Except.ok.injEq, Prod.mk.injEq] at hok
        obtain ⟨hst1, hbs1⟩ := hok
        subst hst1
        subst hbs1
        have hres := hp3 rowsA rtsA tokA endsA hhA
        have hBcap : headerLoop cfg st.numFields st.path ((c ++ ys).length) rtsA rowsA
            tokA endsA ys
            = headerLoop cfg st.numFields st.path ys.length rtsA rowsA tokA endsA ys :=
          headerLoop_cap_irrel cfg st.numFields st.path rtsA rowsA tokA endsA ys
            ((c ++ ys).length) ys.length (by simp) (le_refl _)
        rw [hBcap] at hres
        match hW : headerLoop cfg st.numFields st.path ((c ++ ys).length) st.rowsToSkip
            st.rows st.reader.tok st.reader.fieldEnds (c ++ ys) with
        | .error eW =>
            rw [hW] at hres
            match hB : headerLoop cfg st.numFields st.path ys.length rtsA rowsA tokA
                endsA ys with
            | .ok oB =>
                rw [hB] at hres
                exact absurd hres (by simp [HRel])
            | .error eB =>
                rw [hB] at hres
                have hWerr : align cfg st (c ++ ys) = .error eW := by
                  unfold align alignCore
                  rw [hW]
                have hBerr : align cfg
                    {st with
                      rows := rowsA,
                      rowsToSkip := rtsA,
                      offset := st.offset + c.length,
                      reader := ⟨tokA, st.reader.out, endsA⟩} ys = .error eB := by
                  unfold align alignCore
                  simp only []
                  rw [hB]
                rw [hWerr, hBerr]
                exact hres
        | .ok oW =>
            rw [hW] at hres
            match hB : headerLoop cfg st.numFields st.path ys.length rtsA rowsA tokA
                endsA ys with
            | .error eB =>
                rw [hB] at hres
                exact absurd hres (by simp [HRel])
            | .ok oB =>
                rw [hB] at hres
                have hoB : oW = oB := hres
                subst hoB
                cases oW with
                | stop rows2 rts2 tok2 ends2 =>
                    have hWok := align_stopped_eq cfg st (c ++ ys) rows2 rts2 tok2
                      ends2 hW
                    have hBok := align_stopped_eq cfg
                      {st with
                        rows := rowsA,
                        rowsToSkip := rtsA,
                        offset := st.offset + c.length,
                        reader := ⟨tokA, st.reader.out, endsA⟩} ys rows2 rts2 tok2
                      ends2 hB
                    rw [hWok, hBok]
                    refine ⟨⟨rfl, rfl, rfl, ?_, rfl, rfl⟩, by simp [rowsAll]⟩
                    simp only [List.length_append]
                    omega
                | through rows2 tok2 ends2 rem2 =>
                    have hrem2 : rem2.length ≤ ys.length := headerLoop_through_len cfg
                      st.numFields st.path ys.length rtsA rowsA tokA endsA ys rows2
                      tok2 ends2 rem2 hB
                    have hWeq := align_through_eq cfg st (c ++ ys) rows2 tok2 ends2
                      rem2 hW
                    have hBeq := align_through_eq cfg
                      {st with
                        rows := rowsA,
                        rowsToSkip := rtsA,
                        offset := st.offset + c.length,
                        reader := ⟨tokA, st.reader.out, endsA⟩} ys rows2 tok2 ends2
                      rem2 hB
                    simp only [] at hBeq
                    have hmp := mainLoop_param_rel cfg st.numFields st.path
                      st.reader.out.length (rem2.length + 1)
                      ⟨[], ends2, [], [], 0, tok2⟩ rem2 st.rows rowsA
                      ((c ++ ys).length) ys.length
                      (by simp only [List.length_append]
                          simpa using (by omega : rem2.length
                            ≤ c.length + ys.length))
                      (by simpa using hrem2)
                    match hmW2 : mainLoop cfg st.numFields st.path st.rows
                        st.reader.out.length ((c ++ ys).length) (rem2.length + 1)
                        ⟨[], ends2, [], [], 0, tok2⟩ rem2 with
                    | .error eW2 =>
                        rw [hmW2] at hmp
                        match hmB2 : mainLoop cfg st.numFields st.path rowsA
                            st.reader.out.length ys.length (rem2.length + 1)
                            ⟨[], ends2, [], [], 0, tok2⟩ rem2 with
                        | .ok accE2 =>
                            rw [hmB2] at hmp
                            exact absurd hmp (by simp [MRel])
                        | .error eB2 =>
                            have hWerr : align cfg st (c ++ ys) = .error eW2 := by
                              rw [hWeq, hmW2]
                            have hBerr : align cfg
                                {st with
                                  rows := rowsA,
                                  rowsToSkip := rtsA,
                                  offset := st.offset + c.length,
                                  reader := ⟨tokA, st.reader.out, endsA⟩} ys
                                = .error eB2 := by
                              rw [hBeq, hmB2]
                            rw [hWerr, hBerr]
                            rw [hmB2] at hmp
                            exact hmp
                    | .ok accE =>
                        rw [hmW2] at hmp
                        match hmB2 : mainLoop cfg st.numFields st.path rowsA
                            st.reader.out.length ys.length (rem2.length + 1)
                            ⟨[], ends2, [], [], 0, tok2⟩ rem2 with
                        | .error eB2 =>
                            rw [hmB2] at hmp
                            exact absurd hmp (by simp [MRel])
                        | .ok accE2 =>
                            rw [hmB2] at hmp
                            have hEE : accE = accE2 := hmp
                            rw [← hEE] at hmB2
                            by_cases hempE : accE.rowEnds.isEmpty
                            · have hWfin : align cfg st (c ++ ys)
                                  = .ok ({st with
                                      rows := rows2,
                                      rowsToSkip := 0,
                                      offset := st.offset + (c ++ ys).length,
                                      reader := ⟨accE.tok,
                                        st.reader.out ++ accE.outTmp, accE.ends⟩},
                                    ([] : List RowBatch)) := by
                                rw [hWeq, hmW2]
                                simp [assemble, hempE]
                              have hBfin : align cfg
                                  {st with
                                    rows := rowsA,
                                    rowsToSkip := rtsA,
                                    offset := st.offset + c.length,
                                    reader := ⟨tokA, st.reader.out, endsA⟩} ys
                                  = .ok ({st with
                                      rows := rows2,
                                      rowsToSkip := 0,
                                      offset := st.offset + c.length + ys.length,
                                      reader := ⟨accE.tok,
                                        st.reader.out ++ accE.outTmp, accE.ends⟩},
                                    ([] : List RowBatch)) := by
                                rw [hBeq, hmB2]
                                simp [assemble, hempE]
                              rw [hWfin, hBfin]
                              refine ⟨⟨rfl, rfl, rfl, ?_, rfl, rfl⟩,
                                by simp [rowsAll]⟩
                              simp only [List.length_append]
                              omega
                            · have hWfin : align cfg st (c ++ ys)
                                  = .ok ({st with
                                      rows := rows2 + accE.rowEnds.length,
                                      rowsToSkip := 0,
                                      offset := st.offset + (c ++ ys).length,
                                      batchId := st.batchId + 1,
                                      reader := ⟨accE.tok,
                                        accE.outTmp.drop accE.rbEnd, accE.ends⟩},
                                    [⟨st.reader.out ++ accE.outTmp.take accE.rbEnd,
                                      accE.rowEnds, accE.fEnds, st.path, st.batchId,
                                      0, some rows2⟩]) := by
                                rw [hWeq, hmW2]
                                simp [assemble, hempE]
                              have hBfin : align cfg
                                  {st with
                                    rows := rowsA,
                                    rowsToSkip := rtsA,
                                    offset := st.offset + c.length,
                                    reader := ⟨tokA, st.reader.out, endsA⟩} ys
                                  = .ok ({st with
                                      rows := rows2 + accE.rowEnds.length,
                                      rowsToSkip := 0,
                                      offset := st.offset + c.length + ys.length,
                                      batchId := st.batchId + 1,
                                      reader := ⟨accE.tok,
                                        accE.outTmp.drop accE.rbEnd, accE.ends⟩},
                                    [⟨st.reader.out ++ accE.outTmp.take accE.rbEnd,
                                      accE.rowEnds, accE.fEnds, st.path, st.batchId,
                                      0, some rows2⟩]) := by
                                rw [hBeq, hmB2]
                                simp [assemble, hempE]
                              rw [hWfin, hBfin]
                              refine ⟨⟨rfl, rfl, rfl, ?_, rfl, rfl⟩,
                                by simp [rowsAll]⟩
                              simp only [List.length_append]
                              omega

theorem alignAll_chunks_rel (cfg : TokCfg) :
    ∀ (chunks : List (List Nat)) (st : AligningState),
      0 < st.numFields → stateWFb st = true →
      OutcomeRel st.numFields (align cfg st chunks.flatten)
        (alignAll cfg st chunks) := by
  intro chunks
  induction chunks with
  | nil =>
      intro st hnf hwf
      rw [show (List.flatten ([] : List (List Nat))) = [] from rfl]
      rw [align_nil, alignAll]
      exact ⟨StEq_refl st, rfl⟩
  | cons c cs ih =>
      intro st hnf hwf
      rw [show (c :: cs).flatten = c ++ cs.flatten from rfl]
      obtain ⟨hT1, hT2⟩ := align_two cfg st c cs.flatten hnf hwf
      rw [alignAll]
      match ha : align cfg st c with
      | .error e =>
          obtain ⟨e', hWerr⟩ := hT1 e ha
          rw [hWerr]
          simp only []
          obtain ⟨mw, rw1, hew⟩ := align_err_shape cfg st (c ++ cs.flatten) e' hWerr
          obtain ⟨ma, ra1, hea⟩ := align_err_shape cfg st c e ha
          exact ⟨st.path, mw, rw1, ma, ra1, hew, hea⟩
      | .ok (st1, bs1) =>
          have hrel2 := hT2 st1 bs1 ha
          obtain ⟨hwf1, -⟩ := align_wf cfg st c st1 bs1 hnf ha hwf
          obtain ⟨hnf1, hpath1⟩ := align_preserves_shape cfg st c st1 bs1 ha
          have hIH := ih st1 (by omega) hwf1
          rw [hnf1] at hIH
          simp only []
          match hW : align cfg st (c ++ cs.flatten) with
          | .error eW =>
              rw [hW] at hrel2
              match hB : align cfg st1 cs.flatten with
              | .ok p =>
                  rw [hB] at hrel2
                  exact absurd hrel2 (by simp)
              | .error eB =>
                  rw [hB] at hIH
                  match hC : alignAll cfg st1 cs with
                  | .ok p =>
                      rw [hC] at hIH
                      exact absurd hIH (by simp [OutcomeRel])
                  | .error eC =>
                      simp only []
                      obtain ⟨mw, rw1, hew⟩ := align_err_shape cfg st _ eW hW
                      obtain ⟨mc, rc1, hec⟩ := alignAll_err_shape cfg cs st1 eC hC
                      rw [hpath1] at hec
                      exact ⟨st.path, mw, rw1, mc, rc1, hew, hec⟩
          | .ok (sW, bW) =>
              rw [hW] at hrel2
              match hB : align cfg st1 cs.flatten with
              | .error eB =>
                  rw [hB] at hrel2
                  exact absurd hrel2 (by simp)
              | .ok (sB, b2) =>
                  rw [hB] at hrel2
                  rw [hB] at hIH
                  obtain ⟨hSE1, hRows1⟩ := hrel2
                  match hC : alignAll cfg st1 cs with
                  | .error eC =>
                      rw [hC] at hIH
                      exact absurd hIH (by simp [OutcomeRel])
                  | .ok (s2, bs2) =>
                      rw [hC] at hIH
                      simp only []
                      obtain ⟨hSE2, hRows2⟩ := hIH
                      refine ⟨StEq_trans sW sB s2 hSE1 hSE2, ?_⟩
                      rw [hRows1, hRows2, rowsAll_append]

/-- C1 (amended): chunk-split independence up to error details.  From any
well-formed aligner state (in particular from stream open), feeding a byte
stream whole or split across any sequence of `align` calls is equivalent up
to batch boundaries: on success both runs produce the same decoded row data
with the same per-row field boundaries, in the same order, and end in the
same aligner state except for the batch-sequence id.  A malformed stream
fails in both runs with a `BadBytes` `csv_error` for the same path — but not
necessarily the byte-identical error: the reported found-field count is the
final tokenizer invocation's count, which depends on where the chunk
boundary falls, and the reported row number omits header rows skipped
earlier in the same call. -/
theorem align_chunk_split_independence (cfg : TokCfg) (st : AligningState)
    (chunks : List (List Nat)) (hnf : 0 < st.numFields)
    (hwf : stateWFb st = true) :
    OutcomeRel st.numFields (align cfg st chunks.flatten)
      (alignAll cfg st chunks) :=
  alignAll_chunks_rel cfg chunks st hnf hwf

/-- C1 witness: a two-chunk split of `"a\nb\n"` with one column. -/
theorem align_chunk_split_independence_witness :
    0 < (initState "p" 1 0).numFields ∧ stateWFb (initState "p" 1 0) = true ∧
      OutcomeRel (initState "p" 1 0).numFields
        (align cfgEx (initState "p" 1 0) [[97, 10], [98, 10]].flatten)
        (alignAll cfgEx (initState "p" 1 0) [[97, 10], [98, 10]]) :=
  ⟨by decide, by decide,
    align_chunk_split_independence cfgEx (initState "p" 1 0) [[97, 10], [98, 10]]
      (by decide) (by decide)⟩

/-- C1 counterexample: the claim's byte-identical outcomes fail on errors.
With three expected fields, `"a,b\n"` fed whole reports `only found 2`,
while the split `["a,", "b\n"]` reports `only found 1` — the found-field
count is the final tokenizer invocation's count.  With two fields and one
header row, `"x,y\nb\n"` fed whole reports the bad row as row 1 (the
captured pre-header counter), while the split `["x,y\n", "b\n"]` reports
row 2. -/
theorem align_chunk_split_independence_counterexample :
    (align cfgEx (initState "p" 3 0) [97, 44, 98, 10]
      = .error (csvError (tooFewMsg 3 2) "p" 0)) ∧
    (alignAll cfgEx (initState "p" 3 0) [[97, 44], [98, 10]]
      = .error (csvError (tooFewMsg 3 1) "p" 0)) ∧
    csvError (tooFewMsg 3 2) "p" 0 ≠ csvError (tooFewMsg 3 1) "p" 0 ∧
    (align cfgEx (initState "q" 2 1) [120, 44, 121, 10, 98, 10]
      = .error (csvError (tooFewMsg 2 1) "q" 0)) ∧
    (alignAll cfgEx (initState "q" 2 1) [[120, 44, 121, 10], [98, 10]]
      = .error (csvError (tooFewMsg 2 1) "q" 1)) ∧
    csvError (tooFewMsg 2 1) "q" 0 ≠ csvError (tooFewMsg 2 1) "q" 1 := by
  decide
